import Mathlib

/-!
# Gandaci Java: maximum bipartite matching by augmenting paths

A shallow embedding of `GandaciJava.cpp` and a verification of its matching engine.

* The C++ arrays `researcher[10001]`, `bug[10001]` and `visitedResearchers[10001]` are
  functions on `Nat`; `memset` over the first `count + 1` cells is modelled cell by cell, so
  whatever an earlier test left in the cells above `count` stays visible.
* Values of type `short` that a valid test bounds by `10000` are natural numbers.  The one
  `short` that no validity condition bounds, the result of `Test::getExperimentCount`
  (a narrowed `std::vector::size()`), is computed with explicit 16-bit wrap-around.
* The recursion of `GandaciJava::pair` and the `do ... while` loop of
  `maximumBipartiteGraphMatching` take a fuel argument and return `none` when it runs out;
  the theorems show that every fuel above `researcherCount` suffices on valid input and that
  the result is the same for all of them.
* The engine carries a history variable `log` that records, in execution order, the resets of
  the visit tracker, the calls of `GandaciJava::pair`, the bugs examined by its second loop,
  the pairing state after every call of `PairManager::pair`, and the returns to the `for`
  loop.  No operation reads it; it exists to state properties of intermediate states.
-/

/-! # Part 1: the embedding and the vocabulary of the specification -/

/-! ## Machine integers -/

/-- Narrowing of a non-negative integer to a C++ `short` (two's complement, 16 bits). -/
def toShort (n : Nat) : Int :=
  if n % 65536 < 32768 then ((n % 65536 : Nat) : Int) else ((n % 65536 : Nat) : Int) - 65536

/-! ## class PairManager -/

/-- The fields of `class PairManager`. -/
structure PairManager where
  researcherCount : Nat
  bugCount : Nat
  researcher : Nat → Nat
  bug : Nat → Nat

namespace PairManager

/-- The method `initialize` of `PairManager` (the name is reserved in Lean): stores the counts and clears cells `0..count` of both arrays. -/
def init (pm : PairManager) (researcherCount bugCount : Nat) : PairManager :=
  { researcherCount := researcherCount
    bugCount := bugCount
    researcher := fun i => if i ≤ researcherCount then 0 else pm.researcher i
    bug := fun i => if i ≤ bugCount then 0 else pm.bug i }

/-- Method `PairManager::pair`: two unconditional array writes. -/
def pair (pm : PairManager) (researcher bug : Nat) : PairManager :=
  { pm with
    researcher := fun i => if i = researcher then bug else pm.researcher i
    bug := fun i => if i = bug then researcher else pm.bug i }

/-- Method `PairManager::isResearcherPaired`. -/
def isResearcherPaired (pm : PairManager) (researcher : Nat) : Bool :=
  pm.researcher researcher != 0

/-- Method `PairManager::isBugPaired`. -/
def isBugPaired (pm : PairManager) (bug : Nat) : Bool :=
  pm.bug bug != 0

/-- Method `PairManager::getResearcherOfBug`. -/
def getResearcherOfBug (pm : PairManager) (bug : Nat) : Nat :=
  pm.bug bug

/-- Method `PairManager::getBugOfResearcher`. -/
def getBugOfResearcher (pm : PairManager) (researcher : Nat) : Nat :=
  pm.researcher researcher

/-- Method `PairManager::getPairCount`: the counting loop over `bugIndex = 1..bugCount`. -/
def getPairCount (pm : PairManager) : Nat :=
  (List.range' 1 pm.bugCount).foldl
    (fun pairCount bugIndex => if pm.bug bugIndex != 0 then pairCount + 1 else pairCount) 0

end PairManager

/-! ## class VisitManager -/

/-- The field of `class VisitManager`. -/
structure VisitManager where
  visitedResearchers : Nat → Bool

namespace VisitManager

/-- The method `initialize` of `VisitManager`: clears cells `0..researcherCount`. -/
def init (vm : VisitManager) (researcherCount : Nat) : VisitManager :=
  { visitedResearchers := fun i => if i ≤ researcherCount then false else vm.visitedResearchers i }

/-- Method `VisitManager::isVisited`. -/
def isVisited (vm : VisitManager) (researcher : Nat) : Bool :=
  vm.visitedResearchers researcher

/-- Method `VisitManager::visit`. -/
def visit (vm : VisitManager) (researcher : Nat) : VisitManager :=
  { visitedResearchers := fun i => if i = researcher then true else vm.visitedResearchers i }

end VisitManager

/-! ## class Test -/

/-- The fields of `class Test`; `experiment` is the array of adjacency vectors. -/
structure Test where
  researcherCount : Nat
  bugCount : Nat
  experiment : Nat → List Nat

namespace Test

/-- The constructor `Test::Test`: every adjacency vector starts empty. -/
def new (researcherCount bugCount : Nat) : Test :=
  { researcherCount := researcherCount, bugCount := bugCount, experiment := fun _ => [] }

/-- Method `Test::getResearcherCount`. -/
def getResearcherCount (t : Test) : Nat := t.researcherCount

/-- Method `Test::getBugCount`. -/
def getBugCount (t : Test) : Nat := t.bugCount

/-- Method `Test::addExperiment`: `push_back` on the vector of the researcher (the `reserve` call
only preallocates). -/
def addExperiment (t : Test) (researcher bug : Nat) : Test :=
  { t with experiment := fun i => if i = researcher then t.experiment i ++ [bug] else t.experiment i }

/-- Method `Test::getExperimentCount`: the vector size narrowed to the `short` return type. -/
def getExperimentCount (t : Test) (researcher : Nat) : Int :=
  toShort (t.experiment researcher).length

/-- Method `Test::getExperiments` as the loops of `GandaciJava::pair` read it: the cells
`experiments[0], ..., experiments[experimentCount - 1]`, none when the count is not positive. -/
def getExperiments (t : Test) (researcher : Nat) : List Nat :=
  (t.experiment researcher).take (t.getExperimentCount researcher).toNat

end Test

/-! ## class GandaciJava -/

/-- What the history variable of the engine records, in execution order. -/
inductive Event where
  /-- The visit tracker was cleared at the start of an iteration of the `do ... while` loop. -/
  | reset
  /-- `GandaciJava::pair` was entered for a researcher; the flag is `isVisited` at entry. -/
  | called (researcher : Nat) (visited : Bool)
  /-- The second loop of `GandaciJava::pair` read `getResearcherOfBug(bug)`. -/
  | examined (bug : Nat) (anotherResearcher : Nat)
  /-- The pairing state right after a call of `PairManager::pair`. -/
  | paired (pm : PairManager)
  /-- A call made by the `for` loop returned; the pairing state at that moment. -/
  | returned (researcher : Nat) (result : Bool) (pm : PairManager)

/-- The fields of `class GandaciJava` (`currentTest` is passed as an argument instead), and a
history variable `log` that no operation reads. -/
structure GandaciJava where
  pairManager : PairManager
  visitManager : VisitManager
  solutions : List Nat
  log : List Event

namespace GandaciJava

/-- Appends an event to the history variable. -/
def record (g : GandaciJava) (e : Event) : GandaciJava :=
  { g with log := g.log ++ [e] }

/-- The statement `visitManager.visit(researcher)`. -/
def visit (g : GandaciJava) (researcher : Nat) : GandaciJava :=
  { g with visitManager := g.visitManager.visit researcher }

/-- The statement `pairManager.pair(researcher, bug)`, recorded in the history. -/
def setPair (g : GandaciJava) (researcher bug : Nat) : GandaciJava :=
  ({ g with pairManager := g.pairManager.pair researcher bug }).record
    (Event.paired (g.pairManager.pair researcher bug))

/-- The second loop of `GandaciJava::pair` (rerouting), with the recursive call abstracted
as `recurse`. -/
def rerouteLoop (recurse : Nat → GandaciJava → Option (Bool × GandaciJava)) (researcher : Nat) :
    List Nat → GandaciJava → Option (Bool × GandaciJava)
  | [], g => some (false, g)
  | bug :: rest, g =>
    let anotherResearcher := g.pairManager.getResearcherOfBug bug
    let g0 := g.record (Event.examined bug anotherResearcher)
    if !g0.visitManager.isVisited anotherResearcher then
      match recurse anotherResearcher g0 with
      | none => none
      | some (true, g') => some (true, g'.setPair researcher bug)
      | some (false, g') => rerouteLoop recurse researcher rest g'
    else rerouteLoop recurse researcher rest g0

/-- Method `GandaciJava::pair` on test `t`; the first argument bounds the nesting depth. -/
def pair (t : Test) : Nat → Nat → GandaciJava → Option (Bool × GandaciJava)
  | 0, _, _ => none
  | fuel + 1, researcher, g =>
    let experiments := t.getExperiments researcher
    let g1 := (g.record (Event.called researcher (g.visitManager.isVisited researcher))).visit
      researcher
    match experiments.find? (fun bug => !g1.pairManager.isBugPaired bug) with
    | some bug => some (true, g1.setPair researcher bug)
    | none => rerouteLoop (pair t fuel) researcher experiments g1

/-- The `for` loop of `maximumBipartiteGraphMatching` over the listed researchers; the flag is
`atLeastOneResearcherWasPaired`. -/
def forLoop (t : Test) (fuel : Nat) : List Nat → Bool → GandaciJava → Option (Bool × GandaciJava)
  | [], flag, g => some (flag, g)
  | researcher :: rest, flag, g =>
    if !g.pairManager.isResearcherPaired researcher then
      match pair t fuel researcher g with
      | none => none
      | some (true, g') =>
        forLoop t fuel rest true (g'.record (Event.returned researcher true g'.pairManager))
      | some (false, g') =>
        forLoop t fuel rest flag (g'.record (Event.returned researcher false g'.pairManager))
    else forLoop t fuel rest flag g

/-- The body of the `do ... while` loop: reset the visits, then the `for` loop. -/
def pass (t : Test) (fuel : Nat) (g : GandaciJava) : Option (Bool × GandaciJava) :=
  let researcherCount := t.getResearcherCount
  forLoop t fuel (List.range' 1 researcherCount) false
    (({ g with visitManager := g.visitManager.init researcherCount }).record Event.reset)

/-- The `do ... while` loop, returning the engine state at the end of every iteration. -/
def doWhile (t : Test) (fuel : Nat) : Nat → GandaciJava → Option (List GandaciJava)
  | 0, _ => none
  | n + 1, g =>
    match pass t fuel g with
    | none => none
    | some (true, g') => (doWhile t fuel n g').map (fun later => g' :: later)
    | some (false, g') => some [g']

/-- The engine states at the end of each pass of `maximumBipartiteGraphMatching`. -/
def passes (t : Test) (fuel : Nat) (g : GandaciJava) : Option (List GandaciJava) :=
  doWhile t fuel fuel
    { g with pairManager := g.pairManager.init t.getResearcherCount t.getBugCount }

/-- Method `GandaciJava::maximumBipartiteGraphMatching`: the state after the last pass. -/
def maximumBipartiteGraphMatching (t : Test) (fuel : Nat) (g : GandaciJava) : Option GandaciJava :=
  (passes t fuel g).bind List.getLast?

/-- Method `GandaciJava::solve(Test*)`. -/
def solve (t : Test) (fuel : Nat) (g : GandaciJava) : Option GandaciJava :=
  (maximumBipartiteGraphMatching t fuel g).map
    (fun g' => { g' with solutions := g'.solutions ++ [g'.pairManager.getPairCount] })

/-- Method `GandaciJava::solve(std::vector<Test*>)`. -/
def solveAll (fuel : Nat) : List Test → GandaciJava → Option GandaciJava
  | [], g => some g
  | t :: rest, g => (solve t fuel g).bind (solveAll fuel rest)

/-- A newly constructed engine: all arrays zero, no solutions. -/
def fresh : GandaciJava :=
  { pairManager := { researcherCount := 0, bugCount := 0, researcher := fun _ => 0, bug := fun _ => 0 }
    visitManager := { visitedResearchers := fun _ => false }
    solutions := []
    log := [] }

end GandaciJava

/-! ## Graph instances -/

/-- One test of the input: the two counts and the experiments in input order. -/
structure GraphInstance where
  leftCount : Nat
  rightCount : Nat
  edges : List (Nat × Nat)

namespace GraphInstance

/-- Structural validity of an instance. -/
def Valid (gi : GraphInstance) : Prop :=
  gi.leftCount ≤ 10000 ∧ gi.rightCount ≤ 10000 ∧
    ∀ e ∈ gi.edges, 1 ≤ e.1 ∧ e.1 ≤ gi.leftCount ∧ 1 ≤ e.2 ∧ e.2 ≤ gi.rightCount

instance (gi : GraphInstance) : Decidable gi.Valid := by
  unfold Valid; infer_instance

/-- The `Test` that `loadTests` builds for an instance: the constructor, then
`addExperiment` for every experiment in input order. -/
def toTest (gi : GraphInstance) : Test :=
  gi.edges.foldl (fun t e => t.addExperiment e.1 e.2) (Test.new gi.leftCount gi.rightCount)

end GraphInstance

/-! ## Invariants of the pairing state and of the search -/

/-- Structural validity of a test: counts within the array capacity, identifiers in range. -/
structure Test.Valid (t : Test) : Prop where
  researcherCount_le : t.researcherCount ≤ 10000
  bugCount_le : t.bugCount ≤ 10000
  mem_range : ∀ l r, r ∈ t.experiment l →
    1 ≤ l ∧ l ≤ t.researcherCount ∧ 1 ≤ r ∧ r ≤ t.bugCount

/-- The pairing state along a rerouting chain.  Every paired researcher of `1..researcherCount`
is named by its bug, which is one of its experiments; every paired bug of `1..bugCount` other
than `d` names an in-range researcher paired with it; nobody is paired with `d`.  With `d = 0`
this is a valid matching. -/
structure Chained (t : Test) (pm : PairManager) (d : Nat) : Prop where
  bugCount_eq : pm.bugCount = t.bugCount
  researcher_bug : ∀ l, 1 ≤ l → l ≤ t.researcherCount → pm.researcher l ≠ 0 →
    pm.researcher l ∈ t.getExperiments l ∧ pm.bug (pm.researcher l) = l
  bug_range : ∀ r, 1 ≤ r → r ≤ t.bugCount → pm.bug r ≠ 0 →
    1 ≤ pm.bug r ∧ pm.bug r ≤ t.researcherCount
  bug_researcher : ∀ r, 1 ≤ r → r ≤ t.bugCount → r ≠ d → pm.bug r ≠ 0 →
    pm.researcher (pm.bug r) = r
  unnamed : d ≠ 0 → ∀ l, 1 ≤ l → l ≤ t.researcherCount → pm.researcher l ≠ d

/-- The pairing state is a valid matching of the experiments that the engine reads. -/
def Matched (t : Test) (pm : PairManager) : Prop := Chained t pm 0

/-- Every experiment of researcher `x` leads to a paired bug whose researcher is visited. -/
def Closed (t : Test) (g : GandaciJava) (x : Nat) : Prop :=
  ∀ r ∈ t.getExperiments x,
    g.pairManager.bug r ≠ 0 ∧ g.visitManager.isVisited (g.pairManager.bug r) = true

/-- The events of a list all satisfy `P`, for the part of the history added between two states. -/
def LogExtends (P : Event → Prop) (g g' : GandaciJava) : Prop :=
  ∃ added, g'.log = g.log ++ added ∧ ∀ e ∈ added, P e

/-- An event of a stretch of execution in which the pairing state stays `pm`: no mutation,
and only failed calls return. -/
def Event.Quiet (pm : PairManager) : Event → Prop
  | Event.paired _ => False
  | Event.returned _ result pm' => result = false ∧ pm' = pm
  | _ => True

/-- An event whose recorded pairing state is sound for test `t`: chained after a mutation,
a valid matching when a call made by the `for` loop has returned. -/
def Event.Sound (t : Test) : Event → Prop
  | Event.paired pm => ∃ d, Chained t pm d
  | Event.returned _ _ pm => Matched t pm
  | _ => True

/-- The effect of a search that changed no pairing: the pairing state and the solutions are
untouched, visits were only added, every newly visited researcher is closed, and the history
gained no mutation. -/
structure Explored (t : Test) (g g' : GandaciJava) : Prop where
  pairManager_eq : g'.pairManager = g.pairManager
  solutions_eq : g'.solutions = g.solutions
  visited_mono : ∀ x, g.visitManager.isVisited x = true → g'.visitManager.isVisited x = true
  closed : ∀ x, g'.visitManager.isVisited x = true →
    g.visitManager.isVisited x = true ∨ Closed t g' x
  log : LogExtends (Event.Quiet g.pairManager) g g'

/-- The effect of a successful search for researcher `l`, started in state `g`. -/
structure Rerouted (t : Test) (l : Nat) (g g' : GandaciJava) : Prop where
  chained : Chained t g'.pairManager (g.pairManager.researcher l)
  paired : g'.pairManager.researcher l ≠ 0
  gain : ∃ rnew, 1 ≤ rnew ∧ rnew ≤ t.bugCount ∧ g.pairManager.bug rnew = 0 ∧
    g'.pairManager.bug rnew ≠ 0 ∧
    ∀ r, r ≠ rnew → (g'.pairManager.bug r = 0 ↔ g.pairManager.bug r = 0)
  frame_researcher : ∀ x, g.visitManager.isVisited x = true → x ≠ l →
    g'.pairManager.researcher x = g.pairManager.researcher x
  frame_bug : ∀ r, g.pairManager.bug r ≠ 0 → g.pairManager.bug r ≠ l →
    g.visitManager.isVisited (g.pairManager.bug r) = true →
    g'.pairManager.bug r = g.pairManager.bug r
  stays_paired : ∀ x, g.pairManager.researcher x ≠ 0 → g'.pairManager.researcher x ≠ 0
  visited_mono : ∀ x, g.visitManager.isVisited x = true → g'.visitManager.isVisited x = true
  solutions_eq : g'.solutions = g.solutions
  log : LogExtends (Event.Sound t) g g'

/-- Number of researchers of `1..researcherCount` that are not marked visited. -/
def unvisitedCount (t : Test) (g : GandaciJava) : Nat :=
  (List.range' 1 t.researcherCount).countP (fun x => !g.visitManager.isVisited x)

/-! ## Matchings -/

/-- The paired bugs of `1..bugCount`, in increasing order. -/
def PairManager.pairedBugs (pm : PairManager) : List Nat :=
  (List.range' 1 pm.bugCount).filter (fun r => pm.bug r != 0)

/-- The researcher-bug pairs that the pairing state holds. -/
def PairManager.pairs (pm : PairManager) : List (Nat × Nat) :=
  pm.pairedBugs.map (fun r => (pm.bug r, r))

/-- A matching of the graph with adjacency `adj`: a list of edges `(researcher, bug)` with
pairwise distinct researchers and pairwise distinct bugs. -/
structure IsMatching (adj : Nat → List Nat) (m : List (Nat × Nat)) : Prop where
  edge : ∀ e ∈ m, e.2 ∈ adj e.1
  researchers : (m.map Prod.fst).Nodup
  bugs : (m.map Prod.snd).Nodup

/-- The number `n` is the maximum cardinality of a matching of the graph `adj`. -/
def IsMaximumMatchingSize (adj : Nat → List Nat) (n : Nat) : Prop :=
  (∃ m, IsMatching adj m ∧ m.length = n) ∧ ∀ m, IsMatching adj m → m.length ≤ n

/-! ## Effects of the loops -/

/-- The state at the end of a pass in which no search succeeded: every unpaired researcher was
visited, and every visited researcher is closed. -/
structure Covered (t : Test) (g : GandaciJava) : Prop where
  unpaired_visited : ∀ x, 1 ≤ x → x ≤ t.researcherCount → g.pairManager.researcher x = 0 →
    g.visitManager.isVisited x = true
  closed : ∀ x, 1 ≤ x → x ≤ t.researcherCount → g.visitManager.isVisited x = true →
    Closed t g x

/-- The effect of the `for` loop over the researchers `ls`, from flag `flag` and state `g` to
flag `flag'` and state `g'`. -/
structure Swept (t : Test) (ls : List Nat) (flag : Bool) (g : GandaciJava) (flag' : Bool)
    (g' : GandaciJava) : Prop where
  matched : Matched t g'.pairManager
  count_le : g.pairManager.getPairCount ≤ g'.pairManager.getPairCount
  count_lt : flag = false → flag' = true →
    g.pairManager.getPairCount < g'.pairManager.getPairCount
  flag_mono : flag = true → flag' = true
  quiet : flag' = false → Explored t g g' ∧
    ∀ x ∈ ls, g.pairManager.researcher x = 0 → g'.visitManager.isVisited x = true
  stays_paired : ∀ x, g.pairManager.researcher x ≠ 0 → g'.pairManager.researcher x ≠ 0
  solutions_eq : g'.solutions = g.solutions
  log : LogExtends (Event.Sound t) g g'

/-- The effect of one iteration of the `do ... while` loop. -/
structure Passed (t : Test) (g : GandaciJava) (flag' : Bool) (g' : GandaciJava) : Prop where
  matched : Matched t g'.pairManager
  count_le : g.pairManager.getPairCount ≤ g'.pairManager.getPairCount
  count_lt : flag' = true → g.pairManager.getPairCount < g'.pairManager.getPairCount
  unchanged : flag' = false → g'.pairManager = g.pairManager ∧ Covered t g' ∧
    LogExtends (Event.Quiet g.pairManager) g g'
  stays_paired : ∀ x, g.pairManager.researcher x ≠ 0 → g'.pairManager.researcher x ≠ 0
  solutions_eq : g'.solutions = g.solutions
  log : LogExtends (Event.Sound t) g g'

/-- A sequence of counts, read against the count `c0` before the first of them, that strictly
increases at every element but the last and repeats its predecessor at the last. -/
def StrictThenStall (c0 : Nat) : List Nat → Prop
  | [] => False
  | [c] => c = c0
  | c :: c' :: rest => c0 < c ∧ StrictThenStall c (c' :: rest)

/-- What the `do ... while` loop, started in state `g`, leaves as its sequence of states. -/
structure Converged (t : Test) (g : GandaciJava) (trace : List GandaciJava) : Prop where
  counts : StrictThenStall g.pairManager.getPairCount
    (trace.map (fun s => s.pairManager.getPairCount))
  each : ∀ s ∈ trace, Matched t s.pairManager ∧ s.solutions = g.solutions ∧
    LogExtends (Event.Sound t) g s ∧
    ∀ x, g.pairManager.researcher x ≠ 0 → s.pairManager.researcher x ≠ 0
  last : ∀ s, trace.getLast? = some s → Covered t s

namespace GandaciJava

/-- The state in which the `do ... while` loop of `maximumBipartiteGraphMatching` starts. -/
def cleared (t : Test) (g : GandaciJava) : GandaciJava :=
  { g with pairManager := g.pairManager.init t.getResearcherCount t.getBugCount }

end GandaciJava

namespace GraphInstance

/-- No researcher has more experiments than a `short` can count. -/
def ShortSafe (gi : GraphInstance) : Prop :=
  ∀ l, (gi.edges.filter (fun e => e.1 = l)).length < 32768

end GraphInstance

/-! ## Vocabulary of the claims -/

/-- An augmenting path of the graph `adj` for the pairing state `pm`, as the list of its
unmatched edges `(l0, r1), (l1, r2), ..., (l(k-1), rk)`: `l0` is an unpaired researcher of
`1..researcherCount`, `rk` is an unpaired bug, every listed pair is an edge, and every bug but the
last is paired with the researcher of the next edge. -/
structure IsAugmentingPath (adj : Nat → List Nat) (researcherCount : Nat) (pm : PairManager)
    (path : List (Nat × Nat)) : Prop where
  start : ∃ e, path.head? = some e ∧ 1 ≤ e.1 ∧ e.1 ≤ researcherCount ∧
    pm.isResearcherPaired e.1 = false
  finish : ∃ e, path.getLast? = some e ∧ pm.isBugPaired e.2 = false
  edge : ∀ e ∈ path, e.2 ∈ adj e.1
  alternate : path.Chain' (fun e e' => pm.isBugPaired e.2 = true ∧ pm.getResearcherOfBug e.2 = e'.1)

/-- A scenario of the specification: two researchers compete for one bug. -/
def GraphInstance.contested : GraphInstance :=
  { leftCount := 2, rightCount := 1, edges := [(1, 1), (2, 1)] }

/-- The scenario of the specification: three researchers, three bugs, five experiments. -/
def GraphInstance.scenario : GraphInstance :=
  { leftCount := 3, rightCount := 3, edges := [(1, 1), (1, 2), (2, 1), (3, 2), (3, 3)] }

/-- The pairing state is a valid matching of the instance: partners are in range, pairs are
experiments, the two arrays name each other, and no researcher or bug is in two pairs. -/
structure ValidPairing (gi : GraphInstance) (pm : PairManager) : Prop where
  researcher_paired : ∀ l r, 1 ≤ l → l ≤ gi.leftCount → pm.researcher l = r → r ≠ 0 →
    (1 ≤ r ∧ r ≤ gi.rightCount) ∧ r ∈ gi.toTest.experiment l ∧ pm.bug r = l
  bug_paired : ∀ r l, 1 ≤ r → r ≤ gi.rightCount → pm.bug r = l → l ≠ 0 →
    (1 ≤ l ∧ l ≤ gi.leftCount) ∧ pm.researcher l = r
  researcher_once : ∀ l l', 1 ≤ l → l ≤ gi.leftCount → 1 ≤ l' → l' ≤ gi.leftCount →
    pm.researcher l ≠ 0 → pm.researcher l = pm.researcher l' → l = l'
  bug_once : ∀ r r', 1 ≤ r → r ≤ gi.rightCount → 1 ≤ r' → r' ≤ gi.rightCount →
    pm.bug r ≠ 0 → pm.bug r = pm.bug r' → r = r'

/-- The events that `maximumBipartiteGraphMatching` adds to the history. -/
def GandaciJava.history (t : Test) (fuel : Nat) (g : GandaciJava) : List Event :=
  match GandaciJava.maximumBipartiteGraphMatching t fuel g with
  | some g' => g'.log.drop g.log.length
  | none => []

/-- The pairing states recorded right after the calls of `PairManager::pair`, in order. -/
def Event.mutations : List Event → List PairManager
  | [] => []
  | Event.paired pm :: rest => pm :: Event.mutations rest
  | _ :: rest => Event.mutations rest

/-- The two arrays name each other: `researcher[l] = r` if and only if `bug[r] = l`, for every
researcher `l` of `1..researcherCount` and bug `r` of `1..bugCount`. -/
def PairManager.Symmetric (pm : PairManager) (researcherCount bugCount : Nat) : Prop :=
  ∀ l r, 1 ≤ l → l ≤ researcherCount → 1 ≤ r → r ≤ bugCount →
    (pm.researcher l = r ↔ pm.bug r = l)

/-- Two researchers, two bugs; the second pass reroutes researcher 1 to make room for 2. -/
def GraphInstance.rerouting : GraphInstance :=
  { leftCount := 2, rightCount := 2, edges := [(1, 1), (1, 2), (2, 1)] }

/-- The instance with one researcher, one bug and `n` copies of the experiment `(1, 1)`. -/
def GraphInstance.duplicated (n : Nat) : GraphInstance :=
  { leftCount := 1, rightCount := 1, edges := List.replicate n (1, 1) }

/-- An instance without researchers. -/
def GraphInstance.noResearcher : GraphInstance :=
  { leftCount := 0, rightCount := 3, edges := [] }

/-- The engine state in which researcher 1 has been visited and paired with bug 1. -/
def GandaciJava.firstTaken : GandaciJava :=
  ((GandaciJava.fresh.record (Event.called 1 false)).visit 1).setPair 1 1

/-- The state that a failed search for researcher 2 leaves after `firstTaken` when bug 1 is
its only experiment: researcher 2 visited, bug 1 examined. -/
def GandaciJava.secondFailed : GandaciJava :=
  ((GandaciJava.firstTaken.record (Event.called 2 false)).visit 2).record (Event.examined 1 1)

/-- The researchers for which `GandaciJava::pair` was entered, in order. -/
def Event.calls : List Event → List Nat
  | [] => []
  | Event.called l _ :: rest => l :: Event.calls rest
  | _ :: rest => Event.calls rest

/-- The calls made by the `for` loop that returned, in order: researcher and result. -/
def Event.returns : List Event → List (Nat × Bool)
  | [] => []
  | Event.returned l result _ :: rest => (l, result) :: Event.returns rest
  | _ :: rest => Event.returns rest

/-! ## Properties of the history -/

/-- The pairing state `pm'` keeps every pairing of `pm`: no entry of `researcher[]` or `bug[]`
that is non-zero in `pm` is zero in `pm'`. -/
def PairManager.Keeps (pm pm' : PairManager) : Prop :=
  (∀ l, pm.researcher l ≠ 0 → pm'.researcher l ≠ 0) ∧ (∀ r, pm.bug r ≠ 0 → pm'.bug r ≠ 0)

/-- The pairing states that the history records, in order: the state after every call of
`PairManager::pair` and the state at every return to the `for` loop.  A nested call of
`GandaciJava::pair` that fails returns in the state it was entered in, and one that succeeds
returns right after a call of `PairManager::pair`, so these are all the states in which a call
of either function returns. -/
def Event.states : List Event → List PairManager
  | [] => []
  | Event.paired pm :: rest => pm :: Event.states rest
  | Event.returned _ _ pm :: rest => pm :: Event.states rest
  | _ :: rest => Event.states rest

/-- A call of `pair` is for an in-range researcher that is not marked visited, and the second
loop reads an in-range researcher for the bug it examines. -/
def Event.Safe (t : Test) : Event → Prop
  | Event.called l visited => visited = false ∧ 1 ≤ l ∧ l ≤ t.researcherCount
  | Event.examined _ partner => 1 ≤ partner ∧ partner ≤ t.researcherCount
  | _ => True

/-- A walk through the history that remembers in `seen` the researchers for which `pair` was
entered since the last reset of the visit tracker: every call is for a researcher not yet in
`seen`. -/
def Event.OncePerRound : List Nat → List Event → Prop
  | _, [] => True
  | _, Event.reset :: rest => Event.OncePerRound [] rest
  | seen, Event.called l _ :: rest => l ∉ seen ∧ Event.OncePerRound (l :: seen) rest
  | seen, Event.examined _ _ :: rest => Event.OncePerRound seen rest
  | seen, Event.paired _ :: rest => Event.OncePerRound seen rest
  | seen, Event.returned _ _ _ :: rest => Event.OncePerRound seen rest

/-- A walk through the history that remembers in `prev` the pairing state at the last return to
the `for` loop (at first, the state before the history): at every return the pairing state
satisfies `Ok`, and when the call returned true its researcher was unpaired before, is paired
now, and `getPairCount` is one larger than before the call. -/
def Event.Returns (Ok : PairManager → Prop) : PairManager → List Event → Prop
  | _, [] => True
  | prev, Event.returned l result pm :: rest =>
    (Ok pm ∧ (result = true → prev.researcher l = 0 ∧ pm.researcher l ≠ 0 ∧
      pm.getPairCount = prev.getPairCount + 1)) ∧ Event.Returns Ok pm rest
  | prev, Event.reset :: rest => Event.Returns Ok prev rest
  | prev, Event.called _ _ :: rest => Event.Returns Ok prev rest
  | prev, Event.examined _ _ :: rest => Event.Returns Ok prev rest
  | prev, Event.paired _ :: rest => Event.Returns Ok prev rest

/-- The pairing state at the last return to the `for` loop, `prev` if there is none. -/
def Event.lastReturn : PairManager → List Event → PairManager
  | prev, [] => prev
  | _, Event.returned _ _ pm :: rest => Event.lastReturn pm rest
  | prev, Event.reset :: rest => Event.lastReturn prev rest
  | prev, Event.called _ _ :: rest => Event.lastReturn prev rest
  | prev, Event.examined _ _ :: rest => Event.lastReturn prev rest
  | prev, Event.paired _ :: rest => Event.lastReturn prev rest

/-- An event that is recorded inside `GandaciJava::pair`. -/
def Event.Nested : Event → Prop
  | Event.reset => False
  | Event.returned _ _ _ => False
  | _ => True

/-- What a stretch of execution inside one pass adds to the history, from state `g` to state
`g'`: pairings are kept, visits are only added, the events are safe, the recorded pairing
states lie between the two states and keep one another in order, and `pair` is entered for
pairwise distinct researchers, each unvisited before and visited after. -/
structure Trail (t : Test) (g g' : GandaciJava) (added : List Event) : Prop where
  log_eq : g'.log = g.log ++ added
  keeps : g.pairManager.Keeps g'.pairManager
  visited_mono : ∀ x, g.visitManager.isVisited x = true → g'.visitManager.isVisited x = true
  safe : ∀ e ∈ added, e.Safe t
  no_reset : Event.reset ∉ added
  states_between : ∀ pm ∈ Event.states added,
    g.pairManager.Keeps pm ∧ pm.Keeps g'.pairManager
  states_sorted : (Event.states added).Pairwise PairManager.Keeps
  calls_nodup : (Event.calls added).Nodup
  calls_fresh : ∀ l ∈ Event.calls added,
    g.visitManager.isVisited l = false ∧ g'.visitManager.isVisited l = true

/-- Every researcher visited in `g'` was visited in `g`, or is `l`, or is paired in `g'`. -/
def Newly (l : Nat) (g g' : GandaciJava) : Prop :=
  ∀ x, g'.visitManager.isVisited x = true →
    g.visitManager.isVisited x = true ∨ x = l ∨ g'.pairManager.researcher x ≠ 0

/-- What a stretch of execution made of whole passes adds to the history, from a state `g`
between two calls of the `for` loop to such a state `g'`. -/
structure Journey (t : Test) (g g' : GandaciJava) (added : List Event) : Prop where
  log_eq : g'.log = g.log ++ added
  keeps : g.pairManager.Keeps g'.pairManager
  safe : ∀ e ∈ added, e.Safe t
  states_between : ∀ pm ∈ Event.states added,
    g.pairManager.Keeps pm ∧ pm.Keeps g'.pairManager
  states_sorted : (Event.states added).Pairwise PairManager.Keeps
  once : ∀ seen, Event.OncePerRound seen added
  returns : Event.Returns (Matched t) g.pairManager added
  last_return : Event.lastReturn g.pairManager added = g'.pairManager

/-! # Part 2: theorems -/

/-! ## Elementary facts -/

theorem toShort_of_lt {n : Nat} (h : n < 32768) : toShort n = (n : Int) := by
  unfold toShort
  have h1 : n % 65536 = n := Nat.mod_eq_of_lt (by omega)
  rw [h1, if_pos h]

theorem Test.mem_of_mem_getExperiments {t : Test} {l r : Nat} (h : r ∈ t.getExperiments l) :
    r ∈ t.experiment l :=
  List.mem_of_mem_take h

theorem Test.getExperiments_eq_of_lt {t : Test} {l : Nat}
    (h : (t.experiment l).length < 32768) : t.getExperiments l = t.experiment l := by
  unfold Test.getExperiments Test.getExperimentCount
  rw [toShort_of_lt h]
  simp

namespace GandaciJava

@[simp] theorem record_pairManager (g : GandaciJava) (e : Event) :
    (g.record e).pairManager = g.pairManager := rfl

@[simp] theorem record_visitManager (g : GandaciJava) (e : Event) :
    (g.record e).visitManager = g.visitManager := rfl

@[simp] theorem record_solutions (g : GandaciJava) (e : Event) :
    (g.record e).solutions = g.solutions := rfl

@[simp] theorem record_log (g : GandaciJava) (e : Event) : (g.record e).log = g.log ++ [e] := rfl

@[simp] theorem visit_pairManager (g : GandaciJava) (l : Nat) :
    (g.visit l).pairManager = g.pairManager := rfl

@[simp] theorem visit_solutions (g : GandaciJava) (l : Nat) :
    (g.visit l).solutions = g.solutions := rfl

@[simp] theorem visit_log (g : GandaciJava) (l : Nat) : (g.visit l).log = g.log := rfl

@[simp] theorem visit_isVisited (g : GandaciJava) (l x : Nat) :
    (g.visit l).visitManager.isVisited x = (decide (x = l) || g.visitManager.isVisited x) := by
  simp only [visit, VisitManager.visit, VisitManager.isVisited]
  by_cases h : x = l <;> simp [h]

@[simp] theorem setPair_pairManager (g : GandaciJava) (l r : Nat) :
    (g.setPair l r).pairManager = g.pairManager.pair l r := rfl

@[simp] theorem setPair_visitManager (g : GandaciJava) (l r : Nat) :
    (g.setPair l r).visitManager = g.visitManager := rfl

@[simp] theorem setPair_solutions (g : GandaciJava) (l r : Nat) :
    (g.setPair l r).solutions = g.solutions := rfl

@[simp] theorem setPair_log (g : GandaciJava) (l r : Nat) :
    (g.setPair l r).log = g.log ++ [Event.paired (g.pairManager.pair l r)] := rfl

end GandaciJava

namespace PairManager

@[simp] theorem pair_researcher (pm : PairManager) (l r x : Nat) :
    (pm.pair l r).researcher x = if x = l then r else pm.researcher x := rfl

@[simp] theorem pair_bug (pm : PairManager) (l r y : Nat) :
    (pm.pair l r).bug y = if y = r then l else pm.bug y := rfl

@[simp] theorem pair_bugCount (pm : PairManager) (l r : Nat) :
    (pm.pair l r).bugCount = pm.bugCount := rfl

theorem isBugPaired_iff (pm : PairManager) (r : Nat) : pm.isBugPaired r = true ↔ pm.bug r ≠ 0 := by
  simp [isBugPaired]

theorem isResearcherPaired_iff (pm : PairManager) (l : Nat) :
    pm.isResearcherPaired l = true ↔ pm.researcher l ≠ 0 := by
  simp [isResearcherPaired]

end PairManager

/-- Counting by one more predicate value: two predicates that differ at exactly one element of
a duplicate-free list. -/
theorem List.countP_succ_of_flip {l : List Nat} {p q : Nat → Bool} {a : Nat} (hl : l.Nodup)
    (ha : a ∈ l) (hp : p a = false) (hq : q a = true) (h : ∀ x, x ≠ a → q x = p x) :
    l.countP q = l.countP p + 1 := by
  induction l with
  | nil => simp at ha
  | cons b l ih =>
    rw [List.nodup_cons] at hl
    by_cases hb : b = a
    · subst hb
      have hrest : l.countP q = l.countP p := by
        apply List.countP_congr
        intro x hx
        have hne : x ≠ b := fun e => hl.1 (e ▸ hx)
        rw [h x hne]
      simp [List.countP_cons, hp, hq, hrest]
    · have ha2 : a ∈ l := by
        rcases List.mem_cons.mp ha with e | e
        · exact absurd e.symm hb
        · exact e
      have := ih hl.2 ha2
      simp only [List.countP_cons, h b hb, this]
      omega

/-- The loop of `getPairCount` counts the paired bugs of `1..bugCount`. -/
theorem PairManager.getPairCount_eq (pm : PairManager) :
    pm.getPairCount = (List.range' 1 pm.bugCount).countP (fun r => pm.bug r != 0) := by
  unfold PairManager.getPairCount
  have key : ∀ (l : List Nat) (c : Nat),
      l.foldl (fun pairCount bugIndex => if pm.bug bugIndex != 0 then pairCount + 1 else pairCount) c
        = c + l.countP (fun r => pm.bug r != 0) := by
    intro l
    induction l with
    | nil => intro c; simp
    | cons b l ih =>
      intro c
      simp only [List.foldl_cons, List.countP_cons, ih]
      by_cases hb : pm.bug b = 0
      · simp [hb]
      · simp [hb]; omega
  rw [key]; simp

/-! ## Histories and frames of the search -/

theorem Test.Valid.getExperiments_range {t : Test} (hv : t.Valid) {l r : Nat}
    (h : r ∈ t.getExperiments l) : 1 ≤ l ∧ l ≤ t.researcherCount ∧ 1 ≤ r ∧ r ≤ t.bugCount :=
  hv.mem_range l r (Test.mem_of_mem_getExperiments h)

theorem LogExtends.nothing (P : Event → Prop) (g : GandaciJava) : LogExtends P g g :=
  ⟨[], by simp, by simp⟩

theorem LogExtends.append {P : Event → Prop} {g g' g'' : GandaciJava}
    (h : LogExtends P g g') (h' : LogExtends P g' g'') : LogExtends P g g'' := by
  obtain ⟨a, ha, hPa⟩ := h
  obtain ⟨b, hb, hPb⟩ := h'
  refine ⟨a ++ b, by rw [hb, ha, List.append_assoc], ?_⟩
  intro e he
  rcases List.mem_append.mp he with h1 | h1
  · exact hPa e h1
  · exact hPb e h1

theorem LogExtends.single {P : Event → Prop} {g g' : GandaciJava} {e : Event}
    (h : g'.log = g.log ++ [e]) (he : P e) : LogExtends P g g' :=
  ⟨[e], h, by simpa using he⟩

theorem LogExtends.weaken {P Q : Event → Prop} {g g' : GandaciJava} (hPQ : ∀ e, P e → Q e)
    (h : LogExtends P g g') : LogExtends Q g g' := by
  obtain ⟨a, ha, hPa⟩ := h
  exact ⟨a, ha, fun e he => hPQ e (hPa e he)⟩

theorem Event.Quiet.sound {t : Test} {pm : PairManager} (hm : Matched t pm) {e : Event}
    (h : e.Quiet pm) : e.Sound t := by
  cases e with
  | paired pm' => exact absurd h (by simp [Event.Quiet])
  | returned l result pm' =>
    simp only [Event.Quiet] at h
    simp only [Event.Sound]
    rw [h.2]; exact hm
  | reset => trivial
  | called l v => trivial
  | examined b a => trivial

theorem Closed.mono {t : Test} {g g' : GandaciJava} {x : Nat} (h : Closed t g x)
    (hpm : g'.pairManager = g.pairManager)
    (hv : ∀ x, g.visitManager.isVisited x = true → g'.visitManager.isVisited x = true) :
    Closed t g' x := by
  intro r hr
  rw [hpm]
  exact ⟨(h r hr).1, hv _ (h r hr).2⟩

theorem Explored.refl (t : Test) (g : GandaciJava) : Explored t g g :=
  ⟨rfl, rfl, fun _ h => h, fun _ h => Or.inl h, LogExtends.nothing _ _⟩

theorem Explored.trans {t : Test} {g g' g'' : GandaciJava} (h : Explored t g g')
    (h' : Explored t g' g'') : Explored t g g'' := by
  refine ⟨h'.pairManager_eq.trans h.pairManager_eq, h'.solutions_eq.trans h.solutions_eq,
    fun x hx => h'.visited_mono x (h.visited_mono x hx), ?_,
    h.log.append (h.pairManager_eq ▸ h'.log)⟩
  intro x hx
  rcases h'.closed x hx with h1 | h1
  · rcases h.closed x h1 with h2 | h2
    · exact Or.inl h2
    · exact Or.inr (h2.mono h'.pairManager_eq h'.visited_mono)
  · exact Or.inr h1

/-- Recording a quiet event and visiting researchers changes no pairing. -/
theorem Explored.of_fields {t : Test} {g g' : GandaciJava}
    (hpm : g'.pairManager = g.pairManager) (hs : g'.solutions = g.solutions)
    (hv : ∀ x, g'.visitManager.isVisited x = g.visitManager.isVisited x)
    (hl : LogExtends (Event.Quiet g.pairManager) g g') : Explored t g g' :=
  ⟨hpm, hs, fun x hx => by rw [hv]; exact hx, fun x hx => Or.inl (by rw [← hv]; exact hx), hl⟩

/-! ## Searches that fail -/

namespace GandaciJava

theorem rerouteLoop_false {t : Test} {recurse : Nat → GandaciJava → Option (Bool × GandaciJava)}
    (hrec : ∀ a g g', recurse a g = some (false, g') →
      Explored t g g' ∧ g'.visitManager.isVisited a = true) (l : Nat) :
    ∀ (exps : List Nat) (g g' : GandaciJava), rerouteLoop recurse l exps g = some (false, g') →
      Explored t g g' ∧
        ∀ r ∈ exps, g'.visitManager.isVisited (g.pairManager.bug r) = true := by
  intro exps
  induction exps with
  | nil =>
    intro g g' h
    simp only [rerouteLoop, Option.some.injEq, Prod.mk.injEq, true_and] at h
    subst h
    exact ⟨Explored.refl t g, by simp⟩
  | cons bug rest ih =>
    intro g g' h
    have h0 : Explored t g (g.record (Event.examined bug (g.pairManager.getResearcherOfBug bug))) :=
      Explored.of_fields rfl rfl (fun _ => rfl) (LogExtends.single rfl trivial)
    simp only [rerouteLoop] at h
    split at h
    · split at h
      · exact absurd h (by simp)
      · exact absurd h (by simp)
      · rename_i g1 hcall
        obtain ⟨hex1, hvis1⟩ := hrec _ _ _ hcall
        obtain ⟨hex2, hrest⟩ := ih _ _ h
        refine ⟨(h0.trans hex1).trans hex2, ?_⟩
        intro r hr
        rcases List.mem_cons.mp hr with e | e
        · subst e
          exact hex2.visited_mono _ hvis1
        · have := hrest r e
          rw [hex1.pairManager_eq] at this
          exact this
    · rename_i hvisited
      obtain ⟨hex2, hrest⟩ := ih _ _ h
      refine ⟨h0.trans hex2, ?_⟩
      intro r hr
      rcases List.mem_cons.mp hr with e | e
      · subst e
        apply hex2.visited_mono
        simpa [PairManager.getResearcherOfBug] using hvisited
      · exact hrest r e

/-- A failed search for `l`: no pairing changed, `l` is visited and closed afterwards. -/
theorem pair_false (t : Test) : ∀ (fuel l : Nat) (g g' : GandaciJava),
    pair t fuel l g = some (false, g') →
      Explored t g g' ∧ g'.visitManager.isVisited l = true ∧ Closed t g' l := by
  intro fuel
  induction fuel with
  | zero => intro l g g' h; simp [pair] at h
  | succ fuel ih =>
    intro l g g' h
    simp only [pair] at h
    split at h
    · exact absurd h (by simp)
    · rename_i hfind
      have hrec : ∀ a g g', pair t fuel a g = some (false, g') →
          Explored t g g' ∧ g'.visitManager.isVisited a = true :=
        fun a g g' hc => ⟨(ih a g g' hc).1, (ih a g g' hc).2.1⟩
      obtain ⟨hex, hall⟩ := rerouteLoop_false hrec l _ _ _ h
      have hl : g'.visitManager.isVisited l = true := hex.visited_mono l (by simp)
      have hclosed : Closed t g' l := by
        intro r hr
        have hpaired := List.find?_eq_none.mp hfind r hr
        have hb : g.pairManager.bug r ≠ 0 := by
          simpa [PairManager.isBugPaired] using hpaired
        have hpm : g'.pairManager = g.pairManager := hex.pairManager_eq
        rw [hpm]
        exact ⟨hb, by simpa using hall r hr⟩
      refine ⟨⟨hex.pairManager_eq, hex.solutions_eq, ?_, ?_, ?_⟩, hl, hclosed⟩
      · intro x hx
        exact hex.visited_mono x (by simp [hx])
      · intro x hx
        rcases hex.closed x hx with h1 | h1
        · simp only [visit_isVisited, record_visitManager, Bool.or_eq_true,
            decide_eq_true_eq] at h1
          rcases h1 with h2 | h2
          · subst h2; exact Or.inr hclosed
          · exact Or.inl h2
        · exact Or.inr h1
      · have hcall : LogExtends (Event.Quiet g.pairManager) g
            ((g.record (Event.called l (g.visitManager.isVisited l))).visit l) :=
          LogExtends.single rfl trivial
        exact hcall.append hex.log

end GandaciJava

/-! ## Searches that succeed -/

/-- A successful search may be preceded by steps that change no pairing. -/
theorem Rerouted.after_quiet {t : Test} {l : Nat} {g g1 g' : GandaciJava}
    (h : Rerouted t l g1 g') (hlog : LogExtends (Event.Sound t) g g1)
    (hvis : ∀ x, g.visitManager.isVisited x = true → g1.visitManager.isVisited x = true)
    (hpm : g1.pairManager = g.pairManager) (hs : g1.solutions = g.solutions) :
    Rerouted t l g g' := by
  have h1 := h.chained
  have h2 := h.gain
  have h3 := h.frame_researcher
  have h4 := h.frame_bug
  have h5 := h.stays_paired
  rw [hpm] at h1 h2 h3 h4 h5
  exact ⟨h1, h.paired, h2, fun x hx => h3 x (hvis x hx), fun r a b c => h4 r a b (hvis _ c), h5,
    fun x hx => h.visited_mono x (hvis x hx), h.solutions_eq.trans hs, hlog.append h.log⟩

theorem Explored.sound_log {t : Test} {g g' : GandaciJava} (hm : Matched t g.pairManager)
    (h : Explored t g g') : LogExtends (Event.Sound t) g g' :=
  h.log.weaken (fun _ he => he.sound hm)

/-- Pairing `l` with the bug that a successfully rerouted researcher `a` has just left. -/
theorem Rerouted.step {t : Test} (hv : t.Valid) {l a bug : Nat} {g g1 : GandaciJava}
    (hm : Matched t g.pairManager) (hl1 : 1 ≤ l) (hl2 : l ≤ t.researcherCount)
    (hvl : g.visitManager.isVisited l = true) (hbug : bug ∈ t.getExperiments l)
    (ha : g.pairManager.bug bug = a) (ha0 : a ≠ 0) (hva : g.visitManager.isVisited a = false)
    (h : Rerouted t a g g1) : Rerouted t l g (g1.setPair l bug) := by
  obtain ⟨_, _, hb1, hb2⟩ := hv.getExperiments_range hbug
  have hbug0 : bug ≠ 0 := by omega
  have hal : a ≠ l := by
    intro e; rw [e, hvl] at hva; exact absurd hva (by simp)
  have hra : g.pairManager.researcher a = bug := by
    have := hm.bug_researcher bug hb1 hb2 hbug0 (by rw [ha]; exact ha0)
    rwa [ha] at this
  have hch := h.chained
  rw [hra] at hch
  have hrl : g1.pairManager.researcher l = g.pairManager.researcher l :=
    h.frame_researcher l hvl (fun e => hal e.symm)
  have hchained : Chained t (g1.pairManager.pair l bug) (g.pairManager.researcher l) := by
    refine ⟨hch.bugCount_eq, ?_, ?_, ?_, ?_⟩
    · intro x hx1 hx2 hx0
      simp only [PairManager.pair_researcher, PairManager.pair_bug] at hx0 ⊢
      by_cases hxl : x = l
      · subst hxl; simp [hbug]
      · rw [if_neg hxl] at hx0 ⊢
        have hne := hch.unnamed hbug0 x hx1 hx2
        rw [if_neg hne]
        exact hch.researcher_bug x hx1 hx2 hx0
    · intro r hr1 hr2 hr0
      simp only [PairManager.pair_bug] at hr0 ⊢
      by_cases hrb : r = bug
      · rw [if_pos hrb]; exact ⟨hl1, hl2⟩
      · rw [if_neg hrb] at hr0 ⊢
        exact hch.bug_range r hr1 hr2 hr0
    · intro r hr1 hr2 hrd hr0
      simp only [PairManager.pair_bug, PairManager.pair_researcher] at hr0 ⊢
      by_cases hrb : r = bug
      · rw [if_pos hrb]; simp [hrb]
      · rw [if_neg hrb] at hr0 ⊢
        have hback := hch.bug_researcher r hr1 hr2 hrb hr0
        by_cases hbl : g1.pairManager.bug r = l
        · exfalso
          rw [hbl, hrl] at hback
          exact hrd hback.symm
        · rw [if_neg hbl]; exact hback
    · intro hd0 x hx1 hx2
      simp only [PairManager.pair_researcher]
      have hbd : g.pairManager.bug (g.pairManager.researcher l) = l :=
        (hm.researcher_bug l hl1 hl2 hd0).2
      by_cases hxl : x = l
      · rw [if_pos hxl]
        intro e
        rw [← e, ha] at hbd
        exact hal hbd
      · rw [if_neg hxl]
        intro e
        have h1 := (hch.researcher_bug x hx1 hx2 (by rw [e]; exact hd0)).2
        rw [e] at h1
        have h2 := h.frame_bug (g.pairManager.researcher l) (by rw [hbd]; omega)
          (by rw [hbd]; exact fun e => hal e.symm) (by rw [hbd]; exact hvl)
        rw [h2, hbd] at h1
        exact hxl h1.symm
  refine ⟨hchained, ?_, ?_, ?_, ?_, ?_, ?_, ?_, ?_⟩
  · simp [hbug0]
  · obtain ⟨rnew, hn1, hn2, hn3, hn4, hn5⟩ := h.gain
    refine ⟨rnew, hn1, hn2, hn3, ?_, ?_⟩
    · simp only [GandaciJava.setPair_pairManager, PairManager.pair_bug]
      split
      · omega
      · exact hn4
    · intro r hr
      simp only [GandaciJava.setPair_pairManager, PairManager.pair_bug]
      by_cases hrb : r = bug
      · rw [if_pos hrb, hrb, ha]
        constructor
        · intro e; omega
        · intro e; exact absurd e ha0
      · rw [if_neg hrb]; exact hn5 r hr
  · intro x hx hxl
    simp only [GandaciJava.setPair_pairManager, PairManager.pair_researcher, if_neg hxl]
    apply h.frame_researcher x hx
    intro e; rw [e, hva] at hx; exact absurd hx (by simp)
  · intro r hr0 hrl hrv
    have hrb : r ≠ bug := by
      intro e; rw [e, ha, hva] at hrv; exact absurd hrv (by simp)
    simp only [GandaciJava.setPair_pairManager, PairManager.pair_bug, if_neg hrb]
    apply h.frame_bug r hr0 _ hrv
    intro e; rw [e, hva] at hrv; exact absurd hrv (by simp)
  · intro x hx
    simp only [GandaciJava.setPair_pairManager, PairManager.pair_researcher]
    split
    · exact hbug0
    · exact h.stays_paired x hx
  · intro x hx
    simpa using h.visited_mono x hx
  · simpa using h.solutions_eq
  · exact h.log.append (LogExtends.single (GandaciJava.setPair_log _ _ _)
      (show Event.Sound t (Event.paired _) from ⟨_, hchained⟩))

/-- Direct extension: pairing `l` with an unpaired bug among its experiments. -/
theorem Rerouted.direct {t : Test} (hv : t.Valid) {l bug : Nat} {g : GandaciJava}
    (hm : Matched t g.pairManager) (hl1 : 1 ≤ l) (hl2 : l ≤ t.researcherCount)
    (hbug : bug ∈ t.getExperiments l) (hfree : g.pairManager.bug bug = 0) :
    Rerouted t l g (g.setPair l bug) := by
  obtain ⟨_, _, hb1, hb2⟩ := hv.getExperiments_range hbug
  have hbug0 : bug ≠ 0 := by omega
  have hchained : Chained t (g.pairManager.pair l bug) (g.pairManager.researcher l) := by
    refine ⟨hm.bugCount_eq, ?_, ?_, ?_, ?_⟩
    · intro x hx1 hx2 hx0
      simp only [PairManager.pair_researcher, PairManager.pair_bug] at hx0 ⊢
      by_cases hxl : x = l
      · subst hxl; simp [hbug]
      · rw [if_neg hxl] at hx0 ⊢
        have hx := hm.researcher_bug x hx1 hx2 hx0
        have hne : g.pairManager.researcher x ≠ bug := by
          intro e; rw [e, hfree] at hx; omega
        rw [if_neg hne]; exact hx
    · intro r hr1 hr2 hr0
      simp only [PairManager.pair_bug] at hr0 ⊢
      by_cases hrb : r = bug
      · rw [if_pos hrb]; exact ⟨hl1, hl2⟩
      · rw [if_neg hrb] at hr0 ⊢
        exact hm.bug_range r hr1 hr2 hr0
    · intro r hr1 hr2 hrd hr0
      simp only [PairManager.pair_bug, PairManager.pair_researcher] at hr0 ⊢
      by_cases hrb : r = bug
      · rw [if_pos hrb]; simp [hrb]
      · rw [if_neg hrb] at hr0 ⊢
        have hback := hm.bug_researcher r hr1 hr2 (by omega) hr0
        by_cases hbl : g.pairManager.bug r = l
        · exfalso
          rw [hbl] at hback
          exact hrd hback.symm
        · rw [if_neg hbl]; exact hback
    · intro hd0 x hx1 hx2
      simp only [PairManager.pair_researcher]
      have hbd : g.pairManager.bug (g.pairManager.researcher l) = l :=
        (hm.researcher_bug l hl1 hl2 hd0).2
      by_cases hxl : x = l
      · rw [if_pos hxl]
        intro e
        rw [← e, hfree] at hbd
        omega
      · rw [if_neg hxl]
        intro e
        have h1 := (hm.researcher_bug x hx1 hx2 (by rw [e]; exact hd0)).2
        rw [e, hbd] at h1
        exact hxl h1.symm
  refine ⟨hchained, ?_, ?_, ?_, ?_, ?_, ?_, ?_, ?_⟩
  · simp [hbug0]
  · refine ⟨bug, hb1, hb2, hfree, ?_, ?_⟩
    · show (if bug = bug then l else g.pairManager.bug bug) ≠ 0
      rw [if_pos rfl]; omega
    · intro r hr
      simp only [GandaciJava.setPair_pairManager, PairManager.pair_bug, if_neg hr]
  · intro x _ hxl
    simp only [GandaciJava.setPair_pairManager, PairManager.pair_researcher, if_neg hxl]
  · intro r hr0 _ _
    have hrb : r ≠ bug := by
      intro e; rw [e] at hr0; exact hr0 hfree
    simp only [GandaciJava.setPair_pairManager, PairManager.pair_bug, if_neg hrb]
  · intro x hx
    simp only [GandaciJava.setPair_pairManager, PairManager.pair_researcher]
    split
    · exact hbug0
    · exact hx
  · intro x hx
    simpa using hx
  · simp
  · exact LogExtends.single (GandaciJava.setPair_log _ _ _)
      (show Event.Sound t (Event.paired _) from ⟨_, hchained⟩)

namespace GandaciJava

theorem rerouteLoop_true {t : Test} (hv : t.Valid)
    {recurse : Nat → GandaciJava → Option (Bool × GandaciJava)}
    (hfail : ∀ a g g', recurse a g = some (false, g') → Explored t g g')
    (hsucc : ∀ a g g', Matched t g.pairManager → 1 ≤ a → a ≤ t.researcherCount →
      recurse a g = some (true, g') → Rerouted t a g g')
    {l : Nat} (hl1 : 1 ≤ l) (hl2 : l ≤ t.researcherCount) :
    ∀ (exps : List Nat) (g g' : GandaciJava), Matched t g.pairManager →
      g.visitManager.isVisited l = true →
      (∀ r ∈ exps, r ∈ t.getExperiments l ∧ g.pairManager.bug r ≠ 0) →
      rerouteLoop recurse l exps g = some (true, g') → Rerouted t l g g' := by
  intro exps
  induction exps with
  | nil => intro g g' _ _ _ h; simp [rerouteLoop] at h
  | cons bug rest ih =>
    intro g g' hm hvl hexps h
    have h0 : Explored t g (g.record (Event.examined bug (g.pairManager.getResearcherOfBug bug))) :=
      Explored.of_fields rfl rfl (fun _ => rfl) (LogExtends.single rfl trivial)
    obtain ⟨hbugE, hbug0⟩ := hexps bug (List.mem_cons_self _ _)
    have hrestE : ∀ r ∈ rest, r ∈ t.getExperiments l ∧ g.pairManager.bug r ≠ 0 :=
      fun r hr => hexps r (List.mem_cons_of_mem _ hr)
    simp only [rerouteLoop] at h
    split at h
    · rename_i hunvisited
      have hva : g.visitManager.isVisited (g.pairManager.bug bug) = false := by
        simpa [PairManager.getResearcherOfBug] using hunvisited
      split at h
      · exact absurd h (by simp)
      · rename_i g1 hcall
        simp only [Option.some.injEq, Prod.mk.injEq, true_and] at h
        subst h
        obtain ⟨_, _, hb1, hb2⟩ := hv.getExperiments_range hbugE
        have har := hm.bug_range bug hb1 hb2 hbug0
        have hr0 : Rerouted t (g.pairManager.bug bug)
            (g.record (Event.examined bug (g.pairManager.getResearcherOfBug bug))) g1 :=
          hsucc _ _ _ hm har.1 har.2 hcall
        have hr : Rerouted t (g.pairManager.bug bug) g g1 :=
          Rerouted.after_quiet hr0 (h0.sound_log hm) (fun _ hx => hx) rfl rfl
        exact Rerouted.step hv hm hl1 hl2 hvl hbugE rfl hbug0 hva hr
      · rename_i g1 hcall
        have hex := h0.trans (hfail _ _ _ hcall)
        have hpm : g1.pairManager = g.pairManager := hex.pairManager_eq
        refine Rerouted.after_quiet (ih g1 g' (hpm ▸ hm) (hex.visited_mono l hvl) ?_ h)
          (hex.sound_log hm) hex.visited_mono hpm hex.solutions_eq
        rw [hpm]; exact hrestE
    · have hr0 : Rerouted t l
          (g.record (Event.examined bug (g.pairManager.getResearcherOfBug bug))) g' :=
        ih _ g' hm hvl hrestE h
      exact Rerouted.after_quiet hr0 (h0.sound_log hm) (fun _ hx => hx) rfl rfl

/-- A successful search for `l` from a valid matching: see `Rerouted`. -/
theorem pair_true {t : Test} (hv : t.Valid) : ∀ (fuel l : Nat) (g g' : GandaciJava),
    Matched t g.pairManager → 1 ≤ l → l ≤ t.researcherCount →
    pair t fuel l g = some (true, g') → Rerouted t l g g' := by
  intro fuel
  induction fuel with
  | zero => intro l g g' _ _ _ h; simp [pair] at h
  | succ fuel ih =>
    intro l g g' hm hl1 hl2 h
    have hlog : LogExtends (Event.Sound t) g
        ((g.record (Event.called l (g.visitManager.isVisited l))).visit l) :=
      LogExtends.single rfl trivial
    have hvis : ∀ x, g.visitManager.isVisited x = true →
        ((g.record (Event.called l (g.visitManager.isVisited l))).visit l).visitManager.isVisited x
          = true := by
      intro x hx; simp [hx]
    simp only [pair] at h
    split at h
    · rename_i bug hfind
      simp only [Option.some.injEq, Prod.mk.injEq, true_and] at h
      subst h
      have hmem := List.mem_of_find?_eq_some hfind
      have hfree := List.find?_some hfind
      simp only [visit_pairManager, record_pairManager, PairManager.isBugPaired, bne_iff_ne, ne_eq,
        Bool.not_eq_true', Bool.not_eq_eq_eq_not, Bool.not_true, bne_eq_false_iff_eq,
        Bool.not_eq_true, decide_eq_false_iff_not, Decidable.not_not] at hfree
      have hr0 : Rerouted t l ((g.record (Event.called l (g.visitManager.isVisited l))).visit l)
          (((g.record (Event.called l (g.visitManager.isVisited l))).visit l).setPair l bug) :=
        Rerouted.direct hv hm hl1 hl2 hmem hfree
      exact Rerouted.after_quiet hr0 hlog hvis rfl rfl
    · rename_i hfind
      have hr0 : Rerouted t l ((g.record (Event.called l (g.visitManager.isVisited l))).visit l)
          g' := by
        refine rerouteLoop_true hv (fun a g g' hc => (pair_false t fuel a g g' hc).1) ih hl1 hl2
          _ _ _ hm (by simp) ?_ h
        intro r hr
        have hpaired := List.find?_eq_none.mp hfind r hr
        exact ⟨hr, by simpa [PairManager.isBugPaired] using hpaired⟩
      exact Rerouted.after_quiet hr0 hlog hvis rfl rfl

end GandaciJava

/-! ## Termination of the search -/

theorem unvisitedCount_le (t : Test) (g : GandaciJava) : unvisitedCount t g ≤ t.researcherCount := by
  unfold unvisitedCount
  exact (List.countP_le_length _).trans (by simp)

theorem unvisitedCount_mono {t : Test} {g g' : GandaciJava}
    (h : ∀ x, g.visitManager.isVisited x = true → g'.visitManager.isVisited x = true) :
    unvisitedCount t g' ≤ unvisitedCount t g := by
  unfold unvisitedCount
  apply List.countP_mono_left
  intro x _ hx
  simp only [Bool.not_eq_true', Bool.not_eq_eq_eq_not, Bool.not_true] at hx ⊢
  cases hg : g.visitManager.isVisited x
  · rfl
  · rw [h x hg] at hx; exact absurd hx (by simp)

theorem unvisitedCount_visit {t : Test} {g : GandaciJava} {a : Nat} (ha1 : 1 ≤ a)
    (ha2 : a ≤ t.researcherCount) (hva : g.visitManager.isVisited a = false) :
    unvisitedCount t g = unvisitedCount t (g.visit a) + 1 := by
  unfold unvisitedCount
  apply List.countP_succ_of_flip (List.nodup_range' 1 t.researcherCount) (a := a)
  · rw [List.mem_range']
    exact ⟨a - 1, by omega, by omega⟩
  · simp
  · simp [hva]
  · intro x hx
    simp [hx]

namespace GandaciJava

theorem rerouteLoop_isSome {t : Test} (hv : t.Valid)
    {recurse : Nat → GandaciJava → Option (Bool × GandaciJava)} {n : Nat}
    (hfail : ∀ a g g', recurse a g = some (false, g') → Explored t g g')
    (hterm : ∀ a g, Matched t g.pairManager → 1 ≤ a → a ≤ t.researcherCount →
      g.visitManager.isVisited a = false → unvisitedCount t g ≤ n → ∃ res, recurse a g = some res)
    (l : Nat) :
    ∀ (exps : List Nat) (g : GandaciJava), Matched t g.pairManager →
      (∀ r ∈ exps, r ∈ t.getExperiments l ∧ g.pairManager.bug r ≠ 0) →
      unvisitedCount t g ≤ n → ∃ res, rerouteLoop recurse l exps g = some res := by
  intro exps
  induction exps with
  | nil => intro g _ _ _; exact ⟨_, rfl⟩
  | cons bug rest ih =>
    intro g hm hexps hn
    obtain ⟨hbugE, hbug0⟩ := hexps bug (List.mem_cons_self _ _)
    have hrestE : ∀ r ∈ rest, r ∈ t.getExperiments l ∧ g.pairManager.bug r ≠ 0 :=
      fun r hr => hexps r (List.mem_cons_of_mem _ hr)
    obtain ⟨_, _, hb1, hb2⟩ := hv.getExperiments_range hbugE
    have har := hm.bug_range bug hb1 hb2 hbug0
    simp only [rerouteLoop]
    split
    · rename_i hunvisited
      have hva : g.visitManager.isVisited (g.pairManager.bug bug) = false := by
        simpa [PairManager.getResearcherOfBug] using hunvisited
      obtain ⟨res, hres⟩ := hterm (g.pairManager.getResearcherOfBug bug)
        (g.record (Event.examined bug (g.pairManager.getResearcherOfBug bug))) hm har.1 har.2 hva hn
      rw [hres]
      obtain ⟨b, g1⟩ := res
      cases b with
      | true => exact ⟨_, rfl⟩
      | false =>
        have hex := hfail _ _ _ hres
        have hpm : g1.pairManager = g.pairManager := hex.pairManager_eq
        apply ih g1 (hpm ▸ hm)
        · rw [hpm]; exact hrestE
        · exact (unvisitedCount_mono hex.visited_mono).trans hn
    · exact ih _ hm hrestE hn

/-- The search returns: fuel above the number of researchers still unvisited is enough. -/
theorem pair_isSome {t : Test} (hv : t.Valid) : ∀ (fuel l : Nat) (g : GandaciJava),
    Matched t g.pairManager → 1 ≤ l → l ≤ t.researcherCount →
    unvisitedCount t (g.visit l) < fuel → ∃ res, pair t fuel l g = some res := by
  intro fuel
  induction fuel with
  | zero => intro l g _ _ _ h; omega
  | succ fuel ih =>
    intro l g hm hl1 hl2 hfuel
    simp only [pair]
    split
    · exact ⟨_, rfl⟩
    · rename_i hfind
      have hterm : ∀ a g2, Matched t g2.pairManager → 1 ≤ a → a ≤ t.researcherCount →
          g2.visitManager.isVisited a = false → unvisitedCount t g2 ≤ fuel →
          ∃ res, pair t fuel a g2 = some res := by
        intro a g2 hm2 ha1 ha2 hva hn
        apply ih a g2 hm2 ha1 ha2
        have := unvisitedCount_visit (t := t) ha1 ha2 hva
        omega
      have hm1 : Matched t
          ((g.record (Event.called l (g.visitManager.isVisited l))).visit l).pairManager := hm
      refine rerouteLoop_isSome hv (fun a g g' hc => (pair_false t fuel a g g' hc).1) hterm l
        (t.getExperiments l) _ hm1 ?_ (Nat.lt_succ_iff.mp hfuel)
      intro r hr
      have hpaired := List.find?_eq_none.mp hfind r hr
      exact ⟨hr, by simpa [PairManager.isBugPaired] using hpaired⟩

end GandaciJava

/-! ## Matchings and their size -/

theorem IsMaximumMatchingSize.unique {adj : Nat → List Nat} {n k : Nat}
    (hn : IsMaximumMatchingSize adj n) (hk : IsMaximumMatchingSize adj k) : n = k := by
  obtain ⟨⟨m, hm, hmn⟩, hnmax⟩ := hn
  obtain ⟨⟨m', hm', hmk⟩, hkmax⟩ := hk
  have h1 := hnmax m' hm'
  have h2 := hkmax m hm
  omega

theorem PairManager.length_pairedBugs (pm : PairManager) :
    pm.pairedBugs.length = pm.getPairCount := by
  rw [PairManager.getPairCount_eq, List.countP_eq_length_filter]
  rfl

theorem PairManager.length_pairs (pm : PairManager) : pm.pairs.length = pm.getPairCount := by
  rw [PairManager.pairs, List.length_map, PairManager.length_pairedBugs]

theorem PairManager.mem_pairedBugs {pm : PairManager} {r : Nat} :
    r ∈ pm.pairedBugs ↔ (1 ≤ r ∧ r ≤ pm.bugCount) ∧ pm.bug r ≠ 0 := by
  unfold PairManager.pairedBugs
  rw [List.mem_filter, List.mem_range']
  constructor
  · rintro ⟨⟨i, hi, rfl⟩, h⟩
    exact ⟨⟨by omega, by omega⟩, by simpa using h⟩
  · rintro ⟨⟨h1, h2⟩, h⟩
    exact ⟨⟨r - 1, by omega, by omega⟩, by simpa using h⟩

theorem PairManager.nodup_pairedBugs (pm : PairManager) : pm.pairedBugs.Nodup :=
  (List.nodup_range' 1 pm.bugCount).filter _

/-- The pairs of a valid matching state form a matching of the experiments read. -/
theorem Matched.isMatching_pairs {t : Test} {pm : PairManager} (hm : Matched t pm) :
    IsMatching t.getExperiments pm.pairs := by
  have hinj : ∀ r ∈ pm.pairedBugs, ∀ r' ∈ pm.pairedBugs, pm.bug r = pm.bug r' → r = r' := by
    intro r hr r' hr' e
    obtain ⟨⟨h1, h2⟩, h0⟩ := PairManager.mem_pairedBugs.mp hr
    obtain ⟨⟨h1', h2'⟩, h0'⟩ := PairManager.mem_pairedBugs.mp hr'
    rw [hm.bugCount_eq] at h2 h2'
    have a := hm.bug_researcher r h1 h2 (by omega) h0
    have b := hm.bug_researcher r' h1' h2' (by omega) h0'
    rw [e] at a
    exact a.symm.trans b
  refine ⟨?_, ?_, ?_⟩
  · intro e he
    obtain ⟨r, hr, rfl⟩ := List.mem_map.mp he
    obtain ⟨⟨h1, h2⟩, h0⟩ := PairManager.mem_pairedBugs.mp hr
    rw [hm.bugCount_eq] at h2
    have hl := hm.bug_range r h1 h2 h0
    have hback := hm.bug_researcher r h1 h2 (by omega) h0
    have := (hm.researcher_bug (pm.bug r) hl.1 hl.2 (by rw [hback]; omega)).1
    rw [hback] at this
    exact this
  · rw [PairManager.pairs, List.map_map]
    exact List.Nodup.map_on hinj pm.nodup_pairedBugs
  · rw [PairManager.pairs, List.map_map]
    have : (Prod.snd ∘ fun r => (pm.bug r, r)) = id := rfl
    rw [this, List.map_id]
    exact pm.nodup_pairedBugs

/-- A matching has at most as many edges as there are researchers, and as there are bugs. -/
theorem IsMatching.length_le_min {t : Test} (hv : t.Valid) {m : List (Nat × Nat)}
    (h : IsMatching t.getExperiments m) : m.length ≤ min t.researcherCount t.bugCount := by
  have h1 : (m.map Prod.fst).length ≤ (List.range' 1 t.researcherCount).length := by
    apply List.Subperm.length_le
    apply List.subperm_of_subset h.researchers
    intro x hx
    obtain ⟨e, he, rfl⟩ := List.mem_map.mp hx
    have := hv.getExperiments_range (h.edge e he)
    rw [List.mem_range']
    exact ⟨e.1 - 1, by omega, by omega⟩
  have h2 : (m.map Prod.snd).length ≤ (List.range' 1 t.bugCount).length := by
    apply List.Subperm.length_le
    apply List.subperm_of_subset h.bugs
    intro x hx
    obtain ⟨e, he, rfl⟩ := List.mem_map.mp hx
    have := hv.getExperiments_range (h.edge e he)
    rw [List.mem_range']
    exact ⟨e.2 - 1, by omega, by omega⟩
  simp only [List.length_map, List.length_range'] at h1 h2
  exact Nat.le_min.mpr ⟨h1, h2⟩

theorem Matched.getPairCount_le {t : Test} (hv : t.Valid) {pm : PairManager}
    (hm : Matched t pm) : pm.getPairCount ≤ min t.researcherCount t.bugCount := by
  rw [← pm.length_pairs]
  exact hm.isMatching_pairs.length_le_min hv

/-- A successful search pairs exactly one more bug. -/
theorem Rerouted.getPairCount {t : Test} {l : Nat} {g g' : GandaciJava}
    (hm : Matched t g.pairManager) (h : Rerouted t l g g') :
    g'.pairManager.getPairCount = g.pairManager.getPairCount + 1 := by
  obtain ⟨rnew, h1, h2, h3, h4, h5⟩ := h.gain
  rw [PairManager.getPairCount_eq, PairManager.getPairCount_eq, h.chained.bugCount_eq,
    hm.bugCount_eq]
  apply List.countP_succ_of_flip (List.nodup_range' 1 t.bugCount) (a := rnew)
  · rw [List.mem_range']
    exact ⟨rnew - 1, by omega, by omega⟩
  · simp [h3]
  · simpa using h4
  · intro x hx
    have := h5 x hx
    by_cases e : g.pairManager.bug x = 0
    · simp [e, this.mpr e]
    · have e' : g'.pairManager.bug x ≠ 0 := fun c => e (this.mp c)
      have a : (g'.pairManager.bug x != 0) = true := bne_iff_ne.mpr e'
      have b : (g.pairManager.bug x != 0) = true := bne_iff_ne.mpr e
      show (g'.pairManager.bug x != 0) = (g.pairManager.bug x != 0)
      rw [a, b]

/-! ## Maximality: the state after a pass without success -/

/-- In a covered state no matching is larger than the pairing state: the unvisited researchers
and the bugs paired with visited researchers meet every edge, and there are as many of them as
pairs. -/
theorem Covered.matching_length_le {t : Test} (hv : t.Valid) {g : GandaciJava}
    (hm : Matched t g.pairManager) (hc : Covered t g) {m : List (Nat × Nat)}
    (h : IsMatching t.getExperiments m) : m.length ≤ g.pairManager.getPairCount := by
  let f : Nat × Nat → Nat :=
    fun e => if g.visitManager.isVisited e.1 = true then e.2 else g.pairManager.researcher e.1
  have hunv : ∀ e ∈ m, g.visitManager.isVisited e.1 ≠ true →
      g.pairManager.researcher e.1 ∈ t.getExperiments e.1 ∧
        g.pairManager.bug (g.pairManager.researcher e.1) = e.1 := by
    intro e he hn
    obtain ⟨h1, h2, _, _⟩ := hv.getExperiments_range (h.edge e he)
    apply hm.researcher_bug e.1 h1 h2
    intro h0
    exact hn (hc.unpaired_visited e.1 h1 h2 h0)
  have hvis : ∀ e ∈ m, g.visitManager.isVisited e.1 = true →
      g.pairManager.bug e.2 ≠ 0 ∧ g.visitManager.isVisited (g.pairManager.bug e.2) = true := by
    intro e he hy
    obtain ⟨h1, h2, _, _⟩ := hv.getExperiments_range (h.edge e he)
    exact hc.closed e.1 h1 h2 hy e.2 (h.edge e he)
  have hmem : ∀ e ∈ m, f e ∈ g.pairManager.pairedBugs := by
    intro e he
    rw [PairManager.mem_pairedBugs, hm.bugCount_eq]
    obtain ⟨h1, h2, h3, h4⟩ := hv.getExperiments_range (h.edge e he)
    by_cases hy : g.visitManager.isVisited e.1 = true
    · simp only [f, if_pos hy]
      exact ⟨⟨h3, h4⟩, (hvis e he hy).1⟩
    · simp only [f, if_neg hy]
      obtain ⟨ha, hb⟩ := hunv e he hy
      obtain ⟨_, _, h5, h6⟩ := hv.getExperiments_range ha
      exact ⟨⟨h5, h6⟩, by rw [hb]; omega⟩
  have hfst := List.inj_on_of_nodup_map h.researchers
  have hsnd := List.inj_on_of_nodup_map h.bugs
  have hinj : ∀ e ∈ m, ∀ e' ∈ m, f e = f e' → e = e' := by
    intro e he e' he' hff
    by_cases hy : g.visitManager.isVisited e.1 = true
    · by_cases hy' : g.visitManager.isVisited e'.1 = true
      · simp only [f, if_pos hy, if_pos hy'] at hff
        exact hsnd he he' hff
      · exfalso
        simp only [f, if_pos hy, if_neg hy'] at hff
        have := (hvis e he hy).2
        rw [hff, (hunv e' he' hy').2] at this
        exact hy' this
    · by_cases hy' : g.visitManager.isVisited e'.1 = true
      · exfalso
        simp only [f, if_neg hy, if_pos hy'] at hff
        have := (hvis e' he' hy').2
        rw [← hff, (hunv e he hy).2] at this
        exact hy this
      · simp only [f, if_neg hy, if_neg hy'] at hff
        apply hfst he he'
        rw [← (hunv e he hy).2, ← (hunv e' he' hy').2, hff]
  have hnodup : (m.map f).Nodup := List.Nodup.map_on hinj (List.Nodup.of_map _ h.researchers)
  have hsub : m.map f ⊆ g.pairManager.pairedBugs := by
    intro x hx
    obtain ⟨e, he, rfl⟩ := List.mem_map.mp hx
    exact hmem e he
  have := (List.subperm_of_subset hnodup hsub).length_le
  rwa [List.length_map, PairManager.length_pairedBugs] at this

/-- In a covered state the pair count is the maximum cardinality of a matching of the
experiments read. -/
theorem Covered.isMaximumMatchingSize {t : Test} (hv : t.Valid) {g : GandaciJava}
    (hm : Matched t g.pairManager) (hc : Covered t g) :
    IsMaximumMatchingSize t.getExperiments g.pairManager.getPairCount :=
  ⟨⟨_, hm.isMatching_pairs, g.pairManager.length_pairs⟩, fun _ h => hc.matching_length_le hv hm h⟩

/-! ## The `for` loop and one pass -/

/-- The loop step for a researcher that is skipped or whose search fails. -/
theorem Swept.of_explored {t : Test} {l : Nat} {rest : List Nat} {flag flag' : Bool}
    {g g1 g' : GandaciJava} (h : Swept t rest flag g1 flag' g') (hex : Explored t g g1)
    (hm : Matched t g.pairManager)
    (hl : g.pairManager.researcher l = 0 → g1.visitManager.isVisited l = true) :
    Swept t (l :: rest) flag g flag' g' := by
  have hpm : g1.pairManager = g.pairManager := hex.pairManager_eq
  have h1 := h.count_le
  have h2 := h.count_lt
  have h3 := h.stays_paired
  have h4 := h.quiet
  rw [hpm] at h1 h2 h3 h4
  refine ⟨h.matched, h1, h2, h.flag_mono, ?_, h3, h.solutions_eq.trans hex.solutions_eq,
    (hex.sound_log hm).append h.log⟩
  intro hf
  obtain ⟨hex', hall⟩ := h4 hf
  refine ⟨hex.trans hex', ?_⟩
  intro x hx hx0
  rcases List.mem_cons.mp hx with e | e
  · subst e; exact hex'.visited_mono _ (hl hx0)
  · exact hall x e hx0

/-- The loop step for a researcher whose search succeeds. -/
theorem Swept.of_rerouted {t : Test} {l : Nat} {rest : List Nat} {flag flag' : Bool}
    {g g1 g' : GandaciJava}
    (h : Swept t rest true (g1.record (Event.returned l true g1.pairManager)) flag' g')
    (hr : Rerouted t l g g1) (hm : Matched t g.pairManager)
    (hm1 : Matched t g1.pairManager) : Swept t (l :: rest) flag g flag' g' := by
  have hc := hr.getPairCount hm
  have h1 := h.count_le
  have hflag := h.flag_mono rfl
  simp only [GandaciJava.record_pairManager] at h1
  refine ⟨h.matched, by omega, fun _ _ => by omega, fun _ => hflag, ?_, ?_, ?_, ?_⟩
  · intro hf; rw [hflag] at hf; exact absurd hf (by simp)
  · intro x hx; exact h.stays_paired x (hr.stays_paired x hx)
  · exact h.solutions_eq.trans hr.solutions_eq
  · have hret : LogExtends (Event.Sound t) g1
        (g1.record (Event.returned l true g1.pairManager)) :=
      LogExtends.single rfl hm1
    exact (hr.log.append hret).append h.log

namespace GandaciJava

/-- The `for` loop returns, and `Swept` describes what it leaves. -/
theorem forLoop_spec {t : Test} (hv : t.Valid) {fuel : Nat} (hfuel : t.researcherCount < fuel) :
    ∀ (ls : List Nat) (flag : Bool) (g : GandaciJava), Matched t g.pairManager →
      (∀ x ∈ ls, 1 ≤ x ∧ x ≤ t.researcherCount) →
      ∃ flag' g', forLoop t fuel ls flag g = some (flag', g') ∧ Swept t ls flag g flag' g' := by
  intro ls
  induction ls with
  | nil =>
    intro flag g hm _
    refine ⟨flag, g, rfl, hm, Nat.le_refl _, ?_, fun h => h, ?_, fun _ h => h, rfl,
      LogExtends.nothing _ _⟩
    · intro h1 h2; rw [h1] at h2; exact absurd h2 (by simp)
    · intro _; exact ⟨Explored.refl t g, by simp⟩
  | cons l rest ih =>
    intro flag g hm hls
    obtain ⟨hl1, hl2⟩ := hls l (List.mem_cons_self _ _)
    have hrest : ∀ x ∈ rest, 1 ≤ x ∧ x ≤ t.researcherCount :=
      fun x hx => hls x (List.mem_cons_of_mem _ hx)
    simp only [forLoop]
    split
    · rename_i hunpaired
      have hl0 : g.pairManager.researcher l = 0 := by
        simpa [PairManager.isResearcherPaired] using hunpaired
      obtain ⟨res, hres⟩ := pair_isSome hv fuel l g hm hl1 hl2
        (Nat.lt_of_le_of_lt (unvisitedCount_le t _) hfuel)
      rw [hres]
      obtain ⟨b, g1⟩ := res
      cases b with
      | true =>
        have hr := pair_true hv fuel l g g1 hm hl1 hl2 hres
        have hm1 : Matched t g1.pairManager := by
          have := hr.chained
          rw [hl0] at this
          exact this
        obtain ⟨flag', g', hrun, hsw⟩ :=
          ih true (g1.record (Event.returned l true g1.pairManager)) hm1 hrest
        exact ⟨flag', g', hrun, hsw.of_rerouted hr hm hm1⟩
      | false =>
        obtain ⟨hex, hvl, _⟩ := pair_false t fuel l g g1 hres
        have hpm : g1.pairManager = g.pairManager := hex.pairManager_eq
        have hret : Explored t g1 (g1.record (Event.returned l false g1.pairManager)) :=
          Explored.of_fields rfl rfl (fun _ => rfl) (LogExtends.single rfl ⟨rfl, rfl⟩)
        have hm1 : Matched t (g1.record (Event.returned l false g1.pairManager)).pairManager := by
          rw [record_pairManager, hpm]; exact hm
        obtain ⟨flag', g', hrun, hsw⟩ :=
          ih flag (g1.record (Event.returned l false g1.pairManager)) hm1 hrest
        exact ⟨flag', g', hrun, hsw.of_explored (hex.trans hret) hm (fun _ => hvl)⟩
    · rename_i hpaired
      have hl0 : g.pairManager.researcher l ≠ 0 := by
        simpa [PairManager.isResearcherPaired] using hpaired
      obtain ⟨flag', g', hrun, hsw⟩ := ih flag g hm hrest
      exact ⟨flag', g', hrun, hsw.of_explored (Explored.refl t g) hm (fun h => absurd h hl0)⟩

/-- One pass from a valid matching returns, and `Passed` describes what it leaves. -/
theorem pass_spec {t : Test} (hv : t.Valid) {fuel : Nat} (hfuel : t.researcherCount < fuel)
    (g : GandaciJava) (hm : Matched t g.pairManager) :
    ∃ flag' g', pass t fuel g = some (flag', g') ∧ Passed t g flag' g' := by
  have hrange : ∀ x ∈ List.range' 1 t.researcherCount, 1 ≤ x ∧ x ≤ t.researcherCount := by
    intro x hx
    rw [List.mem_range'] at hx
    obtain ⟨i, hi, rfl⟩ := hx
    omega
  obtain ⟨flag', g', hrun, hsw⟩ := forLoop_spec hv hfuel (List.range' 1 t.researcherCount) false
    (({ g with visitManager := g.visitManager.init t.researcherCount }).record Event.reset)
    hm hrange
  have hreset : LogExtends (Event.Sound t) g
      (({ g with visitManager := g.visitManager.init t.researcherCount }).record Event.reset) :=
    LogExtends.single rfl trivial
  refine ⟨flag', g', hrun, hsw.matched, hsw.count_le, hsw.count_lt rfl, ?_, hsw.stays_paired,
    hsw.solutions_eq, hreset.append hsw.log⟩
  intro hf
  obtain ⟨hex, hall⟩ := hsw.quiet hf
  have hpm : g'.pairManager = g.pairManager := hex.pairManager_eq
  have hquiet : LogExtends (Event.Quiet g.pairManager) g
      (({ g with visitManager := g.visitManager.init t.researcherCount }).record Event.reset) :=
    LogExtends.single rfl trivial
  refine ⟨hpm, ⟨?_, ?_⟩, hquiet.append hex.log⟩
  · intro x hx1 hx2 hx0
    apply hall x
    · rw [List.mem_range']; exact ⟨x - 1, by omega, by omega⟩
    · rw [hpm] at hx0; exact hx0
  · intro x _ hx2 hvx
    rcases hex.closed x hvx with h1 | h1
    · simp [VisitManager.init, VisitManager.isVisited, hx2] at h1
    · exact h1

end GandaciJava

/-! ## The `do ... while` loop -/

theorem StrictThenStall.ne_nil {c0 : Nat} {cs : List Nat} (h : StrictThenStall c0 cs) :
    cs ≠ [] := by
  intro e; subst e; exact h

theorem StrictThenStall.cons {c0 c : Nat} {cs : List Nat} (hc : c0 < c)
    (h : StrictThenStall c cs) : StrictThenStall c0 (c :: cs) := by
  cases cs with
  | nil => exact absurd h (by simp [StrictThenStall])
  | cons c' rest => exact ⟨hc, h⟩

/-- Such a sequence bounded by `bound` has at most `bound - c0 + 1` elements. -/
theorem StrictThenStall.length_add_le {bound : Nat} : ∀ {cs : List Nat} {c0 : Nat},
    StrictThenStall c0 cs → (∀ c ∈ cs, c ≤ bound) → cs.length + c0 ≤ bound + 1
  | [], _, h, _ => absurd h (by simp [StrictThenStall])
  | [c], c0, h, hb => by
    have h1 : c = c0 := h
    have h2 := hb c (List.mem_cons_self _ _)
    simp only [List.length_singleton]
    omega
  | c :: c' :: rest, c0, h, hb => by
    have h1 : c0 < c := h.1
    have h2 := StrictThenStall.length_add_le h.2 (fun x hx => hb x (List.mem_cons_of_mem _ hx))
    simp only [List.length_cons] at h2 ⊢
    omega

namespace GandaciJava

/-- The `do ... while` loop returns when its fuel exceeds the room left for the pair count. -/
theorem doWhile_spec {t : Test} (hv : t.Valid) {fuel : Nat} (hfuel : t.researcherCount < fuel) :
    ∀ (n : Nat) (g : GandaciJava), Matched t g.pairManager →
      min t.researcherCount t.bugCount - g.pairManager.getPairCount < n →
      ∃ trace, doWhile t fuel n g = some trace ∧ Converged t g trace := by
  intro n
  induction n with
  | zero => intro g _ h; omega
  | succ n ih =>
    intro g hm hn
    obtain ⟨flag', g', hrun, hp⟩ := pass_spec hv hfuel g hm
    simp only [doWhile, hrun]
    cases flag' with
    | false =>
      obtain ⟨hpm, hcov, _⟩ := hp.unchanged rfl
      refine ⟨[g'], rfl, ?_, ?_, ?_⟩
      · show g'.pairManager.getPairCount = g.pairManager.getPairCount
        rw [hpm]
      · intro s hs
        rw [List.mem_singleton] at hs
        subst hs
        exact ⟨hp.matched, hp.solutions_eq, hp.log, hp.stays_paired⟩
      · intro s hs
        simp only [List.getLast?_singleton, Option.some.injEq] at hs
        subst hs
        exact hcov
    | true =>
      have hlt := hp.count_lt rfl
      have hle := hp.matched.getPairCount_le hv
      obtain ⟨later, hlater, hc⟩ := ih g' hp.matched (by omega)
      refine ⟨g' :: later, by simp [hlater], ?_, ?_, ?_⟩
      · simp only [List.map_cons]
        exact StrictThenStall.cons hlt hc.counts
      · intro s hs
        rcases List.mem_cons.mp hs with e | e
        · subst e
          exact ⟨hp.matched, hp.solutions_eq, hp.log, hp.stays_paired⟩
        · obtain ⟨h1, h2, h3, h4⟩ := hc.each s e
          exact ⟨h1, h2.trans hp.solutions_eq, hp.log.append h3,
            fun x hx => h4 x (hp.stays_paired x hx)⟩
      · intro s hs
        cases later with
        | nil => exact absurd hc.counts (by simp [StrictThenStall])
        | cons s' rest =>
          rw [List.getLast?_cons_cons] at hs
          exact hc.last s hs

end GandaciJava

/-! ## `maximumBipartiteGraphMatching` -/

theorem PairManager.matched_init (t : Test) (pm : PairManager) :
    Matched t (pm.init t.getResearcherCount t.getBugCount) := by
  refine ⟨rfl, ?_, ?_, ?_, ?_⟩
  · intro l _ hl2 h0
    exact absurd (by simp [PairManager.init, Test.getResearcherCount, hl2]) h0
  · intro r _ hr2 h0
    exact absurd (by simp [PairManager.init, Test.getBugCount, hr2]) h0
  · intro r _ hr2 _ h0
    exact absurd (by simp [PairManager.init, Test.getBugCount, hr2]) h0
  · intro h; exact absurd rfl h

theorem PairManager.getPairCount_init (pm : PairManager) (researcherCount bugCount : Nat) :
    (pm.init researcherCount bugCount).getPairCount = 0 := by
  rw [PairManager.getPairCount_eq, List.countP_eq_zero]
  intro r hr
  rw [List.mem_range'] at hr
  obtain ⟨i, hi, rfl⟩ := hr
  have hb : (pm.init researcherCount bugCount).bugCount = bugCount := rfl
  have hle : 1 + 1 * i ≤ bugCount := by omega
  simp only [PairManager.init, if_pos hle]
  decide

namespace GandaciJava

/-- The passes of `maximumBipartiteGraphMatching` return on every valid test, from any engine
state. -/
theorem passes_spec {t : Test} (hv : t.Valid) {fuel : Nat} (hfuel : t.researcherCount < fuel)
    (g : GandaciJava) :
    ∃ trace, passes t fuel g = some trace ∧ Converged t (cleared t g) trace := by
  have hm : Matched t (cleared t g).pairManager := PairManager.matched_init t g.pairManager
  have h0 : (cleared t g).pairManager.getPairCount = 0 := PairManager.getPairCount_init _ _ _
  apply doWhile_spec hv hfuel fuel (cleared t g) hm
  have : min t.researcherCount t.bugCount ≤ t.researcherCount := Nat.min_le_left _ _
  omega

/-- What `maximumBipartiteGraphMatching` leaves on a valid test: the last state of the passes,
a valid matching in a covered state. -/
theorem maximumBipartiteGraphMatching_spec {t : Test} (hv : t.Valid) {fuel : Nat}
    (hfuel : t.researcherCount < fuel) (g : GandaciJava) :
    ∃ trace g', passes t fuel g = some trace ∧ trace.getLast? = some g' ∧
      maximumBipartiteGraphMatching t fuel g = some g' ∧ Converged t (cleared t g) trace ∧
      Matched t g'.pairManager ∧ Covered t g' ∧ g'.solutions = g.solutions ∧
      LogExtends (Event.Sound t) g g' := by
  obtain ⟨trace, hrun, hc⟩ := passes_spec hv hfuel g
  have hne : trace ≠ [] := by
    intro e
    have := hc.counts.ne_nil
    rw [e] at this
    exact this rfl
  obtain ⟨g', hlast⟩ : ∃ g', trace.getLast? = some g' :=
    ⟨trace.getLast hne, List.getLast?_eq_getLast _ hne⟩
  have hmem : g' ∈ trace := List.mem_of_getLast?_eq_some hlast
  obtain ⟨h1, h2, h3, _⟩ := hc.each g' hmem
  refine ⟨trace, g', hrun, hlast, ?_, hc, h1, hc.last g' hlast, h2, h3⟩
  simp [maximumBipartiteGraphMatching, hrun, hlast]

/-- On a valid test the number that `solve` appends is the maximum cardinality of a matching of
the experiments that the engine reads, whatever the engine state before. -/
theorem solve_spec {t : Test} (hv : t.Valid) {fuel : Nat} (hfuel : t.researcherCount < fuel)
    (g : GandaciJava) :
    ∃ g' n, solve t fuel g = some g' ∧ g'.solutions = g.solutions ++ [n] ∧
      IsMaximumMatchingSize t.getExperiments n := by
  obtain ⟨_, g', _, _, hrun, _, hm, hcov, hsol, _⟩ := maximumBipartiteGraphMatching_spec hv hfuel g
  refine ⟨{ g' with solutions := g'.solutions ++ [g'.pairManager.getPairCount] },
    g'.pairManager.getPairCount, ?_, ?_, hcov.isMaximumMatchingSize hv hm⟩
  · simp only [solve, hrun, Option.map_some']
  · simp only [hsol]

end GandaciJava

/-! ## Graph instances and the tests built from them -/

namespace GraphInstance

theorem foldl_addExperiment (edges : List (Nat × Nat)) : ∀ (t : Test),
    (edges.foldl (fun t e => t.addExperiment e.1 e.2) t).researcherCount = t.researcherCount ∧
    (edges.foldl (fun t e => t.addExperiment e.1 e.2) t).bugCount = t.bugCount ∧
    ∀ l, (edges.foldl (fun t e => t.addExperiment e.1 e.2) t).experiment l =
      t.experiment l ++ (edges.filter (fun e => e.1 = l)).map Prod.snd := by
  induction edges with
  | nil => intro t; simp
  | cons e rest ih =>
    intro t
    obtain ⟨h1, h2, h3⟩ := ih (t.addExperiment e.1 e.2)
    simp only [List.foldl_cons]
    refine ⟨h1, h2, ?_⟩
    intro l
    rw [h3 l]
    by_cases hl : e.1 = l
    · simp [Test.addExperiment, hl, List.filter_cons]
    · have hl' : ¬ l = e.1 := fun c => hl c.symm
      simp [Test.addExperiment, hl, hl', List.filter_cons]

@[simp] theorem toTest_researcherCount (gi : GraphInstance) :
    gi.toTest.researcherCount = gi.leftCount :=
  (foldl_addExperiment gi.edges _).1

@[simp] theorem toTest_bugCount (gi : GraphInstance) : gi.toTest.bugCount = gi.rightCount :=
  (foldl_addExperiment gi.edges _).2.1

/-- The adjacency vector of a researcher: its bugs, in input order. -/
theorem toTest_experiment (gi : GraphInstance) (l : Nat) :
    gi.toTest.experiment l = (gi.edges.filter (fun e => e.1 = l)).map Prod.snd := by
  have := (foldl_addExperiment gi.edges (Test.new gi.leftCount gi.rightCount)).2.2 l
  simpa [Test.new] using this

theorem mem_toTest_experiment (gi : GraphInstance) (l r : Nat) :
    r ∈ gi.toTest.experiment l ↔ (l, r) ∈ gi.edges := by
  rw [toTest_experiment, List.mem_map]
  constructor
  · rintro ⟨e, he, rfl⟩
    rw [List.mem_filter] at he
    have h1 : e.1 = l := by simpa using he.2
    rw [← h1]; exact he.1
  · intro h
    exact ⟨(l, r), List.mem_filter.mpr ⟨h, by simp⟩, rfl⟩

theorem Valid.toTest {gi : GraphInstance} (h : gi.Valid) : gi.toTest.Valid := by
  refine ⟨by simpa using h.1, by simpa using h.2.1, ?_⟩
  intro l r hr
  rw [mem_toTest_experiment] at hr
  simpa using h.2.2 (l, r) hr

theorem ShortSafe.of_length {gi : GraphInstance} (h : gi.edges.length < 32768) : gi.ShortSafe :=
  fun _ => Nat.lt_of_le_of_lt (List.length_filter_le _ _) h

theorem ShortSafe.getExperiments {gi : GraphInstance} (h : gi.ShortSafe) :
    gi.toTest.getExperiments = gi.toTest.experiment := by
  funext l
  apply Test.getExperiments_eq_of_lt
  rw [toTest_experiment, List.length_map]
  exact h l

end GraphInstance

/-! ## Consequences for graph instances -/

/-- In a covered state there is no augmenting path among the experiments read. -/
theorem Covered.not_isAugmentingPath {t : Test} (hv : t.Valid) {g : GandaciJava}
    (hc : Covered t g) (path : List (Nat × Nat)) :
    ¬ IsAugmentingPath t.getExperiments t.researcherCount g.pairManager path := by
  have key : ∀ (p : List (Nat × Nat)), (∀ e ∈ p, e.2 ∈ t.getExperiments e.1) →
      p.Chain' (fun e e' => g.pairManager.isBugPaired e.2 = true ∧
        g.pairManager.getResearcherOfBug e.2 = e'.1) →
      ∀ e0, p.head? = some e0 → g.visitManager.isVisited e0.1 = true →
      ∀ e, p.getLast? = some e → g.pairManager.bug e.2 ≠ 0 := by
    intro p
    induction p with
    | nil => intro _ _ e0 h; simp at h
    | cons a rest ih =>
      intro hedge hchain e0 hhead hvis e hlast
      simp only [List.head?_cons, Option.some.injEq] at hhead
      subst hhead
      have ha := hedge a (List.mem_cons_self _ _)
      obtain ⟨h1, h2, _, _⟩ := hv.getExperiments_range ha
      have hcl := hc.closed a.1 h1 h2 hvis a.2 ha
      cases rest with
      | nil =>
        simp only [List.getLast?_singleton, Option.some.injEq] at hlast
        subst hlast
        exact hcl.1
      | cons b rest' =>
        rw [List.getLast?_cons_cons] at hlast
        rw [List.chain'_cons] at hchain
        apply ih (fun x hx => hedge x (List.mem_cons_of_mem _ hx)) hchain.2 b rfl _ e hlast
        have := hcl.2
        rw [show g.pairManager.bug a.2 = b.1 from hchain.1.2] at this
        exact this
  intro hp
  obtain ⟨e0, hhead, h1, h2, hun⟩ := hp.start
  obtain ⟨e, hlast, hfree⟩ := hp.finish
  have hvis : g.visitManager.isVisited e0.1 = true := by
    apply hc.unpaired_visited e0.1 h1 h2
    simpa [PairManager.isResearcherPaired] using hun
  have := key path hp.edge hp.alternate e0 hhead hvis e hlast
  simp [PairManager.isBugPaired] at hfree
  exact this hfree

namespace GraphInstance

/-- For an instance whose adjacency vectors fit a `short`, `solve` appends the maximum
cardinality of a matching of the graph. -/
theorem solve_maximum (gi : GraphInstance) (hv : gi.Valid) (hs : gi.ShortSafe) (fuel : Nat)
    (hfuel : gi.leftCount < fuel) (g : GandaciJava) :
    ∃ g' n, GandaciJava.solve gi.toTest fuel g = some g' ∧ g'.solutions = g.solutions ++ [n] ∧
      IsMaximumMatchingSize gi.toTest.experiment n := by
  have hfuel' : gi.toTest.researcherCount < fuel := by simpa using hfuel
  have h := GandaciJava.solve_spec hv.toTest hfuel' g
  rw [hs.getExperiments] at h
  exact h

/-- For an instance whose adjacency vectors fit a `short`, the final pairing state has no
augmenting path. -/
theorem no_augmenting_path (gi : GraphInstance) (hv : gi.Valid) (hs : gi.ShortSafe) (fuel : Nat)
    (hfuel : gi.leftCount < fuel) (g : GandaciJava) :
    ∃ g', GandaciJava.maximumBipartiteGraphMatching gi.toTest fuel g = some g' ∧
      ∀ path, ¬ IsAugmentingPath gi.toTest.experiment gi.leftCount g'.pairManager path := by
  have hfuel' : gi.toTest.researcherCount < fuel := by simpa using hfuel
  obtain ⟨_, g', _, _, hrun, _, _, hcov, _, _⟩ :=
    GandaciJava.maximumBipartiteGraphMatching_spec hv.toTest hfuel' g
  refine ⟨g', hrun, ?_⟩
  intro path
  have := hcov.not_isAugmentingPath hv.toTest path
  rw [hs.getExperiments, toTest_researcherCount] at this
  exact this

end GraphInstance

/-! ## The result does not depend on the fuel -/

namespace GandaciJava

theorem rerouteLoop_of_imp {recurse recurse' : Nat → GandaciJava → Option (Bool × GandaciJava)}
    (h : ∀ a g res, recurse a g = some res → recurse' a g = some res) (l : Nat) :
    ∀ (exps : List Nat) (g : GandaciJava) (res : Bool × GandaciJava),
      rerouteLoop recurse l exps g = some res → rerouteLoop recurse' l exps g = some res := by
  intro exps
  induction exps with
  | nil => intro g res hres; exact hres
  | cons bug rest ih =>
    intro g res hres
    simp only [rerouteLoop] at hres ⊢
    split
    · rename_i hun
      rw [if_pos hun] at hres
      split at hres
      · exact absurd hres (by simp)
      · rename_i g1 hcall
        rw [h _ _ _ hcall]
        exact hres
      · rename_i g1 hcall
        rw [h _ _ _ hcall]
        exact ih _ _ hres
    · rename_i hvis
      rw [if_neg hvis] at hres
      exact ih _ _ hres

theorem pair_fuel_succ (t : Test) : ∀ (fuel l : Nat) (g : GandaciJava) (res : Bool × GandaciJava),
    pair t fuel l g = some res → pair t (fuel + 1) l g = some res := by
  intro fuel
  induction fuel with
  | zero => intro l g res h; simp [pair] at h
  | succ fuel ih =>
    intro l g res h
    rw [pair] at h ⊢
    split
    · rename_i bug hfind
      rw [hfind] at h
      exact h
    · rename_i hfind
      rw [hfind] at h
      exact rerouteLoop_of_imp ih l _ _ _ h

theorem pair_fuel_le (t : Test) {fuel fuel' : Nat} (hle : fuel ≤ fuel') (l : Nat)
    (g : GandaciJava) (res : Bool × GandaciJava) (h : pair t fuel l g = some res) :
    pair t fuel' l g = some res := by
  induction hle with
  | refl => exact h
  | step _ ih => exact pair_fuel_succ t _ l g res ih

theorem forLoop_fuel_le (t : Test) {fuel fuel' : Nat} (hle : fuel ≤ fuel') :
    ∀ (ls : List Nat) (flag : Bool) (g : GandaciJava) (res : Bool × GandaciJava),
      forLoop t fuel ls flag g = some res → forLoop t fuel' ls flag g = some res := by
  intro ls
  induction ls with
  | nil => intro flag g res h; exact h
  | cons l rest ih =>
    intro flag g res h
    simp only [forLoop] at h ⊢
    split
    · rename_i hun
      rw [if_pos hun] at h
      split at h
      · exact absurd h (by simp)
      · rename_i g1 hcall
        rw [pair_fuel_le t hle _ _ _ hcall]
        exact ih _ _ _ h
      · rename_i g1 hcall
        rw [pair_fuel_le t hle _ _ _ hcall]
        exact ih _ _ _ h
    · rename_i hp
      rw [if_neg hp] at h
      exact ih _ _ _ h

theorem doWhile_fuel_le (t : Test) {fuel fuel' : Nat} (hle : fuel ≤ fuel') :
    ∀ (n n' : Nat), n ≤ n' → ∀ (g : GandaciJava) (trace : List GandaciJava),
      doWhile t fuel n g = some trace → doWhile t fuel' n' g = some trace := by
  intro n
  induction n with
  | zero => intro n' _ g trace h; simp [doWhile] at h
  | succ n ih =>
    intro n' hn g trace h
    obtain ⟨k, rfl⟩ : ∃ k, n' = k + 1 := ⟨n' - 1, by omega⟩
    simp only [doWhile] at h ⊢
    split at h
    · exact absurd h (by simp)
    · rename_i g1 hpass
      have hpass' : pass t fuel' g = some (true, g1) := forLoop_fuel_le t hle _ _ _ _ hpass
      rw [hpass']
      cases hrest : doWhile t fuel n g1 with
      | none => rw [hrest] at h; exact absurd h (by simp)
      | some later =>
        rw [hrest] at h
        show Option.map (fun later => g1 :: later) (doWhile t fuel' k g1) = some trace
        rw [ih k (by omega) g1 later hrest]
        exact h
    · rename_i g1 hpass
      have hpass' : pass t fuel' g = some (false, g1) := forLoop_fuel_le t hle _ _ _ _ hpass
      rw [hpass']
      exact h

/-- More fuel never changes what `maximumBipartiteGraphMatching` returns. -/
theorem maximumBipartiteGraphMatching_fuel_le (t : Test) {fuel fuel' : Nat} (hle : fuel ≤ fuel')
    (g g' : GandaciJava) (h : maximumBipartiteGraphMatching t fuel g = some g') :
    maximumBipartiteGraphMatching t fuel' g = some g' := by
  unfold maximumBipartiteGraphMatching at h ⊢
  cases hp : passes t fuel g with
  | none => rw [hp] at h; exact absurd h (by simp)
  | some trace =>
    rw [hp] at h
    have : passes t fuel' g = some trace := doWhile_fuel_le t hle fuel fuel' hle _ _ hp
    rw [this]
    exact h

/-- On a valid test every fuel above `researcherCount` gives the same final state. -/
theorem maximumBipartiteGraphMatching_fuel_irrelevant {t : Test} (hv : t.Valid)
    {fuel fuel' : Nat} (hfuel : t.researcherCount < fuel) (hfuel' : t.researcherCount < fuel')
    (g : GandaciJava) :
    maximumBipartiteGraphMatching t fuel g = maximumBipartiteGraphMatching t fuel' g := by
  obtain ⟨_, g1, _, _, h1, _⟩ := maximumBipartiteGraphMatching_spec hv hfuel g
  obtain ⟨_, g2, _, _, h2, _⟩ := maximumBipartiteGraphMatching_spec hv hfuel' g
  rcases Nat.le_total fuel fuel' with hle | hle
  · rw [h1, maximumBipartiteGraphMatching_fuel_le t hle g g1 h1]
  · rw [h2, maximumBipartiteGraphMatching_fuel_le t hle g g2 h2]

end GandaciJava

/-! ## Lemmas for the claims -/

theorem Matched.validPairing {gi : GraphInstance} (hv : gi.Valid) {pm : PairManager}
    (hm : Matched gi.toTest pm) : ValidPairing gi pm := by
  have hrb := hm.researcher_bug
  have hbr := hm.bug_range
  have hbb := hm.bug_researcher
  simp only [GraphInstance.toTest_researcherCount, GraphInstance.toTest_bugCount] at hrb hbr hbb
  refine ⟨?_, ?_, ?_, ?_⟩
  · intro l r h1 h2 hr h0
    subst hr
    obtain ⟨ha, hb⟩ := hrb l h1 h2 h0
    have := hv.toTest.getExperiments_range ha
    simp only [GraphInstance.toTest_researcherCount, GraphInstance.toTest_bugCount] at this
    exact ⟨⟨this.2.2.1, this.2.2.2⟩, Test.mem_of_mem_getExperiments ha, hb⟩
  · intro r l h1 h2 hl h0
    subst hl
    exact ⟨hbr r h1 h2 h0, hbb r h1 h2 (by omega) h0⟩
  · intro l l' h1 h2 h1' h2' h0 e
    have a := (hrb l h1 h2 h0).2
    have b := (hrb l' h1' h2' (by rw [← e]; exact h0)).2
    rw [e] at a
    exact a.symm.trans b
  · intro r r' h1 h2 h1' h2' h0 e
    have a := hbb r h1 h2 (by omega) h0
    have b := hbb r' h1' h2' (by omega) (by rw [← e]; exact h0)
    rw [e] at a
    exact a.symm.trans b

/-- The shape of a sequence of counts that strictly increases up to its last element, which
repeats the element before it (`c0` if there is none), and that never decreases. -/
theorem StrictThenStall.shape : ∀ {cs : List Nat} {c0 : Nat}, StrictThenStall c0 cs →
    (∃ pre last, cs = pre ++ [last] ∧ List.Chain (fun a b => a < b) c0 pre ∧
      last = (c0 :: pre).getLast (List.cons_ne_nil c0 pre)) ∧
    List.Chain (fun a b => a ≤ b) c0 cs
  | [], _, h => absurd h (by simp [StrictThenStall])
  | [c], c0, h => by
    have h1 : c = c0 := h
    subst h1
    exact ⟨⟨[], c, rfl, List.Chain.nil, rfl⟩, List.Chain.cons (Nat.le_refl _) List.Chain.nil⟩
  | c :: c' :: rest, c0, h => by
    have h1 : c0 < c := h.1
    obtain ⟨⟨pre, last, hcs, hchain, hlast⟩, hle⟩ := StrictThenStall.shape h.2
    refine ⟨⟨c :: pre, last, by rw [hcs]; rfl, List.Chain.cons h1 hchain, ?_⟩,
      List.Chain.cons (Nat.le_of_lt h1) hle⟩
    rw [hlast]
    exact (List.getLast_cons (List.cons_ne_nil c pre)).symm

theorem Event.mem_mutations {pm : PairManager} : ∀ {es : List Event},
    pm ∈ Event.mutations es → Event.paired pm ∈ es
  | [], h => absurd h (by simp [Event.mutations])
  | Event.paired pm' :: rest, h => by
    simp only [Event.mutations, List.mem_cons] at h
    rcases h with h | h
    · subst h; exact List.mem_cons_self _ _
    · exact List.mem_cons_of_mem _ (Event.mem_mutations h)
  | Event.reset :: rest, h => List.mem_cons_of_mem _ (Event.mem_mutations h)
  | Event.called _ _ :: rest, h => List.mem_cons_of_mem _ (Event.mem_mutations h)
  | Event.examined _ _ :: rest, h => List.mem_cons_of_mem _ (Event.mem_mutations h)
  | Event.returned _ _ _ :: rest, h => List.mem_cons_of_mem _ (Event.mem_mutations h)

theorem Matched.symmetric {t : Test} {pm : PairManager} (hm : Matched t pm) :
    pm.Symmetric t.researcherCount t.bugCount := by
  intro l r hl1 hl2 hr1 hr2
  constructor
  · intro h
    have := (hm.researcher_bug l hl1 hl2 (by rw [h]; omega)).2
    rwa [h] at this
  · intro h
    have := hm.bug_researcher r hr1 hr2 (by omega) (by rw [h]; omega)
    rwa [h] at this

theorem GraphInstance.duplicated_valid (n : Nat) : (GraphInstance.duplicated n).Valid := by
  refine ⟨Nat.le_of_ble_eq_true rfl, Nat.le_of_ble_eq_true rfl, ?_⟩
  intro e he
  have := List.eq_of_mem_replicate he
  subst this
  exact ⟨Nat.le_refl 1, Nat.le_refl 1, Nat.le_refl 1, Nat.le_refl 1⟩

theorem GraphInstance.duplicated_experiment (n l : Nat) :
    (GraphInstance.duplicated n).toTest.experiment l =
      if l = 1 then List.replicate n 1 else [] := by
  rw [GraphInstance.toTest_experiment]
  by_cases h : l = 1
  · subst h
    simp [GraphInstance.duplicated]
  · have h' : ¬ (1 = l) := fun c => h c.symm
    simp [GraphInstance.duplicated, h, h']

/-- With `65536` experiments the narrowed count is `0`: the loops of `pair` read nothing. -/
theorem GraphInstance.duplicated_getExperiments (l : Nat) :
    (GraphInstance.duplicated 65536).toTest.getExperiments l = [] := by
  unfold Test.getExperiments Test.getExperimentCount
  rw [GraphInstance.duplicated_experiment]
  by_cases h : l = 1
  · rw [if_pos h, List.length_replicate]
    have : toShort 65536 = 0 := by decide
    rw [this]
    rfl
  · rw [if_neg h]; rfl

theorem GraphInstance.duplicated_isMatching (n : Nat) (hn : 0 < n) :
    IsMatching (GraphInstance.duplicated n).toTest.experiment [(1, 1)] := by
  refine ⟨?_, by simp, by simp⟩
  intro e he
  rw [List.mem_singleton] at he
  subst he
  rw [GraphInstance.duplicated_experiment, if_pos rfl]
  cases n with
  | zero => omega
  | succ k => exact List.mem_cons_self _ _

theorem GandaciJava.pair_of_no_experiments {t : Test} {l : Nat} (h : t.getExperiments l = [])
    (fuel : Nat) (g : GandaciJava) :
    GandaciJava.pair t (fuel + 1) l g =
      some (false, (g.record (Event.called l (g.visitManager.isVisited l))).visit l) := by
  simp only [GandaciJava.pair, h, List.find?_nil, GandaciJava.rerouteLoop]

/-- On a test with one researcher that reads no experiment, a single pass pairs nothing. -/
theorem GandaciJava.maximumBipartiteGraphMatching_of_no_experiments {t : Test}
    (hc : t.researcherCount = 1) (hb : t.bugCount = 1) (h : t.getExperiments 1 = [])
    (g : GandaciJava) :
    ∃ g', GandaciJava.maximumBipartiteGraphMatching t 2 g = some g' ∧
      g'.pairManager = g.pairManager.init 1 1 ∧ g'.solutions = g.solutions := by
  have hr : List.range' 1 1 = [1] := rfl
  simp only [GandaciJava.maximumBipartiteGraphMatching, GandaciJava.passes, GandaciJava.doWhile,
    GandaciJava.pass, Test.getResearcherCount, Test.getBugCount, hc, hb, hr, GandaciJava.forLoop,
    GandaciJava.pair_of_no_experiments h]
  exact ⟨_, rfl, rfl, rfl⟩

theorem GandaciJava.solve_duplicated :
    (GandaciJava.solve (GraphInstance.duplicated 65536).toTest 2 GandaciJava.fresh).map
      (fun g' => g'.solutions) = some [0] := by
  obtain ⟨g', h1, h2, h3⟩ := GandaciJava.maximumBipartiteGraphMatching_of_no_experiments
    (GraphInstance.toTest_researcherCount _) (GraphInstance.toTest_bugCount _)
    (GraphInstance.duplicated_getExperiments 1) GandaciJava.fresh
  simp only [GandaciJava.solve, h1, Option.map_some', h2, h3, PairManager.getPairCount_init]
  rfl

/-- The matching size depends only on the set of edges, for instances whose adjacency vectors
fit a `short`. -/
theorem GraphInstance.size_depends_on_edge_set (gi gi' : GraphInstance) (hv : gi.Valid)
    (hv' : gi'.Valid) (hs : gi.ShortSafe) (hs' : gi'.ShortSafe)
    (hedges : ∀ l r, r ∈ gi.toTest.experiment l ↔ r ∈ gi'.toTest.experiment l) (fuel : Nat)
    (hfuel : gi.leftCount < fuel) (hfuel' : gi'.leftCount < fuel) (g g' : GandaciJava) :
    ∃ f f' n, GandaciJava.solve gi.toTest fuel g = some f ∧
      GandaciJava.solve gi'.toTest fuel g' = some f' ∧
      f.solutions = g.solutions ++ [n] ∧ f'.solutions = g'.solutions ++ [n] := by
  obtain ⟨f, n, h1, h2, h3⟩ := gi.solve_maximum hv hs fuel hfuel g
  obtain ⟨f', n', h1', h2', h3'⟩ := gi'.solve_maximum hv' hs' fuel hfuel' g'
  have hiff : ∀ m, IsMatching gi.toTest.experiment m ↔ IsMatching gi'.toTest.experiment m := by
    intro m
    constructor
    · intro h; exact ⟨fun e he => (hedges _ _).mp (h.edge e he), h.researchers, h.bugs⟩
    · intro h; exact ⟨fun e he => (hedges _ _).mpr (h.edge e he), h.researchers, h.bugs⟩
  have h3'' : IsMaximumMatchingSize gi.toTest.experiment n' := by
    obtain ⟨⟨m, hm, hl⟩, hmax⟩ := h3'
    exact ⟨⟨m, (hiff m).mpr hm, hl⟩, fun m hm => hmax m ((hiff m).mp hm)⟩
  have hn : n = n' := h3.unique h3''
  subst hn
  exact ⟨f, f', n, h1, h1', h2, h2'⟩

/-! ## Instances without experiments, complete instances, direct extension -/

/-- A valid matching of a test whose loops read no experiment has no pair. -/
theorem Matched.getPairCount_eq_zero {t : Test} (h : ∀ l, t.getExperiments l = [])
    {pm : PairManager} (hm : Matched t pm) : pm.getPairCount = 0 := by
  rw [← pm.length_pairs]
  cases hp : pm.pairs with
  | nil => rfl
  | cons e rest =>
    exfalso
    have := hm.isMatching_pairs.edge e (by rw [hp]; exact List.mem_cons_self _ _)
    rw [h] at this
    exact absurd this (List.not_mem_nil _)

/-- A valid instance without researchers or without bugs has no experiment. -/
theorem GraphInstance.Valid.edges_eq_nil {gi : GraphInstance} (hv : gi.Valid)
    (h : gi.leftCount = 0 ∨ gi.rightCount = 0 ∨ gi.edges = []) : gi.edges = [] := by
  rcases h with h | h | h
  · apply List.eq_nil_iff_forall_not_mem.mpr
    intro e he
    have := hv.2.2 e he
    omega
  · apply List.eq_nil_iff_forall_not_mem.mpr
    intro e he
    have := hv.2.2 e he
    omega
  · exact h

theorem GraphInstance.getExperiments_of_edges_eq_nil {gi : GraphInstance} (h : gi.edges = [])
    (l : Nat) : gi.toTest.getExperiments l = [] := by
  have : gi.toTest.experiment l = [] := by
    rw [GraphInstance.toTest_experiment, h]; rfl
  unfold Test.getExperiments
  rw [this]
  exact List.take_nil

/-- Direct extension for any test and state: when the experiments that the loops read contain
an unpaired bug, `pair` marks the researcher visited, pairs it with the first such bug and
returns true, at nesting depth one. -/
theorem GandaciJava.pair_direct (t : Test) (fuel l : Nat) (g : GandaciJava) {bug : Nat}
    (h : (t.getExperiments l).find? (fun b => !g.pairManager.isBugPaired b) = some bug) :
    GandaciJava.pair t (fuel + 1) l g =
      some (true,
        ((g.record (Event.called l (g.visitManager.isVisited l))).visit l).setPair l bug) := by
  have h' : (t.getExperiments l).find? (fun b =>
      !((g.record (Event.called l (g.visitManager.isVisited l))).visit l).pairManager.isBugPaired
        b) = some bug := h
  simp only [GandaciJava.pair, h']

/-- The first element of a list that satisfies a predicate, when one does. -/
theorem List.find?_isSome_of_mem {p : Nat → Bool} {l : List Nat} {a : Nat} (ha : a ∈ l)
    (hp : p a = true) : ∃ b, l.find? p = some b := by
  cases h : l.find? p with
  | some b => exact ⟨b, rfl⟩
  | none =>
    have := List.find?_eq_none.mp h a ha
    exact absurd hp this

/-- The diagonal `(1,1), ..., (m,m)`. -/
theorem GraphInstance.diagonal_isMatching {adj : Nat → List Nat} {m : Nat}
    (h : ∀ i, 1 ≤ i → i ≤ m → i ∈ adj i) :
    IsMatching adj ((List.range' 1 m).map (fun i => (i, i))) := by
  refine ⟨?_, ?_, ?_⟩
  · intro e he
    obtain ⟨i, hi, rfl⟩ := List.mem_map.mp he
    rw [List.mem_range'] at hi
    obtain ⟨k, hk, rfl⟩ := hi
    exact h _ (by omega) (by omega)
  · rw [List.map_map]
    have : (Prod.fst ∘ fun i : Nat => (i, i)) = id := rfl
    rw [this, List.map_id]
    exact List.nodup_range' 1 m
  · rw [List.map_map]
    have : (Prod.snd ∘ fun i : Nat => (i, i)) = id := rfl
    rw [this, List.map_id]
    exact List.nodup_range' 1 m

/-- On a complete instance whose adjacency vectors fit a `short`, `solve` appends
`min leftCount rightCount`. -/
theorem GraphInstance.solve_complete (gi : GraphInstance) (hv : gi.Valid) (hs : gi.ShortSafe)
    (hc : ∀ l r, 1 ≤ l → l ≤ gi.leftCount → 1 ≤ r → r ≤ gi.rightCount →
      r ∈ gi.toTest.experiment l)
    (fuel : Nat) (hfuel : gi.leftCount < fuel) (g : GandaciJava) :
    ∃ g', GandaciJava.solve gi.toTest fuel g = some g' ∧
      g'.solutions = g.solutions ++ [min gi.leftCount gi.rightCount] := by
  obtain ⟨g', n, hrun, hsol, ⟨m, hm, hlen⟩, hmax⟩ := gi.solve_maximum hv hs fuel hfuel g
  refine ⟨g', hrun, ?_⟩
  have h1 : n ≤ min gi.leftCount gi.rightCount := by
    have hm' : IsMatching gi.toTest.getExperiments m := by rw [hs.getExperiments]; exact hm
    have := hm'.length_le_min hv.toTest
    simpa [hlen] using this
  have h2 : min gi.leftCount gi.rightCount ≤ n := by
    have hd : IsMatching gi.toTest.experiment
        ((List.range' 1 (min gi.leftCount gi.rightCount)).map (fun i => (i, i))) := by
      apply GraphInstance.diagonal_isMatching
      intro i hi1 hi2
      have := Nat.le_min.mp hi2
      exact hc i i hi1 this.1 hi1 this.2
    have := hmax _ hd
    simpa using this
  have : n = min gi.leftCount gi.rightCount := Nat.le_antisymm h1 h2
  rw [hsol, this]

/-- An instance whose adjacency vectors have no duplicate fits a `short`. -/
theorem GraphInstance.Valid.shortSafe_of_nodup {gi : GraphInstance} (hv : gi.Valid)
    (hn : ∀ l, (gi.toTest.experiment l).Nodup) : gi.ShortSafe := by
  intro l
  have h1 : (gi.toTest.experiment l).length ≤ (List.range' 1 gi.rightCount).length := by
    apply List.Subperm.length_le
    apply List.subperm_of_subset (hn l)
    intro r hr
    have := hv.toTest.mem_range l r hr
    simp only [GraphInstance.toTest_researcherCount, GraphInstance.toTest_bugCount] at this
    rw [List.mem_range']
    exact ⟨r - 1, by omega, by omega⟩
  rw [GraphInstance.toTest_experiment, List.length_map] at h1
  simp only [List.length_range'] at h1
  have := hv.2.1
  omega

theorem GraphInstance.duplicated_mem (n : Nat) (hn : 0 < n) :
    1 ∈ (GraphInstance.duplicated n).toTest.experiment 1 := by
  rw [GraphInstance.duplicated_experiment, if_pos rfl]
  cases n with
  | zero => omega
  | succ k => exact List.mem_cons_self _ _

/-! ## The nesting depth of the search -/

theorem unvisitedCount_visit_lt {t : Test} (g : GandaciJava) {l : Nat} (hl1 : 1 ≤ l)
    (hl2 : l ≤ t.researcherCount) : unvisitedCount t (g.visit l) < t.researcherCount := by
  have hle := unvisitedCount_le t (g.visit l)
  rcases Nat.lt_or_eq_of_le hle with h | h
  · exact h
  · exfalso
    unfold unvisitedCount at h
    have hlen : (List.range' 1 t.researcherCount).length = t.researcherCount := by simp
    have h' : (List.range' 1 t.researcherCount).countP
        (fun x => !(g.visit l).visitManager.isVisited x)
        = (List.range' 1 t.researcherCount).length := by rw [hlen]; exact h
    have hall := List.countP_eq_length.mp h' l
      (List.mem_range'.mpr ⟨l - 1, by omega, by omega⟩)
    simp at hall

namespace GandaciJava

/-- From a valid matching, the search for an in-range researcher returns within nesting depth
`researcherCount`. -/
theorem pair_isSome_of_researcherCount {t : Test} (hv : t.Valid) (l : Nat) (g : GandaciJava)
    (hm : Matched t g.pairManager) (hl1 : 1 ≤ l) (hl2 : l ≤ t.researcherCount) :
    ∃ res, pair t t.researcherCount l g = some res :=
  pair_isSome hv _ l g hm hl1 hl2 (unvisitedCount_visit_lt g hl1 hl2)

theorem forLoop_depth {t : Test} (hv : t.Valid) {fuel : Nat} (hle : t.researcherCount ≤ fuel) :
    ∀ (ls : List Nat) (flag : Bool) (g : GandaciJava) (res : Bool × GandaciJava),
      Matched t g.pairManager → (∀ x ∈ ls, 1 ≤ x ∧ x ≤ t.researcherCount) →
      forLoop t fuel ls flag g = some res → forLoop t t.researcherCount ls flag g = some res := by
  intro ls
  induction ls with
  | nil => intro flag g res _ _ h; exact h
  | cons l rest ih =>
    intro flag g res hm hls h
    obtain ⟨hl1, hl2⟩ := hls l (List.mem_cons_self _ _)
    have hrest : ∀ x ∈ rest, 1 ≤ x ∧ x ≤ t.researcherCount :=
      fun x hx => hls x (List.mem_cons_of_mem _ hx)
    simp only [forLoop] at h ⊢
    split
    · rename_i hun
      rw [if_pos hun] at h
      have hl0 : g.pairManager.researcher l = 0 := by
        simpa [PairManager.isResearcherPaired] using hun
      obtain ⟨r', hr'⟩ := pair_isSome_of_researcherCount hv l g hm hl1 hl2
      have hr := pair_fuel_le t hle l g r' hr'
      rw [hr] at h
      rw [hr']
      obtain ⟨b, g1⟩ := r'
      cases b with
      | true =>
        have hrer := pair_true hv _ l g g1 hm hl1 hl2 hr
        have hm1 : Matched t g1.pairManager := by
          have := hrer.chained
          rw [hl0] at this
          exact this
        exact ih _ _ _ hm1 hrest h
      | false =>
        obtain ⟨hex, _, _⟩ := pair_false t _ l g g1 hr
        have hm1 : Matched t g1.pairManager := by
          rw [hex.pairManager_eq]; exact hm
        exact ih _ _ _ hm1 hrest h
    · rename_i hp
      rw [if_neg hp] at h
      exact ih _ _ _ hm hrest h

theorem doWhile_depth {t : Test} (hv : t.Valid) {fuel : Nat} (hfuel : t.researcherCount < fuel) :
    ∀ (n : Nat) (g : GandaciJava) (trace : List GandaciJava), Matched t g.pairManager →
      doWhile t fuel n g = some trace → doWhile t t.researcherCount n g = some trace := by
  intro n
  induction n with
  | zero => intro g trace _ h; simp [doWhile] at h
  | succ n ih =>
    intro g trace hm h
    obtain ⟨flag', g', hrun, hp⟩ := pass_spec hv hfuel g hm
    have hrange : ∀ x ∈ List.range' 1 t.getResearcherCount, 1 ≤ x ∧ x ≤ t.researcherCount := by
      intro x hx
      rw [List.mem_range'] at hx
      obtain ⟨i, hi, rfl⟩ := hx
      have : t.getResearcherCount = t.researcherCount := rfl
      omega
    have hrun' : pass t t.researcherCount g = some (flag', g') :=
      forLoop_depth hv (Nat.le_of_lt hfuel) _ _ _ _ hm hrange hrun
    simp only [doWhile, hrun] at h
    simp only [doWhile, hrun']
    cases flag' with
    | false => exact h
    | true =>
      have h' : Option.map (fun later => g' :: later) (doWhile t fuel n g') = some trace := h
      show Option.map (fun later => g' :: later) (doWhile t t.researcherCount n g') = some trace
      cases hrest : doWhile t fuel n g' with
      | none => rw [hrest] at h'; exact absurd h' (by simp)
      | some later =>
        rw [hrest] at h'
        rw [ih g' later hp.matched hrest]
        exact h'

end GandaciJava

/-! ## Walks through the history -/

theorem PairManager.Keeps.same (pm : PairManager) : pm.Keeps pm :=
  ⟨fun _ h => h, fun _ h => h⟩

theorem PairManager.Keeps.andThen {pm pm' pm'' : PairManager} (h : pm.Keeps pm')
    (h' : pm'.Keeps pm'') : pm.Keeps pm'' :=
  ⟨fun l hl => h'.1 l (h.1 l hl), fun r hr => h'.2 r (h.2 r hr)⟩

/-- The two writes of `PairManager::pair` with non-zero arguments clear no entry. -/
theorem PairManager.Keeps.of_pair (pm : PairManager) {l bug : Nat} (hl : l ≠ 0)
    (hb : bug ≠ 0) : pm.Keeps (pm.pair l bug) := by
  refine ⟨?_, ?_⟩
  · intro x hx
    simp only [PairManager.pair_researcher]
    split
    · exact hb
    · exact hx
  · intro y hy
    simp only [PairManager.pair_bug]
    split
    · exact hl
    · exact hy

theorem Event.calls_append (a b : List Event) :
    Event.calls (a ++ b) = Event.calls a ++ Event.calls b := by
  induction a with
  | nil => rfl
  | cons e rest ih => cases e <;> simp [Event.calls, ih]

theorem Event.states_append (a b : List Event) :
    Event.states (a ++ b) = Event.states a ++ Event.states b := by
  induction a with
  | nil => rfl
  | cons e rest ih => cases e <;> simp [Event.states, ih]

theorem Event.lastReturn_append (a b : List Event) : ∀ (prev : PairManager),
    Event.lastReturn prev (a ++ b) = Event.lastReturn (Event.lastReturn prev a) b := by
  induction a with
  | nil => intro prev; rfl
  | cons e rest ih => intro prev; cases e <;> simp [Event.lastReturn, ih]

theorem Event.returns_walk_append {Ok : PairManager → Prop} (a b : List Event) :
    ∀ (prev : PairManager), Event.Returns Ok prev a →
      Event.Returns Ok (Event.lastReturn prev a) b → Event.Returns Ok prev (a ++ b) := by
  induction a with
  | nil => intro prev _ hb; exact hb
  | cons e rest ih =>
    intro prev ha hb
    cases e with
    | returned l result pm => exact ⟨ha.1, ih pm ha.2 hb⟩
    | reset => exact ih prev ha hb
    | called l v => exact ih prev ha hb
    | examined bug p => exact ih prev ha hb
    | paired pm => exact ih prev ha hb

theorem Event.returns_walk_weaken {Ok Ok' : PairManager → Prop} (h : ∀ pm, Ok pm → Ok' pm) :
    ∀ (es : List Event) (prev : PairManager), Event.Returns Ok prev es →
      Event.Returns Ok' prev es := by
  intro es
  induction es with
  | nil => intro _ _; trivial
  | cons e rest ih =>
    intro prev he
    cases e with
    | returned l result pm => exact ⟨⟨h pm he.1.1, he.1.2⟩, ih pm he.2⟩
    | reset => exact ih prev he
    | called l v => exact ih prev he
    | examined bug p => exact ih prev he
    | paired pm => exact ih prev he

/-- Events recorded inside `pair` contain no return to the `for` loop. -/
theorem Event.returns_walk_of_nested (Ok : PairManager → Prop) :
    ∀ (es : List Event) (prev : PairManager), (∀ e ∈ es, e.Nested) →
      Event.Returns Ok prev es ∧ Event.lastReturn prev es = prev := by
  intro es
  induction es with
  | nil => intro _ _; exact ⟨trivial, rfl⟩
  | cons e rest ih =>
    intro prev h
    have hrest := ih prev (fun x hx => h x (List.mem_cons_of_mem _ hx))
    have he := h e (List.mem_cons_self _ _)
    cases e with
    | returned l result pm => exact absurd he (by simp [Event.Nested])
    | reset => exact absurd he (by simp [Event.Nested])
    | called l v => exact hrest
    | examined bug p => exact hrest
    | paired pm => exact hrest

theorem Event.oncePerRound_append (a b : List Event) (hb : ∀ seen, Event.OncePerRound seen b) :
    ∀ (seen : List Nat), Event.OncePerRound seen a → Event.OncePerRound seen (a ++ b) := by
  induction a with
  | nil => intro seen _; exact hb seen
  | cons e rest ih =>
    intro seen ha
    cases e with
    | reset => exact ih [] ha
    | called l v => exact ⟨ha.1, ih (l :: seen) ha.2⟩
    | examined bug p => exact ih seen ha
    | paired pm => exact ih seen ha
    | returned l result pm => exact ih seen ha

/-- Inside one pass, calls for pairwise distinct researchers outside `seen` pass the walk. -/
theorem Event.oncePerRound_of_nodup : ∀ (es : List Event) (seen : List Nat),
    Event.reset ∉ es → (Event.calls es).Nodup → (∀ l ∈ Event.calls es, l ∉ seen) →
    Event.OncePerRound seen es := by
  intro es
  induction es with
  | nil => intro _ _ _ _; trivial
  | cons e rest ih =>
    intro seen hreset hnodup hseen
    have hreset' : Event.reset ∉ rest := fun h => hreset (List.mem_cons_of_mem _ h)
    cases e with
    | reset => exact absurd (List.mem_cons_self _ _) hreset
    | called l v =>
      simp only [Event.calls, List.nodup_cons] at hnodup
      refine ⟨hseen l (by simp [Event.calls]), ih (l :: seen) hreset' hnodup.2 ?_⟩
      intro x hx hmem
      rcases List.mem_cons.mp hmem with e | e
      · subst e; exact hnodup.1 hx
      · exact hseen x (by simp [Event.calls, hx]) e
    | examined bug p => exact ih seen hreset' hnodup hseen
    | paired pm => exact ih seen hreset' hnodup hseen
    | returned l result pm => exact ih seen hreset' hnodup hseen

/-! ## Trails inside one pass -/

theorem Trail.start (t : Test) (g : GandaciJava) : Trail t g g [] :=
  ⟨by simp, PairManager.Keeps.same _, fun _ h => h, by simp, by simp,
    by simp [Event.states], by simp [Event.states], by simp [Event.calls],
    by simp [Event.calls]⟩

theorem Trail.followedBy {t : Test} {g g1 g' : GandaciJava} {a b : List Event}
    (h : Trail t g g1 a) (h' : Trail t g1 g' b) : Trail t g g' (a ++ b) := by
  refine ⟨by rw [h'.log_eq, h.log_eq, List.append_assoc], h.keeps.andThen h'.keeps,
    fun x hx => h'.visited_mono x (h.visited_mono x hx), ?_, ?_, ?_, ?_, ?_, ?_⟩
  · intro e he
    rcases List.mem_append.mp he with h1 | h1
    · exact h.safe e h1
    · exact h'.safe e h1
  · intro he
    rcases List.mem_append.mp he with h1 | h1
    · exact h.no_reset h1
    · exact h'.no_reset h1
  · intro pm hpm
    rw [Event.states_append] at hpm
    rcases List.mem_append.mp hpm with h1 | h1
    · exact ⟨(h.states_between pm h1).1, (h.states_between pm h1).2.andThen h'.keeps⟩
    · exact ⟨h.keeps.andThen (h'.states_between pm h1).1, (h'.states_between pm h1).2⟩
  · rw [Event.states_append, List.pairwise_append]
    refine ⟨h.states_sorted, h'.states_sorted, ?_⟩
    intro pm hpm pm' hpm'
    exact (h.states_between pm hpm).2.andThen (h'.states_between pm' hpm').1
  · rw [Event.calls_append, List.nodup_append]
    refine ⟨h.calls_nodup, h'.calls_nodup, ?_⟩
    intro x hx hx'
    have h1 := (h.calls_fresh x hx).2
    have h2 := (h'.calls_fresh x hx').1
    rw [h1] at h2
    exact absurd h2 (by simp)
  · intro x hx
    rw [Event.calls_append] at hx
    rcases List.mem_append.mp hx with h1 | h1
    · exact ⟨(h.calls_fresh x h1).1, h'.visited_mono x (h.calls_fresh x h1).2⟩
    · refine ⟨?_, (h'.calls_fresh x h1).2⟩
      have hf := (h'.calls_fresh x h1).1
      cases hg : g.visitManager.isVisited x with
      | false => rfl
      | true => rw [h.visited_mono x hg] at hf; exact absurd hf (by simp)

/-- The trail of examining a bug whose researcher is in range. -/
theorem Trail.examine (t : Test) (g : GandaciJava) (bug : Nat) {partner : Nat}
    (hp : 1 ≤ partner ∧ partner ≤ t.researcherCount) :
    Trail t g (g.record (Event.examined bug partner)) [Event.examined bug partner] := by
  refine ⟨rfl, PairManager.Keeps.same _, fun _ h => h, ?_, by simp,
    by simp [Event.states], by simp [Event.states], by simp [Event.calls],
    by simp [Event.calls]⟩
  intro e he
  rw [List.mem_singleton] at he
  subst he
  exact hp

/-- The trail of entering `pair` for an in-range researcher that is not visited. -/
theorem Trail.enter (t : Test) (g : GandaciJava) {l : Nat} (hl1 : 1 ≤ l)
    (hl2 : l ≤ t.researcherCount) (hv : g.visitManager.isVisited l = false) :
    Trail t g ((g.record (Event.called l (g.visitManager.isVisited l))).visit l)
      [Event.called l (g.visitManager.isVisited l)] := by
  refine ⟨rfl, PairManager.Keeps.same _, ?_, ?_, by simp,
    by simp [Event.states], by simp [Event.states], by simp [Event.calls], ?_⟩
  · intro x hx
    simp [hx]
  · intro e he
    rw [List.mem_singleton] at he
    subst he
    exact ⟨hv, hl1, hl2⟩
  · intro x hx
    simp only [Event.calls, List.mem_singleton] at hx
    subst hx
    exact ⟨hv, by simp⟩

/-- The trail of a call of `PairManager::pair` with non-zero arguments. -/
theorem Trail.mutate (t : Test) (g : GandaciJava) {l bug : Nat} (hl : l ≠ 0) (hb : bug ≠ 0) :
    Trail t g (g.setPair l bug) [Event.paired (g.pairManager.pair l bug)] := by
  have hk := PairManager.Keeps.of_pair g.pairManager hl hb
  refine ⟨rfl, hk, fun _ h => h, ?_, by simp, ?_, by simp [Event.states],
    by simp [Event.calls], by simp [Event.calls]⟩
  · intro e he
    rw [List.mem_singleton] at he
    subst he
    trivial
  · intro pm hpm
    simp only [Event.states, List.mem_singleton] at hpm
    subst hpm
    exact ⟨hk, PairManager.Keeps.same _⟩

/-- The trail of a return to the `for` loop. -/
theorem Trail.back (t : Test) (g : GandaciJava) (l : Nat) (result : Bool) :
    Trail t g (g.record (Event.returned l result g.pairManager))
      [Event.returned l result g.pairManager] := by
  refine ⟨rfl, PairManager.Keeps.same _, fun _ h => h, ?_, by simp, ?_, by simp [Event.states],
    by simp [Event.calls], by simp [Event.calls]⟩
  · intro e he
    rw [List.mem_singleton] at he
    subst he
    trivial
  · intro pm hpm
    simp only [Event.states, List.mem_singleton] at hpm
    subst hpm
    exact ⟨PairManager.Keeps.same _, PairManager.Keeps.same _⟩

namespace GandaciJava

theorem rerouteLoop_trail {t : Test} (hv : t.Valid)
    {recurse : Nat → GandaciJava → Option (Bool × GandaciJava)}
    (hfail : ∀ a g g', recurse a g = some (false, g') → Explored t g g')
    (hsucc : ∀ a g g', Matched t g.pairManager → 1 ≤ a → a ≤ t.researcherCount →
      recurse a g = some (true, g') → Rerouted t a g g')
    (htrail : ∀ a g res, Matched t g.pairManager → 1 ≤ a → a ≤ t.researcherCount →
      g.visitManager.isVisited a = false → recurse a g = some res →
      ∃ added, Trail t g res.2 added ∧ Newly a g res.2 ∧ ∀ e ∈ added, e.Nested)
    {l : Nat} (hl1 : 1 ≤ l) :
    ∀ (exps : List Nat) (g : GandaciJava) (res : Bool × GandaciJava),
      Matched t g.pairManager → g.visitManager.isVisited l = true →
      (∀ r ∈ exps, r ∈ t.getExperiments l ∧ g.pairManager.bug r ≠ 0) →
      rerouteLoop recurse l exps g = some res →
      ∃ added, Trail t g res.2 added ∧ Newly l g res.2 ∧ ∀ e ∈ added, e.Nested := by
  intro exps
  induction exps with
  | nil =>
    intro g res _ _ _ h
    simp only [rerouteLoop, Option.some.injEq] at h
    subst h
    exact ⟨[], Trail.start t g, fun x hx => Or.inl hx, by simp⟩
  | cons bug rest ih =>
    intro g res hm hvl hexps h
    obtain ⟨hbugE, hbug0⟩ := hexps bug (List.mem_cons_self _ _)
    have hrestE : ∀ r ∈ rest, r ∈ t.getExperiments l ∧ g.pairManager.bug r ≠ 0 :=
      fun r hr => hexps r (List.mem_cons_of_mem _ hr)
    obtain ⟨_, _, hb1, hb2⟩ := hv.getExperiments_range hbugE
    have har := hm.bug_range bug hb1 hb2 hbug0
    have hback : g.pairManager.researcher (g.pairManager.bug bug) = bug :=
      hm.bug_researcher bug hb1 hb2 (by omega) hbug0
    have T0 : Trail t g (g.record (Event.examined bug (g.pairManager.getResearcherOfBug bug)))
        [Event.examined bug (g.pairManager.getResearcherOfBug bug)] :=
      Trail.examine t g bug har
    have N0 : ∀ e ∈ [Event.examined bug (g.pairManager.getResearcherOfBug bug)], e.Nested := by
      intro e he
      rw [List.mem_singleton] at he
      subst he
      trivial
    simp only [rerouteLoop] at h
    split at h
    · rename_i hunvisited
      have hva : g.visitManager.isVisited (g.pairManager.bug bug) = false := by
        simpa [PairManager.getResearcherOfBug] using hunvisited
      split at h
      · exact absurd h (by simp)
      · rename_i g1 hcall
        simp only [Option.some.injEq] at h
        subst h
        obtain ⟨a1, T1, N1, I1⟩ := htrail _ (g.record (Event.examined bug (g.pairManager.getResearcherOfBug bug)))
          _ hm har.1 har.2 hva hcall
        have hr := hsucc _ (g.record (Event.examined bug (g.pairManager.getResearcherOfBug bug)))
          _ hm har.1 har.2 hcall
        have T2 : Trail t g1 (g1.setPair l bug) [Event.paired (g1.pairManager.pair l bug)] :=
          Trail.mutate t g1 (by omega) (by omega)
        refine ⟨_, T0.followedBy (T1.followedBy T2), ?_, ?_⟩
        · intro x hx
          have hx1 : g1.visitManager.isVisited x = true := hx
          rcases N1 x hx1 with h1 | h1 | h1
          · exact Or.inl h1
          · right; right
            subst h1
            exact T2.keeps.1 _ hr.paired
          · right; right
            exact T2.keeps.1 _ h1
        · intro e he
          rcases List.mem_append.mp he with h1 | h1
          · exact N0 e h1
          · rcases List.mem_append.mp h1 with h2 | h2
            · exact I1 e h2
            · rw [List.mem_singleton] at h2
              subst h2
              trivial
      · rename_i g1 hcall
        obtain ⟨a1, T1, N1, I1⟩ := htrail _ (g.record (Event.examined bug (g.pairManager.getResearcherOfBug bug)))
          _ hm har.1 har.2 hva hcall
        have hex := hfail _ _ _ hcall
        have hpm : g1.pairManager = g.pairManager := hex.pairManager_eq
        obtain ⟨a2, T2, N2, I2⟩ := ih g1 res (hpm ▸ hm) (hex.visited_mono l hvl)
          (by rw [hpm]; exact hrestE) h
        refine ⟨_, T0.followedBy (T1.followedBy T2), ?_, ?_⟩
        · intro x hx
          rcases N2 x hx with h1 | h1 | h1
          · rcases N1 x h1 with h2 | h2 | h2
            · exact Or.inl h2
            · right; right
              subst h2
              apply T2.keeps.1
              rw [hpm, hback]
              omega
            · right; right
              exact T2.keeps.1 _ h2
          · exact Or.inr (Or.inl h1)
          · exact Or.inr (Or.inr h1)
        · intro e he
          rcases List.mem_append.mp he with h1 | h1
          · exact N0 e h1
          · rcases List.mem_append.mp h1 with h2 | h2
            · exact I1 e h2
            · exact I2 e h2
    · obtain ⟨a2, T2, N2, I2⟩ := ih (g.record (Event.examined bug (g.pairManager.getResearcherOfBug bug)))
        res hm hvl hrestE h
      refine ⟨_, T0.followedBy T2, N2, ?_⟩
      intro e he
      rcases List.mem_append.mp he with h1 | h1
      · exact N0 e h1
      · exact I2 e h1

/-- The trail of a search for an in-range researcher that is not visited, started in a valid
matching. -/
theorem pair_trail {t : Test} (hv : t.Valid) : ∀ (fuel l : Nat) (g : GandaciJava)
    (res : Bool × GandaciJava), Matched t g.pairManager → 1 ≤ l → l ≤ t.researcherCount →
    g.visitManager.isVisited l = false → pair t fuel l g = some res →
    ∃ added, Trail t g res.2 added ∧ Newly l g res.2 ∧ ∀ e ∈ added, e.Nested := by
  intro fuel
  induction fuel with
  | zero => intro l g res _ _ _ _ h; simp [pair] at h
  | succ fuel ih =>
    intro l g res hm hl1 hl2 hvl h
    have Tc := Trail.enter t g hl1 hl2 hvl
    have Nc : ∀ e ∈ [Event.called l (g.visitManager.isVisited l)], e.Nested := by
      intro e he
      rw [List.mem_singleton] at he
      subst he
      trivial
    have hvis : ∀ x,
        ((g.record (Event.called l (g.visitManager.isVisited l))).visit l).visitManager.isVisited x
          = true → x = l ∨ g.visitManager.isVisited x = true := by
      intro x hx
      simpa using hx
    simp only [pair] at h
    split at h
    · rename_i bug hfind
      simp only [Option.some.injEq] at h
      subst h
      have hmem := List.mem_of_find?_eq_some hfind
      obtain ⟨_, _, hb1, _⟩ := hv.getExperiments_range hmem
      have T2 := Trail.mutate t
        ((g.record (Event.called l (g.visitManager.isVisited l))).visit l)
        (show l ≠ 0 by omega) (show bug ≠ 0 by omega)
      refine ⟨_, Tc.followedBy T2, ?_, ?_⟩
      · intro x hx
        rcases hvis x hx with h1 | h1
        · exact Or.inr (Or.inl h1)
        · exact Or.inl h1
      · intro e he
        rcases List.mem_append.mp he with h1 | h1
        · exact Nc e h1
        · rw [List.mem_singleton] at h1
          subst h1
          trivial
    · rename_i hfind
      have hm1 : Matched t
          ((g.record (Event.called l (g.visitManager.isVisited l))).visit l).pairManager := hm
      obtain ⟨a2, T2, N2, I2⟩ := rerouteLoop_trail hv
        (fun a g g' hc => (pair_false t fuel a g g' hc).1) (pair_true hv fuel) (ih) hl1
        (t.getExperiments l) _ res hm1 (by simp) (by
          intro r hr
          have hpaired := List.find?_eq_none.mp hfind r hr
          exact ⟨hr, by simpa [PairManager.isBugPaired] using hpaired⟩) h
      refine ⟨_, Tc.followedBy T2, ?_, ?_⟩
      · intro x hx
        rcases N2 x hx with h1 | h1 | h1
        · rcases hvis x h1 with h2 | h2
          · exact Or.inr (Or.inl h2)
          · exact Or.inl h2
        · exact Or.inr (Or.inl h1)
        · exact Or.inr (Or.inr h1)
      · intro e he
        rcases List.mem_append.mp he with h1 | h1
        · exact Nc e h1
        · exact I2 e h1

end GandaciJava

/-! ## Trails of the loops -/

namespace GandaciJava

/-- The trail of the `for` loop over pairwise distinct in-range researchers, none of which is
both unpaired and visited: the history it adds, the walk over the returns, and the state at the
last return. -/
theorem forLoop_trail {t : Test} (hv : t.Valid) (fuel : Nat) :
    ∀ (ls : List Nat) (flag : Bool) (g : GandaciJava) (res : Bool × GandaciJava),
      Matched t g.pairManager → (∀ x ∈ ls, 1 ≤ x ∧ x ≤ t.researcherCount) → ls.Nodup →
      (∀ x ∈ ls, g.pairManager.researcher x = 0 → g.visitManager.isVisited x = false) →
      forLoop t fuel ls flag g = some res →
      ∃ added, Trail t g res.2 added ∧ Event.Returns (Matched t) g.pairManager added ∧
        Event.lastReturn g.pairManager added = res.2.pairManager := by
  intro ls
  induction ls with
  | nil =>
    intro flag g res _ _ _ _ h
    simp only [forLoop, Option.some.injEq] at h
    subst h
    exact ⟨[], Trail.start t g, trivial, rfl⟩
  | cons l rest ih =>
    intro flag g res hm hls hnodup hJ h
    obtain ⟨hl1, hl2⟩ := hls l (List.mem_cons_self _ _)
    have hrest : ∀ x ∈ rest, 1 ≤ x ∧ x ≤ t.researcherCount :=
      fun x hx => hls x (List.mem_cons_of_mem _ hx)
    rw [List.nodup_cons] at hnodup
    simp only [forLoop] at h
    split at h
    · rename_i hunpaired
      have hl0 : g.pairManager.researcher l = 0 := by
        simpa [PairManager.isResearcherPaired] using hunpaired
      have hvl := hJ l (List.mem_cons_self _ _) hl0
      cases hcall : pair t fuel l g with
      | none => rw [hcall] at h; exact absurd h (by simp)
      | some r1 =>
        obtain ⟨b, g1⟩ := r1
        obtain ⟨a1, T1, N1, I1⟩ := pair_trail hv fuel l g (b, g1) hm hl1 hl2 hvl hcall
        have hwalk1 := Event.returns_walk_of_nested (Matched t) a1 g.pairManager I1
        have hm1 : Matched t g1.pairManager := by
          cases b with
          | true =>
            have := (pair_true hv fuel l g g1 hm hl1 hl2 hcall).chained
            rw [hl0] at this
            exact this
          | false =>
            rw [(pair_false t fuel l g g1 hcall).1.pairManager_eq]; exact hm
        have hstep : b = true → g.pairManager.researcher l = 0 ∧
            g1.pairManager.researcher l ≠ 0 ∧
            g1.pairManager.getPairCount = g.pairManager.getPairCount + 1 := by
          intro hb
          subst hb
          have hr := pair_true hv fuel l g g1 hm hl1 hl2 hcall
          exact ⟨hl0, hr.paired, hr.getPairCount hm⟩
        have T2 := Trail.back t g1 l b
        have hJ1 : ∀ x ∈ rest,
            (g1.record (Event.returned l b g1.pairManager)).pairManager.researcher x = 0 →
            (g1.record (Event.returned l b g1.pairManager)).visitManager.isVisited x = false := by
          intro x hx hx0
          have hx0' : g1.pairManager.researcher x = 0 := hx0
          have hg0 : g.pairManager.researcher x = 0 := by
            by_contra hne
            exact T1.keeps.1 x hne hx0'
          have hgv := hJ x (List.mem_cons_of_mem _ hx) hg0
          cases hv1 : g1.visitManager.isVisited x with
          | false => exact hv1
          | true =>
            exfalso
            rcases N1 x hv1 with h1 | h1 | h1
            · rw [hgv] at h1; exact absurd h1 (by simp)
            · subst h1; exact hnodup.1 hx
            · exact h1 hx0'
        have hnext : forLoop t fuel rest (if b = true then true else flag)
            (g1.record (Event.returned l b g1.pairManager)) = some res := by
          rw [hcall] at h
          cases b with
          | true => exact h
          | false => exact h
        obtain ⟨a3, T3, W3, L3⟩ := ih _ (g1.record (Event.returned l b g1.pairManager)) res hm1
          hrest hnodup.2 hJ1 hnext
        refine ⟨a1 ++ ([Event.returned l b g1.pairManager] ++ a3), T1.followedBy (T2.followedBy T3),
          ?_, ?_⟩
        · apply Event.returns_walk_append a1 _ g.pairManager hwalk1.1
          rw [hwalk1.2]
          exact ⟨⟨hm1, hstep⟩, W3⟩
        · rw [Event.lastReturn_append, hwalk1.2]
          exact L3
    · obtain ⟨a3, T3, W3, L3⟩ := ih flag g res hm hrest hnodup.2
        (fun x hx => hJ x (List.mem_cons_of_mem _ hx)) h
      exact ⟨a3, T3, W3, L3⟩

end GandaciJava

theorem Journey.stay (t : Test) (g : GandaciJava) : Journey t g g [] :=
  ⟨by simp, PairManager.Keeps.same _, by simp, by simp [Event.states], by simp [Event.states],
    fun _ => trivial, trivial, rfl⟩

theorem Journey.continued {t : Test} {g g1 g' : GandaciJava} {a b : List Event}
    (h : Journey t g g1 a) (h' : Journey t g1 g' b) : Journey t g g' (a ++ b) := by
  refine ⟨by rw [h'.log_eq, h.log_eq, List.append_assoc], h.keeps.andThen h'.keeps, ?_, ?_, ?_,
    fun seen => Event.oncePerRound_append a b h'.once seen (h.once seen), ?_, ?_⟩
  · intro e he
    rcases List.mem_append.mp he with h1 | h1
    · exact h.safe e h1
    · exact h'.safe e h1
  · intro pm hpm
    rw [Event.states_append] at hpm
    rcases List.mem_append.mp hpm with h1 | h1
    · exact ⟨(h.states_between pm h1).1, (h.states_between pm h1).2.andThen h'.keeps⟩
    · exact ⟨h.keeps.andThen (h'.states_between pm h1).1, (h'.states_between pm h1).2⟩
  · rw [Event.states_append, List.pairwise_append]
    refine ⟨h.states_sorted, h'.states_sorted, ?_⟩
    intro pm hpm pm' hpm'
    exact (h.states_between pm hpm).2.andThen (h'.states_between pm' hpm').1
  · apply Event.returns_walk_append a b g.pairManager h.returns
    rw [h.last_return]
    exact h'.returns
  · rw [Event.lastReturn_append, h.last_return]
    exact h'.last_return

/-- A pass is a reset of the visit tracker followed by the trail of the `for` loop. -/
theorem Journey.of_trail {t : Test} {g g0 g' : GandaciJava} {inner : List Event}
    (h : Trail t g0 g' inner) (hw : Event.Returns (Matched t) g0.pairManager inner)
    (hl : Event.lastReturn g0.pairManager inner = g'.pairManager)
    (hlog : g0.log = g.log ++ [Event.reset]) (hpm : g0.pairManager = g.pairManager) :
    Journey t g g' (Event.reset :: inner) := by
  have hk := h.keeps
  have hb := h.states_between
  rw [hpm] at hk hb hw hl
  refine ⟨by rw [h.log_eq, hlog, List.append_assoc]; rfl, hk, ?_, hb, h.states_sorted, ?_,
    hw, hl⟩
  · intro e he
    rcases List.mem_cons.mp he with h1 | h1
    · subst h1; trivial
    · exact h.safe e h1
  · intro seen
    exact Event.oncePerRound_of_nodup inner [] h.no_reset h.calls_nodup (by simp)

namespace GandaciJava

theorem pass_journey {t : Test} (hv : t.Valid) (fuel : Nat) (g : GandaciJava)
    (res : Bool × GandaciJava) (hm : Matched t g.pairManager) (h : pass t fuel g = some res) :
    ∃ added, Journey t g res.2 added := by
  have hrange : ∀ x ∈ List.range' 1 t.getResearcherCount, 1 ≤ x ∧ x ≤ t.researcherCount := by
    intro x hx
    rw [List.mem_range'] at hx
    obtain ⟨i, hi, rfl⟩ := hx
    have : t.getResearcherCount = t.researcherCount := rfl
    omega
  have hJ : ∀ x ∈ List.range' 1 t.getResearcherCount,
      (({ g with visitManager := g.visitManager.init t.getResearcherCount }).record
        Event.reset).pairManager.researcher x = 0 →
      (({ g with visitManager := g.visitManager.init t.getResearcherCount }).record
        Event.reset).visitManager.isVisited x = false := by
    intro x hx _
    have := (hrange x hx).2
    have hc : t.getResearcherCount = t.researcherCount := rfl
    simp [VisitManager.init, VisitManager.isVisited, hc, this]
  have h' : forLoop t fuel (List.range' 1 t.getResearcherCount) false
      (({ g with visitManager := g.visitManager.init t.getResearcherCount }).record Event.reset)
      = some res := h
  obtain ⟨inner, T, W, L⟩ := forLoop_trail hv fuel (List.range' 1 t.getResearcherCount) false
    (({ g with visitManager := g.visitManager.init t.getResearcherCount }).record Event.reset)
    res hm hrange (List.nodup_range' 1 _) hJ h'
  exact ⟨_, Journey.of_trail T W L rfl rfl⟩

theorem doWhile_ne_nil (t : Test) (fuel : Nat) : ∀ (n : Nat) (g : GandaciJava)
    (trace : List GandaciJava), doWhile t fuel n g = some trace → trace ≠ [] := by
  intro n
  induction n with
  | zero => intro g trace h; simp [doWhile] at h
  | succ n ih =>
    intro g trace h
    simp only [doWhile] at h
    split at h
    · exact absurd h (by simp)
    · cases hrest : doWhile t fuel n _ with
      | none => rw [hrest] at h; exact absurd h (by simp)
      | some later =>
        rw [hrest] at h
        simp only [Option.map_some', Option.some.injEq] at h
        rw [← h]
        exact List.cons_ne_nil _ _
    · simp only [Option.some.injEq] at h
      rw [← h]
      exact List.cons_ne_nil _ _

theorem doWhile_journey {t : Test} (hv : t.Valid) {fuel : Nat}
    (hfuel : t.researcherCount < fuel) : ∀ (n : Nat) (g : GandaciJava)
    (trace : List GandaciJava), Matched t g.pairManager → doWhile t fuel n g = some trace →
    ∀ s, trace.getLast? = some s → ∃ added, Journey t g s added := by
  intro n
  induction n with
  | zero => intro g trace _ h; simp [doWhile] at h
  | succ n ih =>
    intro g trace hm h s hs
    obtain ⟨flag', g', hrun, hp⟩ := pass_spec hv hfuel g hm
    obtain ⟨a1, J1⟩ := pass_journey hv fuel g (flag', g') hm hrun
    simp only [doWhile, hrun] at h
    cases flag' with
    | false =>
      simp only [Option.some.injEq] at h
      subst h
      simp only [List.getLast?_singleton, Option.some.injEq] at hs
      subst hs
      exact ⟨a1, J1⟩
    | true =>
      have h' : Option.map (fun later => g' :: later) (doWhile t fuel n g') = some trace := h
      cases hrest : doWhile t fuel n g' with
      | none => rw [hrest] at h'; exact absurd h' (by simp)
      | some later =>
        rw [hrest] at h'
        simp only [Option.map_some', Option.some.injEq] at h'
        subst h'
        have hne := doWhile_ne_nil t fuel n g' later hrest
        cases later with
        | nil => exact absurd rfl hne
        | cons s' rest =>
          rw [List.getLast?_cons_cons] at hs
          obtain ⟨a2, J2⟩ := ih g' (s' :: rest) hp.matched hrest s hs
          exact ⟨a1 ++ a2, J1.continued J2⟩

/-- The history that `maximumBipartiteGraphMatching` adds on a valid test, from the state that
`initialize` leaves to the final state. -/
theorem maximumBipartiteGraphMatching_journey {t : Test} (hv : t.Valid) {fuel : Nat}
    (hfuel : t.researcherCount < fuel) (g : GandaciJava) :
    ∃ g', maximumBipartiteGraphMatching t fuel g = some g' ∧
      Journey t (cleared t g) g' (history t fuel g) := by
  obtain ⟨trace, g', hpasses, hlast, hrun, _⟩ := maximumBipartiteGraphMatching_spec hv hfuel g
  have hm : Matched t (cleared t g).pairManager := PairManager.matched_init t g.pairManager
  obtain ⟨added, J⟩ := doWhile_journey hv hfuel fuel (cleared t g) trace hm hpasses g' hlast
  refine ⟨g', hrun, ?_⟩
  have hlog : g'.log = g.log ++ added := J.log_eq
  have hhist : history t fuel g = added := by
    simp only [history, hrun, hlog, List.drop_left]
  rw [hhist]
  exact J

end GandaciJava

/-! ## The claims -/

/-- C1, the code at the failing input: the instance with one researcher, one bug and `65536`
copies of the experiment `(1, 1)` is valid and has the matching `[(1, 1)]` of size one, but
`solve` appends `0`, which is therefore not the maximum cardinality of a matching. -/
theorem solve_not_maximum_on_long_adjacency :
    (GraphInstance.duplicated 65536).Valid ∧
    (GandaciJava.solve (GraphInstance.duplicated 65536).toTest 2 GandaciJava.fresh).map
      (fun g' => g'.solutions) = some [0] ∧
    IsMatching (GraphInstance.duplicated 65536).toTest.experiment [(1, 1)] ∧
    ¬ IsMaximumMatchingSize (GraphInstance.duplicated 65536).toTest.experiment 0 := by
  have hm := GraphInstance.duplicated_isMatching 65536 (by decide)
  refine ⟨GraphInstance.duplicated_valid _, GandaciJava.solve_duplicated, hm, ?_⟩
  intro h
  have := h.2 _ hm
  simp at this

/-- C2: for every valid graph instance, from any engine state and with fuel above `leftCount`,
`maximumBipartiteGraphMatching` returns, and the pairing state it leaves is a valid matching:
a paired researcher's bug is in range, is one of its experiments and names it back; a paired
bug's researcher is in range and is paired with it; no researcher and no bug is in two pairs. -/
theorem maximumBipartiteGraphMatching_valid_pairing (gi : GraphInstance) (hv : gi.Valid)
    (fuel : Nat) (hfuel : gi.leftCount < fuel) (g : GandaciJava) :
    ∃ g', GandaciJava.maximumBipartiteGraphMatching gi.toTest fuel g = some g' ∧
      ValidPairing gi g'.pairManager := by
  have hfuel' : gi.toTest.researcherCount < fuel := by simpa using hfuel
  obtain ⟨_, g', _, _, hrun, _, hm, _, _, _⟩ :=
    GandaciJava.maximumBipartiteGraphMatching_spec hv.toTest hfuel' g
  exact ⟨g', hrun, hm.validPairing hv⟩

theorem maximumBipartiteGraphMatching_valid_pairing_witness :
    GraphInstance.scenario.Valid ∧ GraphInstance.scenario.leftCount < 4 ∧
      ∃ g', GandaciJava.maximumBipartiteGraphMatching GraphInstance.scenario.toTest 4
          GandaciJava.fresh = some g' ∧ ValidPairing GraphInstance.scenario g'.pairManager :=
  ⟨by decide, by decide,
    maximumBipartiteGraphMatching_valid_pairing GraphInstance.scenario (by decide) 4 (by decide)
      GandaciJava.fresh⟩

/-- C3: for every valid graph instance, the value of `getPairCount` after
`maximumBipartiteGraphMatching` is a natural number that is at most
`min leftCount rightCount`. -/
theorem getPairCount_le_min (gi : GraphInstance) (hv : gi.Valid) (fuel : Nat)
    (hfuel : gi.leftCount < fuel) (g : GandaciJava) :
    ∃ g', GandaciJava.maximumBipartiteGraphMatching gi.toTest fuel g = some g' ∧
      g'.pairManager.getPairCount ≤ min gi.leftCount gi.rightCount := by
  have hfuel' : gi.toTest.researcherCount < fuel := by simpa using hfuel
  obtain ⟨_, g', _, _, hrun, _, hm, _, _, _⟩ :=
    GandaciJava.maximumBipartiteGraphMatching_spec hv.toTest hfuel' g
  refine ⟨g', hrun, ?_⟩
  simpa using hm.getPairCount_le hv.toTest

theorem getPairCount_le_min_witness :
    GraphInstance.scenario.Valid ∧ GraphInstance.scenario.leftCount < 4 ∧
      ∃ g', GandaciJava.maximumBipartiteGraphMatching GraphInstance.scenario.toTest 4
          GandaciJava.fresh = some g' ∧
        g'.pairManager.getPairCount ≤
          min GraphInstance.scenario.leftCount GraphInstance.scenario.rightCount :=
  ⟨by decide, by decide,
    getPairCount_le_min GraphInstance.scenario (by decide) 4 (by decide) GandaciJava.fresh⟩

/-- C4, the code at the failing input: on the instance with `65536` copies of the experiment
`(1, 1)` the final pairing state leaves researcher `1` and bug `1` unpaired, so the single edge
`(1, 1)` is an augmenting path. -/
theorem augmenting_path_on_long_adjacency :
    ∃ g', GandaciJava.maximumBipartiteGraphMatching (GraphInstance.duplicated 65536).toTest 2
        GandaciJava.fresh = some g' ∧
      IsAugmentingPath (GraphInstance.duplicated 65536).toTest.experiment
        (GraphInstance.duplicated 65536).leftCount g'.pairManager [(1, 1)] := by
  obtain ⟨g', h1, h2, _⟩ := GandaciJava.maximumBipartiteGraphMatching_of_no_experiments
    (GraphInstance.toTest_researcherCount _) (GraphInstance.toTest_bugCount _)
    (GraphInstance.duplicated_getExperiments 1) GandaciJava.fresh
  refine ⟨g', h1, ?_⟩
  rw [h2]
  refine ⟨⟨(1, 1), rfl, Nat.le_refl 1, Nat.le_refl 1, rfl⟩, ⟨(1, 1), rfl, rfl⟩,
    (GraphInstance.duplicated_isMatching 65536 (by decide)).edge, List.chain'_singleton _⟩

/-- C5: for every valid graph instance, one more pass on the state that
`maximumBipartiteGraphMatching` converged to returns with the flag
`atLeastOneResearcherWasPaired` false, records no mutation and no successful call, and leaves
the `researcher` and `bug` arrays, hence `getPairCount`, unchanged. -/
theorem pass_after_convergence (gi : GraphInstance) (hv : gi.Valid) (fuel : Nat)
    (hfuel : gi.leftCount < fuel) (g : GandaciJava) :
    ∃ g' g'', GandaciJava.maximumBipartiteGraphMatching gi.toTest fuel g = some g' ∧
      GandaciJava.pass gi.toTest fuel g' = some (false, g'') ∧
      LogExtends (Event.Quiet g'.pairManager) g' g'' ∧
      g''.pairManager.researcher = g'.pairManager.researcher ∧
      g''.pairManager.bug = g'.pairManager.bug ∧
      g''.pairManager.getPairCount = g'.pairManager.getPairCount := by
  have hfuel' : gi.toTest.researcherCount < fuel := by simpa using hfuel
  obtain ⟨_, g', _, _, hrun, _, hm, hcov, _, _⟩ :=
    GandaciJava.maximumBipartiteGraphMatching_spec hv.toTest hfuel' g
  obtain ⟨flag', g'', hpass, hp⟩ := GandaciJava.pass_spec hv.toTest hfuel' g' hm
  cases flag' with
  | true =>
    exfalso
    have h1 := hp.count_lt rfl
    have h2 := hcov.matching_length_le hv.toTest hm hp.matched.isMatching_pairs
    rw [PairManager.length_pairs] at h2
    omega
  | false =>
    obtain ⟨hpm, _, hlog⟩ := hp.unchanged rfl
    exact ⟨g', g'', hrun, hpass, hlog, by rw [hpm], by rw [hpm], by rw [hpm]⟩

theorem pass_after_convergence_witness :
    GraphInstance.scenario.Valid ∧ GraphInstance.scenario.leftCount < 4 ∧
      ∃ g' g'', GandaciJava.maximumBipartiteGraphMatching GraphInstance.scenario.toTest 4
          GandaciJava.fresh = some g' ∧
        GandaciJava.pass GraphInstance.scenario.toTest 4 g' = some (false, g'') ∧
        LogExtends (Event.Quiet g'.pairManager) g' g'' ∧
        g''.pairManager.researcher = g'.pairManager.researcher ∧
        g''.pairManager.bug = g'.pairManager.bug ∧
        g''.pairManager.getPairCount = g'.pairManager.getPairCount :=
  ⟨by decide, by decide,
    pass_after_convergence GraphInstance.scenario (by decide) 4 (by decide) GandaciJava.fresh⟩

/-- C6 as stated fails: on the instance with experiments `(1,1), (1,2), (2,1)` the pairing
state recorded after one of the calls of `PairManager::pair` has `bug[1] = 1` while
`researcher[1] = 2`. -/
theorem pairing_not_symmetric_after_every_mutation :
    GraphInstance.rerouting.Valid ∧
      ∃ pm ∈ Event.mutations
          (GandaciJava.history GraphInstance.rerouting.toTest 3 GandaciJava.fresh),
        ¬ pm.Symmetric GraphInstance.rerouting.leftCount GraphInstance.rerouting.rightCount := by
  refine ⟨by decide, ?_⟩
  have key : ∃ pm ∈ Event.mutations
      (GandaciJava.history GraphInstance.rerouting.toTest 3 GandaciJava.fresh),
      pm.bug 1 = 1 ∧ pm.researcher 1 ≠ 1 := by
    decide
  obtain ⟨pm, hmem, hb, hr⟩ := key
  exact ⟨pm, hmem, fun h =>
    hr ((h 1 1 (by decide) (by decide) (by decide) (by decide)).mpr hb)⟩

/-- C6, amended: while solving any valid graph instance, after every individual call of
`PairManager::pair`, `researcher[l] = r` implies `bug[r] = l` for every researcher `l` and bug
`r`, and `bug[r] = l` implies `researcher[l] = r` for every bug `r` except at most one bug `d`;
and whenever a call of `GandaciJava::pair` made by the `for` loop has returned, the arrays are
symmetric: `researcher[l] = r` if and only if `bug[r] = l`. -/
theorem pairing_symmetric_up_to_one_bug (gi : GraphInstance) (hv : gi.Valid) (fuel : Nat)
    (hfuel : gi.leftCount < fuel) (g : GandaciJava) :
    (∃ g', GandaciJava.maximumBipartiteGraphMatching gi.toTest fuel g = some g') ∧
    ∀ e ∈ GandaciJava.history gi.toTest fuel g,
      (∀ pm, e = Event.paired pm →
        (∀ l r, 1 ≤ l → l ≤ gi.leftCount → 1 ≤ r → r ≤ gi.rightCount →
          pm.researcher l = r → pm.bug r = l) ∧
        ∃ d, ∀ l r, 1 ≤ l → l ≤ gi.leftCount → 1 ≤ r → r ≤ gi.rightCount → r ≠ d →
          pm.bug r = l → pm.researcher l = r) ∧
      (∀ l result pm, e = Event.returned l result pm →
        pm.Symmetric gi.leftCount gi.rightCount) := by
  have hfuel' : gi.toTest.researcherCount < fuel := by simpa using hfuel
  obtain ⟨_, g', _, _, hrun, _, _, _, _, added, hlog, hsound⟩ :=
    GandaciJava.maximumBipartiteGraphMatching_spec hv.toTest hfuel' g
  refine ⟨⟨g', hrun⟩, ?_⟩
  have hhist : GandaciJava.history gi.toTest fuel g = added := by
    simp only [GandaciJava.history, hrun, hlog, List.drop_left]
  rw [hhist]
  intro e he
  have hs := hsound e he
  refine ⟨?_, ?_⟩
  · intro pm hpm
    subst hpm
    obtain ⟨d, hch⟩ := hs
    have hrb := hch.researcher_bug
    have hbb := hch.bug_researcher
    simp only [GraphInstance.toTest_researcherCount, GraphInstance.toTest_bugCount] at hrb hbb
    refine ⟨?_, d, ?_⟩
    · intro l r hl1 hl2 hr1 _ h
      have := (hrb l hl1 hl2 (by rw [h]; omega)).2
      rwa [h] at this
    · intro l r hl1 _ hr1 hr2 hrd h
      have := hbb r hr1 hr2 hrd (by rw [h]; omega)
      rwa [h] at this
  · intro l result pm hpm
    subst hpm
    have hm : Matched gi.toTest pm := hs
    simpa using hm.symmetric

theorem pairing_symmetric_up_to_one_bug_witness :
    GraphInstance.rerouting.Valid ∧ GraphInstance.rerouting.leftCount < 3 ∧
    (∃ g', GandaciJava.maximumBipartiteGraphMatching GraphInstance.rerouting.toTest 3
      GandaciJava.fresh = some g') ∧
    ∀ e ∈ GandaciJava.history GraphInstance.rerouting.toTest 3 GandaciJava.fresh,
      (∀ pm, e = Event.paired pm →
        (∀ l r, 1 ≤ l → l ≤ GraphInstance.rerouting.leftCount → 1 ≤ r →
          r ≤ GraphInstance.rerouting.rightCount → pm.researcher l = r → pm.bug r = l) ∧
        ∃ d, ∀ l r, 1 ≤ l → l ≤ GraphInstance.rerouting.leftCount → 1 ≤ r →
          r ≤ GraphInstance.rerouting.rightCount → r ≠ d → pm.bug r = l →
          pm.researcher l = r) ∧
      (∀ l result pm, e = Event.returned l result pm →
        pm.Symmetric GraphInstance.rerouting.leftCount GraphInstance.rerouting.rightCount) :=
  ⟨by decide, by decide,
    pairing_symmetric_up_to_one_bug GraphInstance.rerouting (by decide) 3 (by decide)
      GandaciJava.fresh⟩

/-- C7: for every valid graph instance, the loop returns, the count is `0` in the state that
`initialize` leaves, and the values of `getPairCount` at the end of the passes of
`maximumBipartiteGraphMatching` are `pre ++ [last]` where, starting from that `0`, every value
of `pre` is strictly larger than the one before it (every pass except the last strictly
increases the count), `last` equals the value before it (the last pass increases it by zero),
and the whole sequence never decreases. -/
theorem getPairCount_over_passes (gi : GraphInstance) (hv : gi.Valid) (fuel : Nat)
    (hfuel : gi.leftCount < fuel) (g : GandaciJava) :
    ∃ trace pre last, GandaciJava.passes gi.toTest fuel g = some trace ∧
      (GandaciJava.cleared gi.toTest g).pairManager.getPairCount = 0 ∧
      trace.map (fun s => s.pairManager.getPairCount) = pre ++ [last] ∧
      List.Chain (fun a b => a < b) 0 pre ∧
      last = (0 :: pre).getLast (List.cons_ne_nil 0 pre) ∧
      List.Chain (fun a b => a ≤ b) 0 (trace.map (fun s => s.pairManager.getPairCount)) := by
  have hfuel' : gi.toTest.researcherCount < fuel := by simpa using hfuel
  obtain ⟨trace, hrun, hc⟩ := GandaciJava.passes_spec hv.toTest hfuel' g
  have hcounts := hc.counts
  have h0 : (GandaciJava.cleared gi.toTest g).pairManager.getPairCount = 0 :=
    PairManager.getPairCount_init _ _ _
  rw [h0] at hcounts
  obtain ⟨⟨pre, last, h1, h2, h3⟩, h4⟩ := hcounts.shape
  exact ⟨trace, pre, last, hrun, h0, h1, h2, h3, h4⟩

theorem getPairCount_over_passes_witness :
    GraphInstance.scenario.Valid ∧ GraphInstance.scenario.leftCount < 4 ∧
      ∃ trace pre last, GandaciJava.passes GraphInstance.scenario.toTest 4 GandaciJava.fresh
          = some trace ∧
        (GandaciJava.cleared GraphInstance.scenario.toTest GandaciJava.fresh).pairManager.getPairCount
          = 0 ∧
        trace.map (fun s => s.pairManager.getPairCount) = pre ++ [last] ∧
        List.Chain (fun a b => a < b) 0 pre ∧
        last = (0 :: pre).getLast (List.cons_ne_nil 0 pre) ∧
        List.Chain (fun a b => a ≤ b) 0 (trace.map (fun s => s.pairManager.getPairCount)) :=
  ⟨by decide, by decide,
    getPairCount_over_passes GraphInstance.scenario (by decide) 4 (by decide) GandaciJava.fresh⟩

/-- C8: for every valid graph instance, the `do ... while` loop of
`maximumBipartiteGraphMatching` returns after at most `min leftCount rightCount + 1`
iterations. -/
theorem passes_length_le (gi : GraphInstance) (hv : gi.Valid) (fuel : Nat)
    (hfuel : gi.leftCount < fuel) (g : GandaciJava) :
    ∃ trace, GandaciJava.passes gi.toTest fuel g = some trace ∧
      trace.length ≤ min gi.leftCount gi.rightCount + 1 := by
  have hfuel' : gi.toTest.researcherCount < fuel := by simpa using hfuel
  obtain ⟨trace, hrun, hc⟩ := GandaciJava.passes_spec hv.toTest hfuel' g
  refine ⟨trace, hrun, ?_⟩
  have hbound : ∀ c ∈ trace.map (fun s => s.pairManager.getPairCount),
      c ≤ min gi.leftCount gi.rightCount := by
    intro c hc'
    obtain ⟨s, hs, rfl⟩ := List.mem_map.mp hc'
    simpa using (hc.each s hs).1.getPairCount_le hv.toTest
  have := hc.counts.length_add_le hbound
  rw [List.length_map] at this
  omega

theorem passes_length_le_witness :
    GraphInstance.scenario.Valid ∧ GraphInstance.scenario.leftCount < 4 ∧
      ∃ trace, GandaciJava.passes GraphInstance.scenario.toTest 4 GandaciJava.fresh = some trace ∧
        trace.length ≤ min GraphInstance.scenario.leftCount GraphInstance.scenario.rightCount + 1 :=
  ⟨by decide, by decide,
    passes_length_le GraphInstance.scenario (by decide) 4 (by decide) GandaciJava.fresh⟩

/-- C9: for every list of valid tests, `solve(tests)` on one engine, from any engine state,
appends exactly one solution per test in input order, and the solution of each test is the one
a newly constructed engine appends for that test alone. -/
theorem solveAll_independent (gis : List GraphInstance) (hv : ∀ gi ∈ gis, gi.Valid) (fuel : Nat)
    (hfuel : ∀ gi ∈ gis, gi.leftCount < fuel) (g : GandaciJava) :
    ∃ g' sizes, GandaciJava.solveAll fuel (gis.map GraphInstance.toTest) g = some g' ∧
      g'.solutions = g.solutions ++ sizes ∧
      List.Forall₂ (fun gi n => ∃ f, GandaciJava.solve gi.toTest fuel GandaciJava.fresh = some f ∧
        f.solutions = [n]) gis sizes := by
  induction gis generalizing g with
  | nil => exact ⟨g, [], rfl, by simp, List.Forall₂.nil⟩
  | cons gi rest ih =>
    have hvgi := hv gi (List.mem_cons_self _ _)
    have hfuel' : gi.toTest.researcherCount < fuel := by
      simpa using hfuel gi (List.mem_cons_self _ _)
    obtain ⟨g1, n, hrun, hsol, hmax⟩ := GandaciJava.solve_spec hvgi.toTest hfuel' g
    obtain ⟨f, k, hrunf, hsolf, hmaxf⟩ :=
      GandaciJava.solve_spec hvgi.toTest hfuel' GandaciJava.fresh
    have hnk : n = k := hmax.unique hmaxf
    obtain ⟨g', sizes, hrest, hsol', hall⟩ := ih (fun x hx => hv x (List.mem_cons_of_mem _ hx))
      (fun x hx => hfuel x (List.mem_cons_of_mem _ hx)) g1
    refine ⟨g', n :: sizes, ?_, ?_, List.Forall₂.cons ⟨f, hrunf, ?_⟩ hall⟩
    · simp only [List.map_cons, GandaciJava.solveAll, hrun, Option.some_bind, hrest]
    · rw [hsol', hsol, List.append_assoc]; rfl
    · rw [hsolf, hnk]; rfl

theorem solveAll_independent_witness :
    (∀ gi ∈ [GraphInstance.scenario, GraphInstance.contested], gi.Valid) ∧
      (∀ gi ∈ [GraphInstance.scenario, GraphInstance.contested], gi.leftCount < 4) ∧
      ∃ g' sizes, GandaciJava.solveAll 4
          ([GraphInstance.scenario, GraphInstance.contested].map GraphInstance.toTest)
          GandaciJava.fresh = some g' ∧
        g'.solutions = GandaciJava.fresh.solutions ++ sizes ∧
        List.Forall₂ (fun gi n => ∃ f,
          GandaciJava.solve gi.toTest 4 GandaciJava.fresh = some f ∧ f.solutions = [n])
          [GraphInstance.scenario, GraphInstance.contested] sizes :=
  ⟨by decide, by decide,
    solveAll_independent [GraphInstance.scenario, GraphInstance.contested] (by decide) 4
      (by decide) GandaciJava.fresh⟩

/-- C10, the code at the failing input: the instances with one copy and with `65536` copies of
the experiment `(1, 1)` are valid, have the same counts and the same set of bugs for every
researcher, but `solve` appends `1` for the first and `0` for the second. -/
theorem size_changes_with_duplicate_edges :
    (GraphInstance.duplicated 1).Valid ∧ (GraphInstance.duplicated 65536).Valid ∧
    (GraphInstance.duplicated 1).leftCount = (GraphInstance.duplicated 65536).leftCount ∧
    (GraphInstance.duplicated 1).rightCount = (GraphInstance.duplicated 65536).rightCount ∧
    (∀ l r, r ∈ (GraphInstance.duplicated 1).toTest.experiment l ↔
      r ∈ (GraphInstance.duplicated 65536).toTest.experiment l) ∧
    (GandaciJava.solve (GraphInstance.duplicated 1).toTest 2 GandaciJava.fresh).map
      (fun g' => g'.solutions) = some [1] ∧
    (GandaciJava.solve (GraphInstance.duplicated 65536).toTest 2 GandaciJava.fresh).map
      (fun g' => g'.solutions) = some [0] := by
  refine ⟨GraphInstance.duplicated_valid _, GraphInstance.duplicated_valid _, rfl, rfl, ?_,
    by decide, GandaciJava.solve_duplicated⟩
  intro l r
  rw [GraphInstance.duplicated_experiment, GraphInstance.duplicated_experiment]
  by_cases h : l = 1
  · rw [if_pos h, if_pos h]
    constructor
    · intro hr
      have : r = 1 := List.eq_of_mem_replicate hr
      subst this
      exact (List.mem_replicate).mpr ⟨by decide, rfl⟩
    · intro hr
      have : r = 1 := List.eq_of_mem_replicate hr
      subst this
      exact (List.mem_replicate).mpr ⟨by decide, rfl⟩
  · rw [if_neg h, if_neg h]

/-- C11, the code at the failing input: in the valid instance with one researcher, one bug and
`65536` copies of the experiment `(1, 1)` every researcher has every bug in its adjacency list
and `min leftCount rightCount` is `1`, but `solve` appends `0`. -/
theorem complete_instance_size_below_min :
    (GraphInstance.duplicated 65536).Valid ∧
    (∀ l r, 1 ≤ l → l ≤ (GraphInstance.duplicated 65536).leftCount → 1 ≤ r →
      r ≤ (GraphInstance.duplicated 65536).rightCount →
      r ∈ (GraphInstance.duplicated 65536).toTest.experiment l) ∧
    min (GraphInstance.duplicated 65536).leftCount (GraphInstance.duplicated 65536).rightCount
      = 1 ∧
    (GandaciJava.solve (GraphInstance.duplicated 65536).toTest 2 GandaciJava.fresh).map
      (fun g' => g'.solutions) = some [0] := by
  refine ⟨GraphInstance.duplicated_valid _, ?_, rfl, GandaciJava.solve_duplicated⟩
  intro l r hl1 hl2 hr1 hr2
  have hl : l = 1 := Nat.le_antisymm hl2 hl1
  have hr : r = 1 := Nat.le_antisymm hr2 hr1
  subst hl hr
  exact GraphInstance.duplicated_mem 65536 (by decide)

/-- C12: for every valid graph instance with `leftCount = 0`, or `rightCount = 0`, or an empty
edge list, `maximumBipartiteGraphMatching` returns after a single pass and `getPairCount` is
`0` in the state it leaves. -/
theorem empty_instance_single_pass (gi : GraphInstance) (hv : gi.Valid)
    (hempty : gi.leftCount = 0 ∨ gi.rightCount = 0 ∨ gi.edges = []) (fuel : Nat)
    (hfuel : gi.leftCount < fuel) (g : GandaciJava) :
    ∃ trace g', GandaciJava.passes gi.toTest fuel g = some trace ∧ trace.length = 1 ∧
      GandaciJava.maximumBipartiteGraphMatching gi.toTest fuel g = some g' ∧
      g'.pairManager.getPairCount = 0 := by
  have hfuel' : gi.toTest.researcherCount < fuel := by simpa using hfuel
  have hnone := GraphInstance.getExperiments_of_edges_eq_nil (hv.edges_eq_nil hempty)
  obtain ⟨trace, g', hpasses, _, hrun, hc, hm, _, _, _⟩ :=
    GandaciJava.maximumBipartiteGraphMatching_spec hv.toTest hfuel' g
  refine ⟨trace, g', hpasses, ?_, hrun, hm.getPairCount_eq_zero hnone⟩
  have hbound : ∀ c ∈ trace.map (fun s => s.pairManager.getPairCount), c ≤ 0 := by
    intro c hc'
    obtain ⟨s, hs, rfl⟩ := List.mem_map.mp hc'
    exact Nat.le_of_eq ((hc.each s hs).1.getPairCount_eq_zero hnone)
  have h1 := hc.counts.length_add_le hbound
  have h2 := hc.counts.ne_nil
  rw [List.length_map] at h1
  cases trace with
  | nil => exact absurd rfl h2
  | cons s rest =>
    simp only [List.length_cons] at h1 ⊢
    omega

theorem empty_instance_single_pass_witness :
    GraphInstance.noResearcher.Valid ∧
    (GraphInstance.noResearcher.leftCount = 0 ∨ GraphInstance.noResearcher.rightCount = 0 ∨
      GraphInstance.noResearcher.edges = []) ∧
    GraphInstance.noResearcher.leftCount < 1 ∧
    ∃ trace g', GandaciJava.passes GraphInstance.noResearcher.toTest 1 GandaciJava.fresh
        = some trace ∧ trace.length = 1 ∧
      GandaciJava.maximumBipartiteGraphMatching GraphInstance.noResearcher.toTest 1
        GandaciJava.fresh = some g' ∧
      g'.pairManager.getPairCount = 0 :=
  ⟨by decide, Or.inl rfl, by decide,
    empty_instance_single_pass GraphInstance.noResearcher (by decide) (Or.inl rfl) 1 (by decide)
      GandaciJava.fresh⟩

/-- C15, the code at the failing input: on the test with `65536` copies of the experiment
`(1, 1)` and the empty pairing state, the adjacency list of researcher 1 contains the unpaired
bug 1, but `pair` for researcher 1 returns false and pairs nothing. -/
theorem pair_misses_unpaired_bug_on_long_adjacency :
    1 ∈ (GraphInstance.duplicated 65536).toTest.experiment 1 ∧
    GandaciJava.fresh.pairManager.isBugPaired 1 = false ∧
    ∃ g', GandaciJava.pair (GraphInstance.duplicated 65536).toTest 2 1 GandaciJava.fresh
        = some (false, g') ∧
      g'.pairManager.researcher 1 = 0 ∧ g'.pairManager.bug 1 = 0 :=
  ⟨GraphInstance.duplicated_mem 65536 (by decide),
    rfl,
    _, GandaciJava.pair_of_no_experiments (GraphInstance.duplicated_getExperiments 1) 1
      GandaciJava.fresh, rfl, rfl⟩

/-- C19: for every test, valid or not, every pairing state and every visited marking, when
`GandaciJava::pair` returns false the `researcher` and `bug` arrays are what they were before
the call, every researcher visited before is still visited, and the solutions are untouched. -/
theorem failed_pair_changes_no_pairing (t : Test) (fuel l : Nat) (g g' : GandaciJava)
    (h : GandaciJava.pair t fuel l g = some (false, g')) :
    g'.pairManager.researcher = g.pairManager.researcher ∧
    g'.pairManager.bug = g.pairManager.bug ∧
    (∀ x, g.visitManager.isVisited x = true → g'.visitManager.isVisited x = true) ∧
    g'.solutions = g.solutions := by
  obtain ⟨hex, _, _⟩ := GandaciJava.pair_false t fuel l g g' h
  exact ⟨by rw [hex.pairManager_eq], by rw [hex.pairManager_eq], hex.visited_mono,
    hex.solutions_eq⟩

theorem failed_pair_changes_no_pairing_witness :
    GandaciJava.pair GraphInstance.contested.toTest 2 2 GandaciJava.firstTaken
      = some (false, GandaciJava.secondFailed) ∧
    GandaciJava.secondFailed.pairManager.researcher = GandaciJava.firstTaken.pairManager.researcher ∧
    GandaciJava.secondFailed.pairManager.bug = GandaciJava.firstTaken.pairManager.bug ∧
    (∀ x, GandaciJava.firstTaken.visitManager.isVisited x = true →
      GandaciJava.secondFailed.visitManager.isVisited x = true) ∧
    GandaciJava.secondFailed.solutions = GandaciJava.firstTaken.solutions :=
  ⟨rfl, failed_pair_changes_no_pairing GraphInstance.contested.toTest 2 2 GandaciJava.firstTaken
    GandaciJava.secondFailed rfl⟩

/-- C13: on the instance with three researchers, three bugs and the experiments
`(1,1), (1,2), (2,1), (3,2), (3,3)` added in this order, for every fuel above `leftCount` the
engine appends the size `3`; the pair count is `2` after the first pass and `3` after the
second and the third, and the second pass makes one call from the `for` loop, for researcher 2,
inside which `pair` is entered for researchers 2, 1 and 3. -/
theorem scenario_size (fuel : Nat) (hfuel : GraphInstance.scenario.leftCount < fuel) :
    (GandaciJava.solve GraphInstance.scenario.toTest fuel GandaciJava.fresh).map
      (fun g' => g'.solutions) = some [3] ∧
    (GandaciJava.passes GraphInstance.scenario.toTest fuel GandaciJava.fresh).map
      (fun trace => trace.map (fun s => s.pairManager.getPairCount)) = some [2, 3, 3] ∧
    Event.calls (GandaciJava.history GraphInstance.scenario.toTest fuel GandaciJava.fresh)
      = [1, 2, 3, 2, 1, 3] ∧
    Event.returns (GandaciJava.history GraphInstance.scenario.toTest fuel GandaciJava.fresh)
      = [(1, true), (2, false), (3, true), (2, true)] := by
  have hle : 4 ≤ fuel := hfuel
  have hv : GraphInstance.scenario.toTest.Valid := GraphInstance.Valid.toTest (by decide)
  have h4 : GraphInstance.scenario.toTest.researcherCount < 4 := by decide
  obtain ⟨trace, g', hpasses4, _, hrun4, _⟩ :=
    GandaciJava.maximumBipartiteGraphMatching_spec hv h4 GandaciJava.fresh
  have hrun := GandaciJava.maximumBipartiteGraphMatching_fuel_le _ hle _ _ hrun4
  have hpasses : GandaciJava.passes GraphInstance.scenario.toTest fuel GandaciJava.fresh
      = some trace := GandaciJava.doWhile_fuel_le _ hle 4 fuel hle _ _ hpasses4
  have d1 : (GandaciJava.solve GraphInstance.scenario.toTest 4 GandaciJava.fresh).map
      (fun g' => g'.solutions) = some [3] := by decide
  have d2 : (GandaciJava.passes GraphInstance.scenario.toTest 4 GandaciJava.fresh).map
      (fun trace => trace.map (fun s => s.pairManager.getPairCount)) = some [2, 3, 3] := by
    decide
  have d3 : Event.calls (GandaciJava.history GraphInstance.scenario.toTest 4 GandaciJava.fresh)
      = [1, 2, 3, 2, 1, 3] := by decide
  have d4 : Event.returns (GandaciJava.history GraphInstance.scenario.toTest 4 GandaciJava.fresh)
      = [(1, true), (2, false), (3, true), (2, true)] := by decide
  simp only [GandaciJava.solve, hrun4, GandaciJava.history, hpasses4] at d1 d2 d3 d4
  simp only [GandaciJava.solve, hrun, GandaciJava.history, hpasses]
  exact ⟨d1, d2, d3, d4⟩

theorem scenario_size_witness :
    GraphInstance.scenario.leftCount < 4 ∧
    (GandaciJava.solve GraphInstance.scenario.toTest 4 GandaciJava.fresh).map
      (fun g' => g'.solutions) = some [3] ∧
    (GandaciJava.passes GraphInstance.scenario.toTest 4 GandaciJava.fresh).map
      (fun trace => trace.map (fun s => s.pairManager.getPairCount)) = some [2, 3, 3] ∧
    Event.calls (GandaciJava.history GraphInstance.scenario.toTest 4 GandaciJava.fresh)
      = [1, 2, 3, 2, 1, 3] ∧
    Event.returns (GandaciJava.history GraphInstance.scenario.toTest 4 GandaciJava.fresh)
      = [(1, true), (2, false), (3, true), (2, true)] :=
  ⟨by decide, scenario_size 4 (by decide)⟩

/-- C14: while solving any valid graph instance the pairing state never shrinks: in the
sequence made of the state that `initialize` leaves, the states recorded after every call of
`PairManager::pair` and at every return to the `for` loop, and the final state, every state
keeps the pairings of every earlier one, i.e. an entry of `researcher[]` or `bug[]` that is
non-zero stays non-zero in all later states. -/
theorem pairing_never_shrinks (gi : GraphInstance) (hv : gi.Valid) (fuel : Nat)
    (hfuel : gi.leftCount < fuel) (g : GandaciJava) :
    ∃ g', GandaciJava.maximumBipartiteGraphMatching gi.toTest fuel g = some g' ∧
      List.Pairwise PairManager.Keeps
        ((GandaciJava.cleared gi.toTest g).pairManager ::
          (Event.states (GandaciJava.history gi.toTest fuel g) ++ [g'.pairManager])) := by
  have hfuel' : gi.toTest.researcherCount < fuel := by simpa using hfuel
  obtain ⟨g', hrun, J⟩ := GandaciJava.maximumBipartiteGraphMatching_journey hv.toTest hfuel' g
  refine ⟨g', hrun, ?_⟩
  rw [List.pairwise_cons, List.pairwise_append]
  refine ⟨?_, J.states_sorted, List.pairwise_singleton _ _, ?_⟩
  · intro pm hpm
    rcases List.mem_append.mp hpm with h | h
    · exact (J.states_between pm h).1
    · rw [List.mem_singleton] at h
      subst h
      exact J.keeps
  · intro pm hpm pm' hpm'
    rw [List.mem_singleton] at hpm'
    subst hpm'
    exact (J.states_between pm hpm).2

theorem pairing_never_shrinks_witness :
    GraphInstance.scenario.Valid ∧ GraphInstance.scenario.leftCount < 4 ∧
    ∃ g', GandaciJava.maximumBipartiteGraphMatching GraphInstance.scenario.toTest 4
        GandaciJava.fresh = some g' ∧
      List.Pairwise PairManager.Keeps
        ((GandaciJava.cleared GraphInstance.scenario.toTest GandaciJava.fresh).pairManager ::
          (Event.states (GandaciJava.history GraphInstance.scenario.toTest 4 GandaciJava.fresh)
            ++ [g'.pairManager])) :=
  ⟨by decide, by decide,
    pairing_never_shrinks GraphInstance.scenario (by decide) 4 (by decide) GandaciJava.fresh⟩

/-- C16: while solving any valid graph instance, every bug examined by the second loop of
`GandaciJava::pair` is paired when it is examined: the researcher that `getResearcherOfBug`
returns for it is in `1..leftCount`, never `0`; and `pair` is never entered for researcher
`0`. -/
theorem examined_bug_is_paired (gi : GraphInstance) (hv : gi.Valid) (fuel : Nat)
    (hfuel : gi.leftCount < fuel) (g : GandaciJava) :
    (∃ g', GandaciJava.maximumBipartiteGraphMatching gi.toTest fuel g = some g') ∧
    ∀ e ∈ GandaciJava.history gi.toTest fuel g,
      (∀ bug partner, e = Event.examined bug partner →
        partner ≠ 0 ∧ 1 ≤ partner ∧ partner ≤ gi.leftCount) ∧
      (∀ l visited, e = Event.called l visited → l ≠ 0) := by
  have hfuel' : gi.toTest.researcherCount < fuel := by simpa using hfuel
  obtain ⟨g', hrun, J⟩ := GandaciJava.maximumBipartiteGraphMatching_journey hv.toTest hfuel' g
  refine ⟨⟨g', hrun⟩, ?_⟩
  intro e he
  have hs := J.safe e he
  refine ⟨?_, ?_⟩
  · intro bug partner h
    subst h
    have h1 : 1 ≤ partner ∧ partner ≤ gi.toTest.researcherCount := hs
    rw [GraphInstance.toTest_researcherCount] at h1
    exact ⟨by omega, h1⟩
  · intro l visited h
    subst h
    have h1 : visited = false ∧ 1 ≤ l ∧ l ≤ gi.toTest.researcherCount := hs
    omega

theorem examined_bug_is_paired_witness :
    GraphInstance.scenario.Valid ∧ GraphInstance.scenario.leftCount < 4 ∧
    (∃ g', GandaciJava.maximumBipartiteGraphMatching GraphInstance.scenario.toTest 4
      GandaciJava.fresh = some g') ∧
    ∀ e ∈ GandaciJava.history GraphInstance.scenario.toTest 4 GandaciJava.fresh,
      (∀ bug partner, e = Event.examined bug partner →
        partner ≠ 0 ∧ 1 ≤ partner ∧ partner ≤ GraphInstance.scenario.leftCount) ∧
      (∀ l visited, e = Event.called l visited → l ≠ 0) :=
  ⟨by decide, by decide,
    examined_bug_is_paired GraphInstance.scenario (by decide) 4 (by decide) GandaciJava.fresh⟩

/-- C17: while solving any valid graph instance, within one iteration of the `do ... while`
loop `GandaciJava::pair` is entered at most once for each researcher, whether from the `for`
loop or recursively: walking the history, no call is for a researcher already called since the
last reset of the visit tracker, and at every call `isVisited` is false for its researcher. -/
theorem pair_once_per_round (gi : GraphInstance) (hv : gi.Valid) (fuel : Nat)
    (hfuel : gi.leftCount < fuel) (g : GandaciJava) :
    (∃ g', GandaciJava.maximumBipartiteGraphMatching gi.toTest fuel g = some g') ∧
    Event.OncePerRound [] (GandaciJava.history gi.toTest fuel g) ∧
    ∀ l visited, Event.called l visited ∈ GandaciJava.history gi.toTest fuel g →
      visited = false := by
  have hfuel' : gi.toTest.researcherCount < fuel := by simpa using hfuel
  obtain ⟨g', hrun, J⟩ := GandaciJava.maximumBipartiteGraphMatching_journey hv.toTest hfuel' g
  refine ⟨⟨g', hrun⟩, J.once [], ?_⟩
  intro l visited h
  have h1 : visited = false ∧ 1 ≤ l ∧ l ≤ gi.toTest.researcherCount := J.safe _ h
  exact h1.1

theorem pair_once_per_round_witness :
    GraphInstance.scenario.Valid ∧ GraphInstance.scenario.leftCount < 4 ∧
    (∃ g', GandaciJava.maximumBipartiteGraphMatching GraphInstance.scenario.toTest 4
      GandaciJava.fresh = some g') ∧
    Event.OncePerRound [] (GandaciJava.history GraphInstance.scenario.toTest 4 GandaciJava.fresh) ∧
    ∀ l visited,
      Event.called l visited ∈ GandaciJava.history GraphInstance.scenario.toTest 4
        GandaciJava.fresh → visited = false :=
  ⟨by decide, by decide,
    pair_once_per_round GraphInstance.scenario (by decide) 4 (by decide) GandaciJava.fresh⟩

/-- C18: for every valid graph instance every call of `GandaciJava::pair` made by
`maximumBipartiteGraphMatching` returns within nesting depth `leftCount`: the passes return,
the `do ... while` loop run with the nesting depth of `pair` bounded by `leftCount` returns the
same states, every call of `pair` is for a researcher of `1..leftCount` that is not marked
visited when the call is made, and no researcher is called twice between two resets of the
visit tracker, so the researchers of nested calls are pairwise distinct. -/
theorem pair_nesting_depth_le (gi : GraphInstance) (hv : gi.Valid) (fuel : Nat)
    (hfuel : gi.leftCount < fuel) (g : GandaciJava) :
    ∃ trace, GandaciJava.passes gi.toTest fuel g = some trace ∧
      GandaciJava.doWhile gi.toTest gi.leftCount fuel (GandaciJava.cleared gi.toTest g)
        = some trace ∧
      (∀ l visited, Event.called l visited ∈ GandaciJava.history gi.toTest fuel g →
        visited = false ∧ 1 ≤ l ∧ l ≤ gi.leftCount) ∧
      Event.OncePerRound [] (GandaciJava.history gi.toTest fuel g) := by
  have hfuel' : gi.toTest.researcherCount < fuel := by simpa using hfuel
  obtain ⟨trace, hpasses, _⟩ := GandaciJava.passes_spec hv.toTest hfuel' g
  obtain ⟨g', _, J⟩ := GandaciJava.maximumBipartiteGraphMatching_journey hv.toTest hfuel' g
  have hm : Matched gi.toTest (GandaciJava.cleared gi.toTest g).pairManager :=
    PairManager.matched_init gi.toTest g.pairManager
  have hdepth := GandaciJava.doWhile_depth hv.toTest hfuel' fuel
    (GandaciJava.cleared gi.toTest g) trace hm hpasses
  rw [GraphInstance.toTest_researcherCount] at hdepth
  refine ⟨trace, hpasses, hdepth, ?_, J.once []⟩
  intro l visited h
  have h1 : visited = false ∧ 1 ≤ l ∧ l ≤ gi.toTest.researcherCount := J.safe _ h
  rw [GraphInstance.toTest_researcherCount] at h1
  exact h1

theorem pair_nesting_depth_le_witness :
    GraphInstance.scenario.Valid ∧ GraphInstance.scenario.leftCount < 4 ∧
    ∃ trace, GandaciJava.passes GraphInstance.scenario.toTest 4 GandaciJava.fresh = some trace ∧
      GandaciJava.doWhile GraphInstance.scenario.toTest GraphInstance.scenario.leftCount 4
        (GandaciJava.cleared GraphInstance.scenario.toTest GandaciJava.fresh) = some trace ∧
      (∀ l visited,
        Event.called l visited ∈ GandaciJava.history GraphInstance.scenario.toTest 4
          GandaciJava.fresh → visited = false ∧ 1 ≤ l ∧ l ≤ GraphInstance.scenario.leftCount) ∧
      Event.OncePerRound []
        (GandaciJava.history GraphInstance.scenario.toTest 4 GandaciJava.fresh) :=
  ⟨by decide, by decide,
    pair_nesting_depth_le GraphInstance.scenario (by decide) 4 (by decide) GandaciJava.fresh⟩

/-- C20: for every valid graph instance the pairing state is a valid matching after
`initialize` and at every return of a call of `pair` made by the `for` loop of
`maximumBipartiteGraphMatching`; and when such a call returns true, its researcher was
unpaired before the call, is paired after it, and `getPairCount` is exactly one larger than
before the call. The state before a call of the `for` loop is the state at the previous return,
or the one `initialize` leaves: between two such calls only the visit tracker is written. -/
theorem valid_matching_at_every_return (gi : GraphInstance) (hv : gi.Valid) (fuel : Nat)
    (hfuel : gi.leftCount < fuel) (g : GandaciJava) :
    ∃ g', GandaciJava.maximumBipartiteGraphMatching gi.toTest fuel g = some g' ∧
      ValidPairing gi (GandaciJava.cleared gi.toTest g).pairManager ∧
      Event.Returns (ValidPairing gi) (GandaciJava.cleared gi.toTest g).pairManager
        (GandaciJava.history gi.toTest fuel g) := by
  have hfuel' : gi.toTest.researcherCount < fuel := by simpa using hfuel
  obtain ⟨g', hrun, J⟩ := GandaciJava.maximumBipartiteGraphMatching_journey hv.toTest hfuel' g
  have hm : Matched gi.toTest (GandaciJava.cleared gi.toTest g).pairManager :=
    PairManager.matched_init gi.toTest g.pairManager
  exact ⟨g', hrun, hm.validPairing hv,
    Event.returns_walk_weaken (fun pm h => h.validPairing hv) _ _ J.returns⟩

theorem valid_matching_at_every_return_witness :
    GraphInstance.scenario.Valid ∧ GraphInstance.scenario.leftCount < 4 ∧
    ∃ g', GandaciJava.maximumBipartiteGraphMatching GraphInstance.scenario.toTest 4
        GandaciJava.fresh = some g' ∧
      ValidPairing GraphInstance.scenario
        (GandaciJava.cleared GraphInstance.scenario.toTest GandaciJava.fresh).pairManager ∧
      Event.Returns (ValidPairing GraphInstance.scenario)
        (GandaciJava.cleared GraphInstance.scenario.toTest GandaciJava.fresh).pairManager
        (GandaciJava.history GraphInstance.scenario.toTest 4 GandaciJava.fresh) :=
  ⟨by decide, by decide,
    valid_matching_at_every_return GraphInstance.scenario (by decide) 4 (by decide)
      GandaciJava.fresh⟩
